import Mathlib

/-!
# Gambit: normal-form strategy layer, tree nodes and the subgame handler

A shallow embedding of the contingency (`gbtNfgContingency`) and support
(`gbtNfgSupport`) classes of `src/sources/game/nfstrat.cc`, of the node class of
`src/sources/node.h` and of `TreeWindow::SubgameMark` of `src/sources/gui/treewin.cc`.

Conventions of the embedding

* C++ `int`/`long` values are Lean `Int`s.  The counters and sums of type `int` are
  bounded by array lengths.  The flattened index of a contingency is a `long`, 64 bits
  in two's complement: every result of its arithmetic is reduced to the range
  `-2^63 ..< 2^63` by `wrapLong`.
* `gbtArray<T>` is a 1-based, bounds-checked array.  It is a `List`, read and written
  through `gbtArray.get?`/`gbtArray.set?`; an index outside `1..Length()` raises the
  library's index exception, which is `none` here.  Every operation that can raise
  returns an `Option`.
* Handles (`gbtNfgStrategy`, `gbtNfgOutcome`) are either null or refer to a
  representation record.
* The mutable representation shared by all handles of one normal form
  (`gbt_nfg_game_rep`: outcome table, revision counter, link to the extensive form) is
  passed explicitly to the operations that read or write it.
* A `Node` owns its children, so a tree is an inductive value; every node carries its
  address, node pointers compare by address, and a function `mem` dereferences the
  parent pointer where the code does.
-/

namespace Gambit

/-! ## Library containers -/

/-- Read `a[i]` of a `gbtArray<T>`: 1-based, `none` when `i` is outside `1..Length()`. -/
def gbtArray.get? {α : Type} (a : List α) (i : Int) : Option α :=
  if 1 ≤ i then a[(i - 1).toNat]? else none

/-- Write `a[i] = v` of a `gbtArray<T>`: 1-based, `none` when `i` is outside
`1..Length()`. -/
def gbtArray.set? {α : Type} (a : List α) (i : Int) (v : α) : Option (List α) :=
  if 1 ≤ i ∧ i ≤ (a.length : Int) then some (a.set (i - 1).toNat v) else none

/-! ## Strategies and games -/

/-- The record behind a strategy handle: `m_id` is the strategy's number in its player's
list, `m_player` the id of the owning player, `m_index` the strategy's contribution to the
flattened contingency index, `m_behav` the action chosen at each information set. -/
structure gbt_nfg_strategy_rep where
  m_id : Int
  m_player : Int
  m_index : Int
  m_behav : List Int
deriving DecidableEq, Repr

/-- A strategy handle: null (the value of `gbtNfgStrategy(0)`) or a reference. -/
inductive gbtNfgStrategy where
  | null
  | ref (rep : gbt_nfg_strategy_rep)
deriving DecidableEq, Repr

/-- `gbtNfgStrategy::GetIndex()`: the record's `m_index`.  The accessor is declared
outside `nfstrat.cc`; on a null handle the embedding takes the value `0`. -/
def gbtNfgStrategy.GetIndex : gbtNfgStrategy → Int
  | .null => 0
  | .ref r => r.m_index

/-- `gbtNfgStrategy::GetId()`: the record's `m_id`; `0` on a null handle, an index no
table has. -/
def gbtNfgStrategy.GetId : gbtNfgStrategy → Int
  | .null => 0
  | .ref r => r.m_id

/-- `gbtNfgStrategy::GetPlayer().GetId()`: the record's `m_player`; `0` on a null
handle, an index no table has. -/
def gbtNfgStrategy.GetPlayerId : gbtNfgStrategy → Int
  | .null => 0
  | .ref r => r.m_player

/-- `gbtNfgStrategy::GetBehavior()`: a pointer to the record's action array, null for a
null handle. -/
def gbtNfgStrategy.GetBehavior : gbtNfgStrategy → Option (List Int)
  | .null => none
  | .ref r => some r.m_behav

/-- A normal-form game handle.  `rep` is the identity (address) of the shared
representation: `operator==` on games compares it.  `m_players` is the player list, each
player being the list of its strategies. -/
structure gbtNfgGame where
  rep : Nat
  m_players : List (List gbt_nfg_strategy_rep)
deriving DecidableEq, Repr

/-- `gbtNfgGame::NumPlayers()`. -/
def gbtNfgGame.NumPlayers (g : gbtNfgGame) : Int := g.m_players.length

/-- `gbtNfgGame::NumStrats(pl)`: the number of strategies of player `pl`. -/
def gbtNfgGame.NumStrats (g : gbtNfgGame) (pl : Int) : Option Int :=
  match gbtArray.get? g.m_players pl with
  | none => none
  | some p => some (p.length : Int)

/-- `gbtNfgGame::NumStrats()`: the array of strategy counts, one per player. -/
def gbtNfgGame.NumStratsArray (g : gbtNfgGame) : List Int :=
  g.m_players.map (fun p => (p.length : Int))

/-- `gbtNfgGame::GetPlayer(pl).GetStrategy(st)`. -/
def gbtNfgGame.GetStrategy (g : gbtNfgGame) (pl st : Int) : Option gbtNfgStrategy :=
  match gbtArray.get? g.m_players pl with
  | none => none
  | some p =>
    match gbtArray.get? p st with
    | none => none
    | some r => some (.ref r)

/-- The handle `s` is one of the strategies of player `p` of the game. -/
def gbtNfgGame.IsStrategyOf (g : gbtNfgGame) (p : Int) (s : gbtNfgStrategy) : Prop :=
  ∃ st : Int, g.GetStrategy p st = some s

/-- Modelled from the spec: the numbering of one player's strategies (the code that
fills `m_id`, `m_player` and `m_index` is not under `src/`).  Strategy number `j` of
player `pl` carries `m_player = pl`, `m_id = j` and the contribution
`m_index = (j - 1) * stride`. -/
def strategiesIndexed (pl stride : Int) : Int → List gbt_nfg_strategy_rep → Bool
  | _, [] => true
  | j, r :: rs =>
    (decide (r.m_player = pl) && decide (r.m_id = j) && decide (r.m_index = (j - 1) * stride))
      && strategiesIndexed pl stride (j + 1) rs

/-- Modelled from the spec: the numbering of all players' strategies; the stride of a
player is the product of the strategy counts of the players placed before it. -/
def playersIndexed : Int → Int → List (List gbt_nfg_strategy_rep) → Bool
  | _, _, [] => true
  | pl, stride, p :: ps =>
    strategiesIndexed pl stride 1 p && playersIndexed (pl + 1) (stride * (p.length : Int)) ps

/-- Modelled from the spec: a game whose strategies are numbered and indexed as the
spec describes, starting with player 1 at stride 1. -/
def gbtNfgGame.Indexed (g : gbtNfgGame) : Prop := playersIndexed 1 1 g.m_players = true

instance (g : gbtNfgGame) : Decidable g.Indexed := by
  unfold gbtNfgGame.Indexed; infer_instance

/-- Every player of the game has at least one strategy. -/
def gbtNfgGame.Playable (g : gbtNfgGame) : Prop := ∀ p ∈ g.m_players, p ≠ []

instance (g : gbtNfgGame) : Decidable g.Playable := by
  unfold gbtNfgGame.Playable; infer_instance

/-- Modelled from the spec: the stride of player `pl`, the product of the strategy
counts of the players placed before it. -/
def gbtNfgGame.stride (g : gbtNfgGame) (pl : Int) : Int :=
  ((g.m_players.take (pl - 1).toNat).map (fun p => (p.length : Int))).prod

/-- The size of the index space: the product of all players' strategy counts. -/
def gbtNfgGame.NumContingencies (g : gbtNfgGame) : Int := g.NumStratsArray.prod

/-! ## Contingencies -/

/-- The value a `long` holds after an arithmetic result `x`: `x` reduced modulo `2^64`
to the range `-2^63 ..< 2^63`. -/
def wrapLong (x : Int) : Int :=
  (x + 9223372036854775808) % 18446744073709551616 - 9223372036854775808

/-- The index space of the game fits a `long`: the product of the players' strategy
counts is at most `2^63`, so every flattened index `0 ..< product` is a `long` value. -/
def gbtNfgGame.FitsLong (g : gbtNfgGame) : Prop := g.NumContingencies ≤ 9223372036854775808

instance (g : gbtNfgGame) : Decidable g.FitsLong := by
  unfold gbtNfgGame.FitsLong; infer_instance

/-- `gbtNfgContingency`: the game handle, the flattened index (a `long`) and the
per-player array of chosen strategies. -/
structure gbtNfgContingency where
  m_nfg : gbtNfgGame
  index : Int
  profile : List gbtNfgStrategy
deriving DecidableEq, Repr

/-- The loop of the constructor, over the remaining players `pl`:
`profile[pl] = GetPlayer(pl).GetStrategy(1); index += profile[pl].GetIndex();`, the sum
in `long` arithmetic. -/
def gbtNfgContingency.ctorLoop (g : gbtNfgGame) :
    List Nat → gbtNfgContingency → Option gbtNfgContingency
  | [], c => some c
  | pl :: rest, c =>
    match g.GetStrategy (pl : Int) 1 with
    | none => none
    | some s =>
      match gbtArray.set? c.profile (pl : Int) s with
      | none => none
      | some prof =>
        gbtNfgContingency.ctorLoop g rest
          { c with profile := prof, index := wrapLong (c.index + s.GetIndex) }

/-- `gbtNfgContingency::gbtNfgContingency(const gbtNfgGame &)`: index `0`, a profile of
`NumPlayers()` null handles, then the loop over `pl = 1..NumPlayers()`. -/
def gbtNfgContingency.new (g : gbtNfgGame) : Option gbtNfgContingency :=
  gbtNfgContingency.ctorLoop g (List.range' 1 g.m_players.length)
    { m_nfg := g, index := 0, profile := List.replicate g.m_players.length .null }

/-- `gbtNfgContingency::GetIndex()`. -/
def gbtNfgContingency.GetIndex (c : gbtNfgContingency) : Int := c.index

/-- `gbtNfgContingency::Get(p)`. -/
def gbtNfgContingency.Get (c : gbtNfgContingency) (p : Int) : Option gbtNfgStrategy :=
  gbtArray.get? c.profile p

/-- `gbtNfgContingency::operator[](p)`. -/
def gbtNfgContingency.subscript (c : gbtNfgContingency) (p : Int) : Option gbtNfgStrategy :=
  gbtArray.get? c.profile p

/-- `gbtNfgContingency::Set(p, s)`:
`index += s.GetIndex() - profile[p].GetIndex(); profile[p] = s;`, the difference and the
sum in `long` arithmetic. -/
def gbtNfgContingency.Set (c : gbtNfgContingency) (p : Int) (s : gbtNfgStrategy) :
    Option gbtNfgContingency :=
  match gbtArray.get? c.profile p with
  | none => none
  | some old =>
    match gbtArray.set? c.profile p s with
    | none => none
    | some prof =>
      some { c with index := wrapLong (c.index + wrapLong (s.GetIndex - old.GetIndex)),
                    profile := prof }

/-- A finite sequence of `Set(p, s)` calls, in order. -/
def gbtNfgContingency.SetAll :
    gbtNfgContingency → List (Int × gbtNfgStrategy) → Option gbtNfgContingency
  | c, [] => some c
  | c, (p, s) :: rest =>
    match c.Set p s with
    | none => none
    | some c1 => gbtNfgContingency.SetAll c1 rest

/-- The from-scratch encoding of a profile: the sum over all players of the
contribution `GetIndex()` of the strategy in the player's slot. -/
def encodeProfile (profile : List gbtNfgStrategy) : Int :=
  (profile.map gbtNfgStrategy.GetIndex).sum

/-- `gbtNfgContingency::IsValid()`:
`for (i = profile.Length(); i > 0 && profile[i] != 0; i--); return i;`
The loop variable is run down from `i`; the result is the conversion of the final `i`
to `bool`. -/
def gbtNfgContingency.IsValidLoop (profile : List gbtNfgStrategy) : Nat → Option Bool
  | 0 => some (decide ((0 : Int) ≠ 0))
  | i + 1 =>
    match gbtArray.get? profile ((i + 1 : Nat) : Int) with
    | none => none
    | some s =>
      if s ≠ gbtNfgStrategy.null then gbtNfgContingency.IsValidLoop profile i
      else some (decide (((i + 1 : Nat) : Int) ≠ 0))

/-- `gbtNfgContingency::IsValid()`. -/
def gbtNfgContingency.IsValid (c : gbtNfgContingency) : Option Bool :=
  gbtNfgContingency.IsValidLoop c.profile c.profile.length

/-! ## The shared representation of a normal form: outcomes and payoffs -/

/-- The record behind an outcome handle: one payoff per player. -/
structure gbt_nfg_outcome_rep where
  m_id : Int
  m_payoffs : List ℚ
deriving DecidableEq, Repr

/-- An outcome handle / a cell of the outcome table: null ("no outcome") or a
reference to an outcome record. -/
inductive gbtNfgOutcome where
  | null
  | ref (rep : gbt_nfg_outcome_rep)
deriving DecidableEq, Repr

/-- A player handle, as far as `GetPayoff` uses it: its id. -/
structure gbtNfgPlayer where
  m_id : Int
deriving DecidableEq, Repr

/-- `gbtNfgPlayer::GetId()`. -/
def gbtNfgPlayer.GetId (p : gbtNfgPlayer) : Int := p.m_id

/-- The mutable representation shared by every handle of one normal form:
`m_results` is the outcome table (empty when it is not materialized), `m_revision` the
revision counter, `m_efg` the link to the source extensive-form game (`none` when there
is none). -/
structure gbt_nfg_game_rep where
  m_results : List gbtNfgOutcome
  m_revision : Int
  m_efg : Option Nat
deriving DecidableEq, Repr

/-- Modelled from the spec: `gbtNfgGame::BreakLink()` (not under `src/`) severs the
normal form's link to its source extensive-form game and touches nothing else. -/
def gbt_nfg_game_rep.BreakLink (r : gbt_nfg_game_rep) : gbt_nfg_game_rep :=
  { r with m_efg := none }

/-- `gbtNfgContingency::SetOutcome(outcome)`:
`m_results[index + 1] = outcome.rep; m_revision++; BreakLink();`. -/
def gbtNfgContingency.SetOutcome (r : gbt_nfg_game_rep) (c : gbtNfgContingency)
    (outcome : gbtNfgOutcome) : Option gbt_nfg_game_rep :=
  match gbtArray.set? r.m_results (c.index + 1) outcome with
  | none => none
  | some t => some ({ r with m_results := t, m_revision := r.m_revision + 1 }).BreakLink

/-- `gbtNfgContingency::GetOutcome()`: `m_results[index + 1]`. -/
def gbtNfgContingency.GetOutcome (r : gbt_nfg_game_rep) (c : gbtNfgContingency) :
    Option gbtNfgOutcome :=
  gbtArray.get? r.m_results (c.index + 1)

/-- The loop of the tracing branch of `GetPayoff`:
`behav[pl] = profile[pl].GetBehavior()` for the players `pl` of the list. -/
def gbtNfgContingency.behavLoop (profile : List gbtNfgStrategy) :
    List Nat → Option (List (Option (List Int)))
  | [] => some []
  | pl :: rest =>
    match gbtArray.get? profile (pl : Int) with
    | none => none
    | some s =>
      match gbtNfgContingency.behavLoop profile rest with
      | none => none
      | some bs => some (s.GetBehavior :: bs)

/-- The payoff read from the outcome table: `m_results[index + 1]->m_payoffs[id]`.
Dereferencing a null cell is a failure. -/
def gbtNfgContingency.tablePayoff (r : gbt_nfg_game_rep) (c : gbtNfgContingency)
    (id : Int) : Option ℚ :=
  match gbtArray.get? r.m_results (c.index + 1) with
  | none => none
  | some .null => none
  | some (.ref o) => gbtArray.get? o.m_payoffs id

/-- `gbtNfgContingency::GetPayoff(p_player)`.  `Payoff` is
`gbtEfgGame(m_efg).Payoff(behav, payoff)`, the tracing of the extensive-form game (not
under `src/`): from the link and the per-player behaviour arrays it fills the payoff
vector. -/
def gbtNfgContingency.GetPayoff
    (Payoff : Option Nat → List (Option (List Int)) → List ℚ)
    (r : gbt_nfg_game_rep) (c : gbtNfgContingency) (p_player : gbtNfgPlayer) : Option ℚ :=
  if r.m_results.length > 0 then
    gbtNfgContingency.tablePayoff r c p_player.GetId
  else
    match gbtNfgContingency.behavLoop c.profile (List.range' 1 c.m_nfg.m_players.length) with
    | none => none
    | some behav => gbtArray.get? (Payoff r.m_efg behav) p_player.GetId

/-! ## Supports -/

/-- `gbtPVector<int>::operator()(pl, st)` read: the table is one row per player, both
indices 1-based and bounds-checked. -/
def gbtPVector.get? (rows : List (List Int)) (pl st : Int) : Option Int :=
  match gbtArray.get? rows pl with
  | none => none
  | some row => gbtArray.get? row st

/-- `gbtPVector<int>::operator()(pl, st)` write. -/
def gbtPVector.set? (rows : List (List Int)) (pl st : Int) (v : Int) :
    Option (List (List Int)) :=
  match gbtArray.get? rows pl with
  | none => none
  | some row =>
    match gbtArray.set? row st v with
    | none => none
    | some row1 => gbtArray.set? rows pl row1

/-- `gbtPVector<int>::Lengths()[pl]`. -/
def gbtPVector.rowLength? (rows : List (List Int)) (pl : Int) : Option Nat :=
  match gbtArray.get? rows pl with
  | none => none
  | some row => some row.length

/-- `gbtNfgSupport`: the game handle, the label and the table of flags
`m_strategies`, one row per player and one flag per strategy. -/
structure gbtNfgSupport where
  m_nfg : gbtNfgGame
  m_label : String
  m_strategies : List (List Int)
deriving DecidableEq, Repr

/-- `gbtNfgSupport::gbtNfgSupport(const gbtNfgGame &)`: a table shaped by
`p_nfg.NumStrats()`, then `m_strategies = 1` sets every flag. -/
def gbtNfgSupport.new (g : gbtNfgGame) : gbtNfgSupport :=
  { m_nfg := g, m_label := "",
    m_strategies := g.NumStratsArray.map (fun n => List.replicate n.toNat 1) }

/-- `gbtNfgSupport::operator==`: same game and same flag table. -/
def gbtNfgSupport.eq (a b : gbtNfgSupport) : Bool :=
  decide (a.m_nfg.rep = b.m_nfg.rep) && decide (a.m_strategies = b.m_strategies)

/-- The loop of `NumStrats(pl)`: `total += m_strategies(pl, st)` for the `st` of the
list. -/
def gbtNfgSupport.NumStratsLoop (s : gbtNfgSupport) (pl : Int) : List Nat → Int → Option Int
  | [], total => some total
  | st :: rest, total =>
    match gbtPVector.get? s.m_strategies pl (st : Int) with
    | none => none
    | some f => gbtNfgSupport.NumStratsLoop s pl rest (total + f)

/-- `gbtNfgSupport::NumStrats(pl)`: the sum of the flags of player `pl`, for
`st = 1..m_strategies.Lengths()[pl]`. -/
def gbtNfgSupport.NumStrats (s : gbtNfgSupport) (pl : Int) : Option Int :=
  match gbtPVector.rowLength? s.m_strategies pl with
  | none => none
  | some n => gbtNfgSupport.NumStratsLoop s pl (List.range' 1 n) 0

/-- `gbtNfgSupport::Contains(p_strategy)`:
`m_strategies(p_strategy.GetPlayer().GetId(), p_strategy.GetId())` converted to `bool`. -/
def gbtNfgSupport.Contains (s : gbtNfgSupport) (p_strategy : gbtNfgStrategy) : Option Bool :=
  match gbtPVector.get? s.m_strategies p_strategy.GetPlayerId p_strategy.GetId with
  | none => none
  | some f => some (decide (f ≠ 0))

/-- `gbtNfgSupport::AddStrategy(s)`: `m_strategies(s.GetPlayer().GetId(), s.GetId()) = 1`. -/
def gbtNfgSupport.AddStrategy (a : gbtNfgSupport) (s : gbtNfgStrategy) : Option gbtNfgSupport :=
  match gbtPVector.set? a.m_strategies s.GetPlayerId s.GetId 1 with
  | none => none
  | some t => some { a with m_strategies := t }

/-- `gbtNfgSupport::RemoveStrategy(s)`:
`m_strategies(s.GetPlayer().GetId(), s.GetId()) = 0`. -/
def gbtNfgSupport.RemoveStrategy (a : gbtNfgSupport) (s : gbtNfgStrategy) :
    Option gbtNfgSupport :=
  match gbtPVector.set? a.m_strategies s.GetPlayerId s.GetId 0 with
  | none => none
  | some t => some { a with m_strategies := t }

/-- The inner loop of `IsSubset`, over the strategies `st` of player `pl`:
`if (m_strategies(pl, st) && !s.m_strategies(pl, st)) return false;`.
The result is `false` when the loop returned `false` and `true` when it ran to its
end; `&&` reads the second table only when the first flag is set. -/
def gbtNfgSupport.IsSubsetInner (a b : gbtNfgSupport) (pl : Int) : List Nat → Option Bool
  | [] => some true
  | st :: rest =>
    match gbtPVector.get? a.m_strategies pl (st : Int) with
    | none => none
    | some fa =>
      if fa ≠ 0 then
        match gbtPVector.get? b.m_strategies pl (st : Int) with
        | none => none
        | some fb =>
          if ¬ (fb ≠ 0) then some false
          else gbtNfgSupport.IsSubsetInner a b pl rest
      else gbtNfgSupport.IsSubsetInner a b pl rest

/-- The outer loop of `IsSubset`, over the players `pl`:
`if (NumStrats(pl) > s.NumStrats(pl)) return false;` and then the inner loop for
`st = 1..m_nfg.NumStrats(pl)`. -/
def gbtNfgSupport.IsSubsetOuter (a b : gbtNfgSupport) : List Nat → Option Bool
  | [] => some true
  | pl :: rest =>
    match a.NumStrats (pl : Int), b.NumStrats (pl : Int) with
    | some na, some nb =>
      if na > nb then some false
      else
        match a.m_nfg.NumStrats (pl : Int) with
        | none => none
        | some n =>
          match gbtNfgSupport.IsSubsetInner a b (pl : Int) (List.range' 1 n.toNat) with
          | none => none
          | some false => some false
          | some true => gbtNfgSupport.IsSubsetOuter a b rest
    | _, _ => none

/-- `gbtNfgSupport::IsSubset(s)`: `false` at once for a different game, else the loop
over `pl = 1..m_nfg.NumPlayers()`. -/
def gbtNfgSupport.IsSubset (a b : gbtNfgSupport) : Option Bool :=
  if a.m_nfg.rep ≠ b.m_nfg.rep then some false
  else gbtNfgSupport.IsSubsetOuter a b (List.range' 1 a.m_nfg.m_players.length)

/-- The loop of `gbtNfgSupport::IsValid()`: `if (NumStrats(pl) == 0) return false;`. -/
def gbtNfgSupport.IsValidLoop (a : gbtNfgSupport) : List Nat → Option Bool
  | [] => some true
  | pl :: rest =>
    match a.NumStrats (pl : Int) with
    | none => none
    | some n => if n = 0 then some false else gbtNfgSupport.IsValidLoop a rest

/-- `gbtNfgSupport::IsValid()`: the loop over `pl = 1..m_nfg.NumPlayers()`. -/
def gbtNfgSupport.IsValid (a : gbtNfgSupport) : Option Bool :=
  gbtNfgSupport.IsValidLoop a (List.range' 1 a.m_nfg.m_players.length)

/-- The supports of game `g` that the class can produce: the constructor's result and
whatever `AddStrategy` and `RemoveStrategy` calls make of it. -/
inductive gbtNfgSupport.Reachable (g : gbtNfgGame) : gbtNfgSupport → Prop where
  | init : gbtNfgSupport.Reachable g (gbtNfgSupport.new g)
  | add (a b : gbtNfgSupport) (s : gbtNfgStrategy) :
      gbtNfgSupport.Reachable g a → a.AddStrategy s = some b → gbtNfgSupport.Reachable g b
  | remove (a b : gbtNfgSupport) (s : gbtNfgStrategy) :
      gbtNfgSupport.Reachable g a → a.RemoveStrategy s = some b → gbtNfgSupport.Reachable g b

/-- The contingencies of game `g` that the class can produce from strategies of the
game: the constructor's result and whatever `Set(p, s)` calls, each with `s` a strategy
of player `p`, make of it. -/
inductive gbtNfgContingency.Reachable (g : gbtNfgGame) : gbtNfgContingency → Prop where
  | init (c : gbtNfgContingency) :
      gbtNfgContingency.new g = some c → gbtNfgContingency.Reachable g c
  | set (c d : gbtNfgContingency) (p : Int) (s : gbtNfgStrategy) :
      gbtNfgContingency.Reachable g c → g.IsStrategyOf p s → c.Set p s = some d →
      gbtNfgContingency.Reachable g d

/-- Follows the spec's words: decoding a flattened index by successive
division/remainder by the strategy counts; the result is the 1-based strategy number of
each player. -/
def decodeIndex : List Int → Int → List Int
  | [], _ => []
  | d :: ds, idx => (idx % d + 1) :: decodeIndex ds (idx / d)

/-- Re-encoding: the profile holding, for each player in turn, the player's strategy
with the given number. -/
def profileOfIds : List (List gbt_nfg_strategy_rep) → List Int → Option (List gbtNfgStrategy)
  | [], [] => some []
  | p :: ps, st :: rest =>
    match gbtArray.get? p st with
    | none => none
    | some r =>
      match profileOfIds ps rest with
      | none => none
      | some ss => some (gbtNfgStrategy.ref r :: ss)
  | _, _ => none

/-- The class invariant of a contingency of game `g`: it belongs to `g`, has one slot
per player, its flattened index is the from-scratch encoding of its profile as a `long`
holds it, and every player's slot holds one of that player's strategies. -/
def gbtNfgContingency.Inv (g : gbtNfgGame) (c : gbtNfgContingency) : Prop :=
  c.m_nfg = g ∧ c.profile.length = g.m_players.length ∧
  c.index = wrapLong (encodeProfile c.profile) ∧
  ∀ (i : Nat) (p : List gbt_nfg_strategy_rep), g.m_players[i]? = some p →
    ∃ r, r ∈ p ∧ c.profile[i]? = some (gbtNfgStrategy.ref r)

/-- A game of two players with two and three strategies, numbered and indexed as the
spec describes (strides 1 and 2); used to instantiate the theorems. -/
def exampleGame : gbtNfgGame :=
  { rep := 1,
    m_players :=
      [[⟨1, 1, 0, [1]⟩, ⟨2, 1, 1, [2]⟩],
       [⟨1, 2, 0, [1]⟩, ⟨2, 2, 2, [2]⟩, ⟨3, 2, 4, [3]⟩]] }

/-- The third strategy of player 2 of `exampleGame`. -/
def exampleStrategy : gbtNfgStrategy := .ref ⟨3, 2, 4, [3]⟩

/-- The contingency of `exampleGame` in which both players play their first strategy. -/
def exampleContingency : gbtNfgContingency :=
  { m_nfg := exampleGame, index := 0,
    profile := [.ref ⟨1, 1, 0, [1]⟩, .ref ⟨1, 2, 0, [1]⟩] }

/-- A contingency of `exampleGame` reached by one `Set`: player 2 on its third
strategy. -/
def exampleContingency2 : gbtNfgContingency :=
  { m_nfg := exampleGame, index := 4,
    profile := [.ref ⟨1, 1, 0, [1]⟩, .ref ⟨3, 2, 4, [3]⟩] }

/-- A contingency whose second slot holds the null placeholder. -/
def exampleContingencyNull : gbtNfgContingency :=
  { m_nfg := exampleGame, index := 0,
    profile := [.ref ⟨1, 1, 0, [1]⟩, .null] }

/-- An outcome paying 1 to player 1 and 0 to player 2. -/
def exampleOutcome : gbtNfgOutcome := .ref ⟨1, [1, 0]⟩

/-- A normal-form representation of `exampleGame` with a materialized table of six
cells holding no outcome, still linked to an extensive-form game. -/
def exampleRepTable : gbt_nfg_game_rep :=
  { m_results := [.null, .null, .null, .null, .null, .null], m_revision := 0, m_efg := some 7 }

/-- A normal-form representation without a materialized table, linked to an
extensive-form game. -/
def exampleRepNoTable : gbt_nfg_game_rep :=
  { m_results := [], m_revision := 0, m_efg := some 7 }

/-- A stand-in for the tracing of the extensive-form game: every trace yields the payoff
vector `(v, 0)`. -/
def examplePayoff (v : ℚ) : Option Nat → List (Option (List Int)) → List ℚ :=
  fun _ _ => [v, 0]

/-- The class invariant of a support of game `g`: it belongs to `g`, its table has one
row per player with one flag per strategy of that player, and every flag is 0 or 1. -/
def gbtNfgSupport.Inv (g : gbtNfgGame) (a : gbtNfgSupport) : Prop :=
  a.m_nfg = g ∧ a.m_strategies.length = g.m_players.length ∧
  ∀ (i : Nat) (p : List gbt_nfg_strategy_rep), g.m_players[i]? = some p →
    ∃ row, a.m_strategies[i]? = some row ∧ row.length = p.length ∧
      ∀ f ∈ row, f = 0 ∨ f = 1

/-- Flag by flag, every set flag of the first row is set in the second. -/
def flagsSubset : List Int → List Int → Bool
  | fa :: ra, fb :: rb => !(decide (fa ≠ 0) && decide (fb = 0)) && flagsSubset ra rb
  | _, _ => true

/-- Row by row, every set flag of the first table is set in the second. -/
def tableSubset : List (List Int) → List (List Int) → Bool
  | ra :: ta, rb :: tb => flagsSubset ra rb && tableSubset ta tb
  | _, _ => true

/-- The support of `exampleGame` holding every strategy. -/
def exampleSupportFull : gbtNfgSupport := gbtNfgSupport.new exampleGame

/-- A support of another game (a different representation, same shape). -/
def exampleSupportOther : gbtNfgSupport :=
  { m_nfg := { exampleGame with rep := 2 }, m_label := "", m_strategies := [[1, 1], [1, 1, 1]] }

/-- The support of `exampleGame` from which the third strategy of player 2 is removed. -/
def exampleSupportSmall : gbtNfgSupport :=
  { m_nfg := exampleGame, m_label := "", m_strategies := [[1, 1], [1, 1, 0]] }

/-- The slot of a player holds one of that player's strategies. -/
def SlotOK (p : List gbt_nfg_strategy_rep) (h : gbtNfgStrategy) : Prop :=
  ∃ r ∈ p, h = gbtNfgStrategy.ref r

/-- The loop of `NumStrats()`: `ret[pl] = NumStrats(pl)` for the players `pl` of the
list. -/
def gbtNfgSupport.NumStratsArrayLoop (a : gbtNfgSupport) : List Nat → Option (List Int)
  | [] => some []
  | pl :: rest =>
    match a.NumStrats (pl : Int) with
    | none => none
    | some n =>
      match gbtNfgSupport.NumStratsArrayLoop a rest with
      | none => none
      | some ns => some (n :: ns)

/-- `gbtNfgSupport::NumStrats()`: the array holding `NumStrats(pl)` for
`pl = 1..m_nfg.NumPlayers()`. -/
def gbtNfgSupport.NumStratsArray (a : gbtNfgSupport) : Option (List Int) :=
  gbtNfgSupport.NumStratsArrayLoop a (List.range' 1 a.m_nfg.m_players.length)

/-- The loop of `ProfileLength()`: `total += m_strategies[i]` for the `i` of the list;
`m_strategies[i]` is the flat, 1-based access to the table, the rows one after the
other. -/
def gbtNfgSupport.ProfileLengthLoop (a : gbtNfgSupport) : List Nat → Int → Option Int
  | [], total => some total
  | i :: rest, total =>
    match gbtArray.get? a.m_strategies.flatten (i : Int) with
    | none => none
    | some f => gbtNfgSupport.ProfileLengthLoop a rest (total + f)

/-- `gbtNfgSupport::ProfileLength()`: the sum of all flags, for
`i = 1..m_strategies.Length()`. -/
def gbtNfgSupport.ProfileLength (a : gbtNfgSupport) : Option Int :=
  gbtNfgSupport.ProfileLengthLoop a (List.range' 1 a.m_strategies.flatten.length) 0

/-- The loop of `gbtNfgSupport::GetStrategy(pl, st)` over the strategy numbers `i` of
the list, `index` being the running count:
`if (m_strategies(pl, i)) { if (++index == st) return m_nfg.GetPlayer(pl).GetStrategy(i); }`,
and `return 0` (the null handle) after the loop. -/
def gbtNfgSupport.GetStrategyLoop (a : gbtNfgSupport) (pl st : Int) :
    List Nat → Int → Option gbtNfgStrategy
  | [], _ => some gbtNfgStrategy.null
  | i :: rest, index =>
    match gbtPVector.get? a.m_strategies pl (i : Int) with
    | none => none
    | some f =>
      if f ≠ 0 then
        if index + 1 = st then a.m_nfg.GetStrategy pl (i : Int)
        else gbtNfgSupport.GetStrategyLoop a pl st rest (index + 1)
      else gbtNfgSupport.GetStrategyLoop a pl st rest index

/-- `gbtNfgSupport::GetStrategy(pl, st)`: the loop for `i = 1..m_nfg.NumStrats(pl)`,
starting with `index = 0`. -/
def gbtNfgSupport.GetStrategy (a : gbtNfgSupport) (pl st : Int) : Option gbtNfgStrategy :=
  match a.m_nfg.NumStrats pl with
  | none => none
  | some n => gbtNfgSupport.GetStrategyLoop a pl st (List.range' 1 n.toNat) 0

/-- The number of set flags among the first `k` flags of a row. -/
def flagsBefore (row : List Int) (k : Nat) : Nat :=
  (row.take k).countP (fun f => decide (f ≠ 0))

/-- The loop of `gbtNfgSupport::GetIndex(p_strategy)` over the `st` of the list:
`if (GetStrategy(pl, st) == p_strategy) return st;`, and `return 0` after the loop. -/
def gbtNfgSupport.GetIndexLoop (a : gbtNfgSupport) (p_strategy : gbtNfgStrategy) (pl : Int) :
    List Nat → Option Int
  | [] => some 0
  | st :: rest =>
    match a.GetStrategy pl (st : Int) with
    | none => none
    | some s =>
      if s = p_strategy then some (st : Int)
      else gbtNfgSupport.GetIndexLoop a p_strategy pl rest

/-- `gbtNfgSupport::GetIndex(p_strategy)`: with `pl = p_strategy.GetPlayer().GetId()`,
the loop for `st = 1..NumStrats(pl)`. -/
def gbtNfgSupport.GetIndex (a : gbtNfgSupport) (p_strategy : gbtNfgStrategy) : Option Int :=
  match a.NumStrats p_strategy.GetPlayerId with
  | none => none
  | some n =>
    gbtNfgSupport.GetIndexLoop a p_strategy p_strategy.GetPlayerId (List.range' 1 n.toNat)

/-- `gbtNfgSupport::operator=(p_support)`:
`if (this != &p_support && m_nfg == p_support.m_nfg) { m_label = p_support.m_label;
m_strategies = p_support.m_strategies; } return *this;`.
`sameObject` is the outcome of the address test `this == &p_support`. -/
def gbtNfgSupport.assign (a p_support : gbtNfgSupport) (sameObject : Bool) : gbtNfgSupport :=
  if sameObject = false ∧ a.m_nfg.rep = p_support.m_nfg.rep then
    { a with m_label := p_support.m_label, m_strategies := p_support.m_strategies }
  else a

/-- A support of `exampleGame` with a label of its own. -/
def exampleSupportLabelled : gbtNfgSupport :=
  { m_nfg := exampleGame, m_label := "S1", m_strategies := [[1, 0], [1, 1, 0]] }

/-! ## The extensive-form tree (`node.h`) -/

/-- `class Node`: `addr` is the identity (address) of the node; `infoset`, `parent` and
`outcome` are the non-owning pointers of the class, an address or null (`none`);
`children` is the owned child list.  Pointers to nodes compare by address. -/
inductive Node where
  | mk (addr : Nat) (name : String) (infoset : Option Nat) (parent : Option Nat)
      (outcome : Option Nat) (children : List Node)
deriving Repr

/-- The identity of a node. -/
def Node.addr : Node → Nat
  | .mk a _ _ _ _ _ => a

/-- `Node::GetName()`. -/
def Node.GetName : Node → String
  | .mk _ nm _ _ _ _ => nm

/-- `Node::GetInfoset()`. -/
def Node.GetInfoset : Node → Option Nat
  | .mk _ _ i _ _ _ => i

/-- `Node::GetParent()`: the parent pointer. -/
def Node.GetParent : Node → Option Nat
  | .mk _ _ _ p _ _ => p

/-- `Node::GetOutcome()`. -/
def Node.GetOutcome : Node → Option Nat
  | .mk _ _ _ _ o _ => o

/-- The child list `children` of a node. -/
def Node.children : Node → List Node
  | .mk _ _ _ _ _ cs => cs

/-- `Node::NumChildren()`. -/
def Node.NumChildren (n : Node) : Int := n.children.length

mutual
/-- `Node::DeleteOutcome(outc)`: `if (outc == outcome) outcome = 0;` and then the call
on every child, `children[i]->DeleteOutcome(outc)` for `i = 1..children.Length()`. -/
def Node.DeleteOutcome (outc : Option Nat) : Node → Node
  | .mk a nm i p o cs =>
    .mk a nm i p (if outc = o then none else o) (Node.DeleteOutcomeLoop outc cs)
/-- The loop of `Node::DeleteOutcome` over the child list. -/
def Node.DeleteOutcomeLoop (outc : Option Nat) : List Node → List Node
  | [] => []
  | c :: cs => Node.DeleteOutcome outc c :: Node.DeleteOutcomeLoop outc cs
end

mutual
/-- The nodes of the subtree rooted at a node, the node first. -/
def Node.subtree : Node → List Node
  | .mk a nm i p o cs => .mk a nm i p o cs :: Node.subtreeList cs
/-- The nodes of the subtrees of a child list, in order. -/
def Node.subtreeList : List Node → List Node
  | [] => []
  | c :: cs => Node.subtree c ++ Node.subtreeList cs
end

mutual
/-- The tree without its outcome references: identities, names, infoset and parent
pointers and the child lists, every outcome pointer set to null. -/
def Node.skeleton : Node → Node
  | .mk a nm i p _ cs => .mk a nm i p none (Node.skeletonList cs)
/-- The skeletons of a child list. -/
def Node.skeletonList : List Node → List Node
  | [] => []
  | c :: cs => Node.skeleton c :: Node.skeletonList cs
end

/-- A tree of three nodes: the root, with outcome 5, has two terminal children with
outcomes 5 and 6. -/
def exampleTree : Node :=
  .mk 1 "root" (some 10) none (some 5)
    [.mk 2 "left" none (some 1) (some 5) [], .mk 3 "right" none (some 1) (some 6) []]

/-- A pointer to a node: null (`none`) or the node it points to. -/
abbrev NodePtr := Option Node

/-- `gBlock<Node *>::Find(t)` (the container is not under `src/`): the 1-based position
of the first element equal to the pointer `t`, and 0 when there is none. -/
def gBlock.Find : List Node → Nat → Int
  | [], _ => 0
  | c :: cs, t =>
    if c.addr = t then 1
    else if gBlock.Find cs t = 0 then 0 else gBlock.Find cs t + 1

/-- `Node::NextSibling()`; `mem` dereferences a node pointer, `children[i]` is the
1-based checked access of the containers:
`if (!parent) return 0;
if (parent->children.Find(this) == parent->children.Length()) return 0;
else return parent->children[parent->children.Find(this) + 1];`. -/
def Node.NextSibling (mem : Nat → NodePtr) (this : Node) : Option NodePtr :=
  match this.GetParent with
  | none => some none
  | some pa =>
    match mem pa with
    | none => none
    | some parent =>
      if gBlock.Find parent.children this.addr = (parent.children.length : Int) then some none
      else
        match gbtArray.get? parent.children (gBlock.Find parent.children this.addr + 1) with
        | none => none
        | some c => some (some c)

/-- `Node::PriorSibling()`:
`if (!parent) return 0;
if (parent->children.Find(this) == 1) return 0;
else return parent->children[parent->children.Find(this) - 1];`. -/
def Node.PriorSibling (mem : Nat → NodePtr) (this : Node) : Option NodePtr :=
  match this.GetParent with
  | none => some none
  | some pa =>
    match mem pa with
    | none => none
    | some parent =>
      if gBlock.Find parent.children this.addr = 1 then some none
      else
        match gbtArray.get? parent.children (gBlock.Find parent.children this.addr - 1) with
        | none => none
        | some c => some (some c)

/-- The memory holding `exampleTree`: address 1 is its root. -/
def exampleMem : Nat → NodePtr :=
  fun a => if a = 1 then some exampleTree else none

/-- The left child of the root of `exampleTree`. -/
def exampleLeft : Node := .mk 2 "left" none (some 1) (some 5) []

/-- The right child of the root of `exampleTree`. -/
def exampleRight : Node := .mk 3 "right" none (some 1) (some 6) []

/-! ## The tree window (`gui/treewin.cc`) -/

/-- The operations of the extensive-form game and its nodes that `SubgameMark` calls;
their code is not under `src/`.  `GetSubgameRoot` is `node->GetSubgameRoot()`,
`IsLegalSubgame` the legality predicate, which only reads the game, and `MarkSubgame`
the marking, which yields the game after it. -/
structure EfgOps (Efg : Type) where
  GetSubgameRoot : Efg → Nat → Option Nat
  IsLegalSubgame : Efg → Nat → Bool
  MarkSubgame : Efg → Nat → Efg

/-- A call that a handler of the tree window makes. -/
inductive GuiCall where
  | MessageBox (msg : String)
  | MarkSubgame (node : Nat)
  | RefreshLayout
deriving DecidableEq, Repr

/-- `TreeWindow`, as far as `SubgameMark` uses it: the game `m_efg` and the cursor
node `m_cursor` (a node pointer, possibly null). -/
structure TreeWindow (Efg : Type) where
  m_efg : Efg
  m_cursor : Option Nat

/-- `TreeWindow::SubgameMark()`: the window after the handler and the calls it made, in
order.  `Cursor()->...` on a null cursor is a failure.
`if (Cursor()->GetSubgameRoot() == Cursor()) return;
if (!m_efg.IsLegalSubgame(Cursor())) { wxMessageBox(...); return; }
m_efg.MarkSubgame(Cursor()); RefreshLayout();`. -/
def TreeWindow.SubgameMark {Efg : Type} (ops : EfgOps Efg) (w : TreeWindow Efg) :
    Option (TreeWindow Efg × List GuiCall) :=
  match w.m_cursor with
  | none => none
  | some cursor =>
    if ops.GetSubgameRoot w.m_efg cursor = some cursor then some (w, [])
    else if ops.IsLegalSubgame w.m_efg cursor = false then
      some (w, [GuiCall.MessageBox "This node is not a root of a valid subgame"])
    else
      some ({ w with m_efg := ops.MarkSubgame w.m_efg cursor },
        [GuiCall.MarkSubgame cursor, GuiCall.RefreshLayout])

/-- A stand-in game for the tree window: the list of marked subgame roots.  Node `n` is
its own subgame root when it is marked; the nodes 1 and 2 are legal subgame roots. -/
def exampleOps : EfgOps (List Nat) :=
  { GetSubgameRoot := fun marked n => if n ∈ marked then some n else some 1,
    IsLegalSubgame := fun _ n => decide (n = 1 ∨ n = 2),
    MarkSubgame := fun marked n => n :: marked }

/-- A game of 40 players with three strategies each, numbered and indexed as the spec
describes: strategy `j` of player `pl` contributes `(j - 1) * 3^(pl - 1)`.  Every
contribution is a `long` value (the largest is `2 * 3^39 < 2^63`); the product of the
strategy counts, `3^40`, is not. -/
def bigGame : gbtNfgGame :=
  { rep := 3,
    m_players :=
      [[⟨1, 1, 0, []⟩, ⟨2, 1, 1, []⟩, ⟨3, 1, 2, []⟩],
       [⟨1, 2, 0, []⟩, ⟨2, 2, 3, []⟩, ⟨3, 2, 6, []⟩],
       [⟨1, 3, 0, []⟩, ⟨2, 3, 9, []⟩, ⟨3, 3, 18, []⟩],
       [⟨1, 4, 0, []⟩, ⟨2, 4, 27, []⟩, ⟨3, 4, 54, []⟩],
       [⟨1, 5, 0, []⟩, ⟨2, 5, 81, []⟩, ⟨3, 5, 162, []⟩],
       [⟨1, 6, 0, []⟩, ⟨2, 6, 243, []⟩, ⟨3, 6, 486, []⟩],
       [⟨1, 7, 0, []⟩, ⟨2, 7, 729, []⟩, ⟨3, 7, 1458, []⟩],
       [⟨1, 8, 0, []⟩, ⟨2, 8, 2187, []⟩, ⟨3, 8, 4374, []⟩],
       [⟨1, 9, 0, []⟩, ⟨2, 9, 6561, []⟩, ⟨3, 9, 13122, []⟩],
       [⟨1, 10, 0, []⟩, ⟨2, 10, 19683, []⟩, ⟨3, 10, 39366, []⟩],
       [⟨1, 11, 0, []⟩, ⟨2, 11, 59049, []⟩, ⟨3, 11, 118098, []⟩],
       [⟨1, 12, 0, []⟩, ⟨2, 12, 177147, []⟩, ⟨3, 12, 354294, []⟩],
       [⟨1, 13, 0, []⟩, ⟨2, 13, 531441, []⟩, ⟨3, 13, 1062882, []⟩],
       [⟨1, 14, 0, []⟩, ⟨2, 14, 1594323, []⟩, ⟨3, 14, 3188646, []⟩],
       [⟨1, 15, 0, []⟩, ⟨2, 15, 4782969, []⟩, ⟨3, 15, 9565938, []⟩],
       [⟨1, 16, 0, []⟩, ⟨2, 16, 14348907, []⟩, ⟨3, 16, 28697814, []⟩],
       [⟨1, 17, 0, []⟩, ⟨2, 17, 43046721, []⟩, ⟨3, 17, 86093442, []⟩],
       [⟨1, 18, 0, []⟩, ⟨2, 18, 129140163, []⟩, ⟨3, 18, 258280326, []⟩],
       [⟨1, 19, 0, []⟩, ⟨2, 19, 387420489, []⟩, ⟨3, 19, 774840978, []⟩],
       [⟨1, 20, 0, []⟩, ⟨2, 20, 1162261467, []⟩, ⟨3, 20, 2324522934, []⟩],
       [⟨1, 21, 0, []⟩, ⟨2, 21, 3486784401, []⟩, ⟨3, 21, 6973568802, []⟩],
       [⟨1, 22, 0, []⟩, ⟨2, 22, 10460353203, []⟩, ⟨3, 22, 20920706406, []⟩],
       [⟨1, 23, 0, []⟩, ⟨2, 23, 31381059609, []⟩, ⟨3, 23, 62762119218, []⟩],
       [⟨1, 24, 0, []⟩, ⟨2, 24, 94143178827, []⟩, ⟨3, 24, 188286357654, []⟩],
       [⟨1, 25, 0, []⟩, ⟨2, 25, 282429536481, []⟩, ⟨3, 25, 564859072962, []⟩],
       [⟨1, 26, 0, []⟩, ⟨2, 26, 847288609443, []⟩, ⟨3, 26, 1694577218886, []⟩],
       [⟨1, 27, 0, []⟩, ⟨2, 27, 2541865828329, []⟩, ⟨3, 27, 5083731656658, []⟩],
       [⟨1, 28, 0, []⟩, ⟨2, 28, 7625597484987, []⟩, ⟨3, 28, 15251194969974, []⟩],
       [⟨1, 29, 0, []⟩, ⟨2, 29, 22876792454961, []⟩, ⟨3, 29, 45753584909922, []⟩],
       [⟨1, 30, 0, []⟩, ⟨2, 30, 68630377364883, []⟩, ⟨3, 30, 137260754729766, []⟩],
       [⟨1, 31, 0, []⟩, ⟨2, 31, 205891132094649, []⟩, ⟨3, 31, 411782264189298, []⟩],
       [⟨1, 32, 0, []⟩, ⟨2, 32, 617673396283947, []⟩, ⟨3, 32, 1235346792567894, []⟩],
       [⟨1, 33, 0, []⟩, ⟨2, 33, 1853020188851841, []⟩, ⟨3, 33, 3706040377703682, []⟩],
       [⟨1, 34, 0, []⟩, ⟨2, 34, 5559060566555523, []⟩, ⟨3, 34, 11118121133111046, []⟩],
       [⟨1, 35, 0, []⟩, ⟨2, 35, 16677181699666569, []⟩, ⟨3, 35, 33354363399333138, []⟩],
       [⟨1, 36, 0, []⟩, ⟨2, 36, 50031545098999707, []⟩, ⟨3, 36, 100063090197999414, []⟩],
       [⟨1, 37, 0, []⟩, ⟨2, 37, 150094635296999121, []⟩, ⟨3, 37, 300189270593998242, []⟩],
       [⟨1, 38, 0, []⟩, ⟨2, 38, 450283905890997363, []⟩, ⟨3, 38, 900567811781994726, []⟩],
       [⟨1, 39, 0, []⟩, ⟨2, 39, 1350851717672992089, []⟩, ⟨3, 39, 2701703435345984178, []⟩],
       [⟨1, 40, 0, []⟩, ⟨2, 40, 4052555153018976267, []⟩, ⟨3, 40, 8105110306037952534, []⟩]] }

/-- The calls `Set(40, s)` and `Set(39, t)` with `s`, `t` the third strategies of the
players 40 and 39 of `bigGame`. -/
def bigOps : List (Int × gbtNfgStrategy) :=
  [(40, .ref ⟨3, 40, 8105110306037952534, []⟩), (39, .ref ⟨3, 39, 2701703435345984178, []⟩)]

/-- The contingency of `bigGame` after the constructor and the calls `bigOps`. -/
def bigContingency : Option gbtNfgContingency :=
  match gbtNfgContingency.new bigGame with
  | none => none
  | some c => c.SetAll bigOps

/-! ## Lemmas on the containers -/

theorem gbtArray.get?_succ {α : Type} (a : List α) (k : Nat) :
    gbtArray.get? a ((k : Int) + 1) = a[k]? := by
  unfold gbtArray.get?
  have h : (1 : Int) ≤ (k : Int) + 1 := by omega
  simp [h]

theorem gbtArray.get?_eq {α : Type} (a : List α) (i : Int) (h : 1 ≤ i) :
    gbtArray.get? a i = a[(i - 1).toNat]? := by
  unfold gbtArray.get?
  simp [h]

theorem gbtArray.get?_some_bounds {α : Type} {a : List α} {i : Int} {v : α}
    (h : gbtArray.get? a i = some v) : 1 ≤ i ∧ i ≤ (a.length : Int) := by
  unfold gbtArray.get? at h
  split at h
  · rename_i h1
    have := List.getElem?_eq_some_iff.mp h
    obtain ⟨hlt, _⟩ := this
    constructor
    · exact h1
    · omega
  · cases h

theorem gbtArray.get?_isSome {α : Type} (a : List α) (i : Int) (h1 : 1 ≤ i)
    (h2 : i ≤ (a.length : Int)) : ∃ v, gbtArray.get? a i = some v := by
  rw [gbtArray.get?_eq a i h1]
  have hlt : (i - 1).toNat < a.length := by omega
  exact ⟨a[(i - 1).toNat], List.getElem?_eq_getElem hlt⟩

theorem gbtArray.set?_eq {α : Type} (a : List α) (i : Int) (v : α) (h1 : 1 ≤ i)
    (h2 : i ≤ (a.length : Int)) : gbtArray.set? a i v = some (a.set (i - 1).toNat v) := by
  unfold gbtArray.set?
  simp [h1, h2]

theorem gbtArray.set?_some {α : Type} {a b : List α} {i : Int} {v : α}
    (h : gbtArray.set? a i v = some b) :
    1 ≤ i ∧ i ≤ (a.length : Int) ∧ b = a.set (i - 1).toNat v := by
  unfold gbtArray.set? at h
  split at h
  · rename_i h1
    exact ⟨h1.1, h1.2, (Option.some.inj h).symm⟩
  · cases h

theorem gbtArray.get?_set? {α : Type} {a b : List α} {i : Int} {v : α}
    (h : gbtArray.set? a i v = some b) (j : Int) :
    gbtArray.get? b j = if j = i then some v else gbtArray.get? a j := by
  obtain ⟨h1, h2, rfl⟩ := gbtArray.set?_some h
  by_cases hj : 1 ≤ j
  · rw [gbtArray.get?_eq _ j hj, gbtArray.get?_eq _ j hj]
    by_cases hji : j = i
    · subst hji
      have hlt : (j - 1).toNat < a.length := by omega
      rw [if_pos rfl, List.getElem?_set_self hlt]
    · have hne : (i - 1).toNat ≠ (j - 1).toNat := by omega
      rw [if_neg hji, List.getElem?_set_ne hne]
  · have hji : j ≠ i := by omega
    unfold gbtArray.get?
    simp [hj, hji]

/-! ## `long` arithmetic -/

theorem wrapLong_of_range (x : Int) (h1 : -9223372036854775808 ≤ x)
    (h2 : x < 9223372036854775808) : wrapLong x = x := by
  unfold wrapLong
  omega

theorem wrapLong_add_left (x y : Int) : wrapLong (wrapLong x + y) = wrapLong (x + y) := by
  unfold wrapLong
  omega

theorem wrapLong_add_right (x y : Int) : wrapLong (x + wrapLong y) = wrapLong (x + y) := by
  unfold wrapLong
  omega

/-! ## Contingencies: `Set`, `Get` and the flattened index -/

theorem encodeProfile_set (prof : List gbtNfgStrategy) (k : Nat) (old s : gbtNfgStrategy)
    (h : prof[k]? = some old) :
    encodeProfile (prof.set k s) = encodeProfile prof + (s.GetIndex - old.GetIndex) := by
  induction prof generalizing k with
  | nil => simp at h
  | cons x xs ih =>
    cases k with
    | zero =>
      simp only [List.getElem?_cons_zero, Option.some.injEq] at h
      subst h
      simp only [encodeProfile, List.set_cons_zero, List.map_cons, List.sum_cons]
      ring
    | succ k =>
      simp only [List.getElem?_cons_succ] at h
      have := ih k h
      simp only [encodeProfile, List.set_cons_succ, List.map_cons, List.sum_cons] at this ⊢
      rw [this]
      ring

theorem gbtNfgContingency.Set_some {c d : gbtNfgContingency} {p : Int} {s : gbtNfgStrategy}
    (h : c.Set p s = some d) :
    ∃ old, gbtArray.get? c.profile p = some old ∧ gbtArray.set? c.profile p s = some d.profile ∧
      d.m_nfg = c.m_nfg ∧
      d.index = wrapLong (c.index + wrapLong (s.GetIndex - old.GetIndex)) := by
  unfold gbtNfgContingency.Set at h
  cases hg : gbtArray.get? c.profile p with
  | none => rw [hg] at h; cases h
  | some old =>
    rw [hg] at h
    cases hs : gbtArray.set? c.profile p s with
    | none => rw [hs] at h; cases h
    | some prof =>
      rw [hs] at h
      simp only [Option.some.injEq] at h
      subst h
      exact ⟨old, rfl, rfl, rfl, rfl⟩

theorem gbtNfgContingency.Set_isSome (c : gbtNfgContingency) (p : Int) (s : gbtNfgStrategy)
    (h1 : 1 ≤ p) (h2 : p ≤ (c.profile.length : Int)) : ∃ d, c.Set p s = some d := by
  obtain ⟨old, ho⟩ := gbtArray.get?_isSome c.profile p h1 h2
  unfold gbtNfgContingency.Set
  rw [ho, gbtArray.set?_eq c.profile p s h1 h2]
  exact ⟨_, rfl⟩

theorem gbtNfgContingency.Set_encode {c d : gbtNfgContingency} {p : Int} {s : gbtNfgStrategy}
    (h : c.Set p s = some d) (hc : c.index = wrapLong (encodeProfile c.profile)) :
    d.index = wrapLong (encodeProfile d.profile) := by
  obtain ⟨old, hg, hs, _, hi⟩ := gbtNfgContingency.Set_some h
  obtain ⟨h1, h2, hp⟩ := gbtArray.set?_some hs
  rw [gbtArray.get?_eq _ p h1] at hg
  rw [hi, hp, encodeProfile_set c.profile _ old s hg, hc, wrapLong_add_right,
    wrapLong_add_left]

/-- C2: for a contingency `c` of a game (its profile has one slot per player), a player
`p` in `1..NumPlayers` and any strategy handle `s`, the call `c.Set(p, s)` completes, and
afterwards `Get(p)` and `operator[](p)` return `s` while `Get(q)` is what it was for
every other player `q`. -/
theorem C2_set_get (c : gbtNfgContingency) (p : Int) (s : gbtNfgStrategy)
    (hlen : (c.profile.length : Int) = c.m_nfg.NumPlayers)
    (h1 : 1 ≤ p) (h2 : p ≤ c.m_nfg.NumPlayers) :
    ∃ d, c.Set p s = some d ∧ d.Get p = some s ∧ d.subscript p = some s ∧
      ∀ q : Int, q ≠ p → d.Get q = c.Get q := by
  obtain ⟨d, hd⟩ := gbtNfgContingency.Set_isSome c p s h1 (by omega)
  obtain ⟨old, _, hs, _, _⟩ := gbtNfgContingency.Set_some hd
  refine ⟨d, hd, ?_, ?_, ?_⟩
  · unfold gbtNfgContingency.Get
    rw [gbtArray.get?_set? hs p, if_pos rfl]
  · unfold gbtNfgContingency.subscript
    rw [gbtArray.get?_set? hs p, if_pos rfl]
  · intro q hq
    unfold gbtNfgContingency.Get
    rw [gbtArray.get?_set? hs q, if_neg hq]

/-! ## The numbering of strategies -/

theorem strategiesIndexed_get (pl stride : Int) :
    ∀ (p : List gbt_nfg_strategy_rep) (j : Int) (k : Nat) (r : gbt_nfg_strategy_rep),
      strategiesIndexed pl stride j p = true → p[k]? = some r →
      r.m_player = pl ∧ r.m_id = j + k ∧ r.m_index = (j + k - 1) * stride := by
  intro p
  induction p with
  | nil => intro j k r _ h; simp at h
  | cons x xs ih =>
    intro j k r hidx h
    simp only [strategiesIndexed, Bool.and_eq_true, decide_eq_true_eq] at hidx
    obtain ⟨⟨⟨hp, hi⟩, hx⟩, hrest⟩ := hidx
    cases k with
    | zero =>
      simp only [List.getElem?_cons_zero, Option.some.injEq] at h
      subst h
      simp [hp, hi, hx]
    | succ k =>
      simp only [List.getElem?_cons_succ] at h
      obtain ⟨a, b, c⟩ := ih (j + 1) k r hrest h
      refine ⟨a, ?_, ?_⟩
      · rw [b]; push_cast; ring
      · rw [c]; push_cast; ring

theorem playersIndexed_get :
    ∀ (ps : List (List gbt_nfg_strategy_rep)) (pl stride : Int) (i : Nat)
      (p : List gbt_nfg_strategy_rep),
      playersIndexed pl stride ps = true → ps[i]? = some p →
      strategiesIndexed (pl + i)
        (stride * ((ps.take i).map (fun q => (q.length : Int))).prod) 1 p = true := by
  intro ps
  induction ps with
  | nil => intro pl stride i p _ h; simp at h
  | cons x xs ih =>
    intro pl stride i p hidx h
    simp only [playersIndexed, Bool.and_eq_true] at hidx
    obtain ⟨hx, hrest⟩ := hidx
    cases i with
    | zero =>
      simp only [List.getElem?_cons_zero, Option.some.injEq] at h
      subst h
      simpa using hx
    | succ i =>
      simp only [List.getElem?_cons_succ] at h
      have := ih (pl + 1) (stride * (x.length : Int)) i p hrest h
      have e1 : pl + ((i + 1 : Nat) : Int) = pl + 1 + (i : Int) := by push_cast; ring
      have e2 : stride * (((x :: xs).take (i + 1)).map (fun q => (q.length : Int))).prod
          = stride * (x.length : Int) * ((xs.take i).map (fun q => (q.length : Int))).prod := by
        simp only [List.take_succ_cons, List.map_cons, List.prod_cons]
        ring
      rw [e1, e2]
      exact this

theorem gbtNfgGame.GetStrategy_some {g : gbtNfgGame} {pl st : Int} {s : gbtNfgStrategy}
    (h : g.GetStrategy pl st = some s) :
    ∃ p r, gbtArray.get? g.m_players pl = some p ∧ gbtArray.get? p st = some r ∧
      s = gbtNfgStrategy.ref r := by
  unfold gbtNfgGame.GetStrategy at h
  split at h
  · cases h
  · rename_i p hp
    split at h
    · cases h
    · rename_i r hr
      exact ⟨p, r, hp, hr, (Option.some.inj h).symm⟩

/-- In an indexed game, the strategy found at `(pl, st)` carries the player id `pl`,
the number `st` and the contribution `(st - 1) * stride(pl)`. -/
theorem gbtNfgGame.GetStrategy_indexed (g : gbtNfgGame) (hg : g.Indexed) (pl st : Int)
    (s : gbtNfgStrategy) (h : g.GetStrategy pl st = some s) :
    ∃ r, s = gbtNfgStrategy.ref r ∧ r.m_player = pl ∧ r.m_id = st ∧
      r.m_index = (st - 1) * g.stride pl ∧ 1 ≤ pl ∧ pl ≤ g.NumPlayers ∧
      1 ≤ st ∧ ∃ n, g.NumStrats pl = some n ∧ st ≤ n := by
  obtain ⟨p, r, hp, hr, h⟩ := gbtNfgGame.GetStrategy_some h
  obtain ⟨hp1, hp2⟩ := gbtArray.get?_some_bounds hp
  obtain ⟨hr1, hr2⟩ := gbtArray.get?_some_bounds hr
  rw [gbtArray.get?_eq _ _ hp1] at hp
  rw [gbtArray.get?_eq _ _ hr1] at hr
  have h1 := playersIndexed_get g.m_players 1 1 _ p hg hp
  obtain ⟨a, b, c⟩ := strategiesIndexed_get _ _ p 1 _ r h1 hr
  refine ⟨r, h, ?_, ?_, ?_, hp1, hp2, hr1, (p.length : Int), ?_, hr2⟩
  · rw [a]; omega
  · rw [b]; omega
  · rw [c]
    unfold gbtNfgGame.stride
    have : (1 : Int) + ((st - 1).toNat : Int) - 1 = st - 1 := by omega
    rw [this, one_mul]
  · unfold gbtNfgGame.NumStrats
    rw [gbtArray.get?_eq _ _ hp1, hp]

/-! ## The constructor and the reachable contingencies -/

theorem gbtNfgContingency.ctorLoop_spec (g : gbtNfgGame) (hp : g.Playable) :
    ∀ (m k : Nat) (c : gbtNfgContingency),
      c.profile.length = g.m_players.length → k + m = g.m_players.length →
      (∀ i, k ≤ i → i < g.m_players.length → c.profile[i]? = some gbtNfgStrategy.null) →
      ∃ d, gbtNfgContingency.ctorLoop g (List.range' (k + 1) m) c = some d ∧
        d.m_nfg = c.m_nfg ∧ d.profile.length = g.m_players.length ∧
        (c.index = wrapLong (encodeProfile c.profile) →
          d.index = wrapLong (encodeProfile d.profile)) ∧
        (∀ i, i < k → d.profile[i]? = c.profile[i]?) ∧
        (∀ i, k ≤ i → i < g.m_players.length →
          ∃ p r, g.m_players[i]? = some p ∧ p[0]? = some r ∧
            d.profile[i]? = some (gbtNfgStrategy.ref r)) := by
  intro m
  induction m with
  | zero =>
    intro k c hlen hk _
    refine ⟨c, rfl, rfl, hlen, id, fun _ _ => rfl, ?_⟩
    intro i h1 h2
    omega
  | succ m ih =>
    intro k c hlen hk hnull
    have hklt : k < g.m_players.length := by omega
    obtain ⟨p, hpk⟩ : ∃ p, g.m_players[k]? = some p :=
      ⟨g.m_players[k], List.getElem?_eq_getElem hklt⟩
    have hpne : p ≠ [] := hp p (List.getElem?_mem hpk)
    obtain ⟨r, rs, rfl⟩ : ∃ r rs, p = r :: rs := List.exists_cons_of_ne_nil hpne
    have hcast : ((k + 1 : Nat) : Int) = (k : Int) + 1 := by push_cast; rfl
    have hget : g.GetStrategy ((k + 1 : Nat) : Int) 1 = some (gbtNfgStrategy.ref r) := by
      unfold gbtNfgGame.GetStrategy
      rw [hcast, gbtArray.get?_succ, hpk]
      have : gbtArray.get? (r :: rs) 1 = some r := by
        have := gbtArray.get?_succ (r :: rs) 0
        simpa using this
      simp only [this]
    have hset : gbtArray.set? c.profile ((k + 1 : Nat) : Int) (gbtNfgStrategy.ref r)
        = some (c.profile.set k (gbtNfgStrategy.ref r)) := by
      rw [gbtArray.set?_eq _ _ _ (by omega) (by omega)]
      have : (((k + 1 : Nat) : Int) - 1).toNat = k := by omega
      rw [this]
    have holdk : c.profile[k]? = some gbtNfgStrategy.null := hnull k (le_refl k) hklt
    obtain ⟨d, hd, hnfg, hdlen, hdidx, hdlow, hdhigh⟩ :=
      ih (k + 1)
        { c with profile := c.profile.set k (gbtNfgStrategy.ref r),
                 index := wrapLong (c.index + (gbtNfgStrategy.ref r).GetIndex) }
        (by simp [hlen]) (by omega)
        (by
          intro i h1 h2
          have hne : k ≠ i := by omega
          simp only [List.getElem?_set_ne hne]
          exact hnull i (by omega) h2)
    refine ⟨d, ?_, hnfg, hdlen, ?_, ?_, ?_⟩
    · rw [List.range'_succ]
      unfold gbtNfgContingency.ctorLoop
      simp only [hget, hset]
      exact hd
    · intro hcidx
      apply hdidx
      simp only [encodeProfile_set c.profile k _ _ holdk]
      rw [hcidx, wrapLong_add_left]
      simp [gbtNfgStrategy.GetIndex]
    · intro i hi
      rw [hdlow i (by omega)]
      have hne : k ≠ i := by omega
      simp only [List.getElem?_set_ne hne]
    · intro i h1 h2
      by_cases hik : i = k
      · subst hik
        refine ⟨r :: rs, r, hpk, List.getElem?_cons_zero, ?_⟩
        rw [hdlow i (by omega)]
        have hlt : i < c.profile.length := by omega
        simp only [List.getElem?_set_self hlt]
      · exact hdhigh i (by omega) h2

theorem gbtNfgContingency.new_spec (g : gbtNfgGame) (hp : g.Playable) :
    ∃ c, gbtNfgContingency.new g = some c ∧ c.m_nfg = g ∧
      c.profile.length = g.m_players.length ∧
      c.index = wrapLong (encodeProfile c.profile) ∧
      ∀ i, i < g.m_players.length →
        ∃ p r, g.m_players[i]? = some p ∧ p[0]? = some r ∧
          c.profile[i]? = some (gbtNfgStrategy.ref r) := by
  obtain ⟨d, hd, hnfg, hlen, hidx, _, hhigh⟩ :=
    gbtNfgContingency.ctorLoop_spec g hp g.m_players.length 0
      { m_nfg := g, index := 0, profile := List.replicate g.m_players.length .null }
      (by simp) (by simp)
      (by
        intro i _ h2
        simp [List.getElem?_replicate, h2])
  refine ⟨d, hd, hnfg, hlen, ?_, fun i hi => hhigh i (Nat.zero_le i) hi⟩
  apply hidx
  have hz : encodeProfile (List.replicate g.m_players.length gbtNfgStrategy.null) = 0 := by
    simp [encodeProfile, gbtNfgStrategy.GetIndex]
  simp only [hz]
  decide

theorem gbtNfgContingency.new_inv (g : gbtNfgGame) (hp : g.Playable) :
    ∃ c, gbtNfgContingency.new g = some c ∧ gbtNfgContingency.Inv g c := by
  obtain ⟨c, hc, hnfg, hlen, hidx, hslots⟩ := gbtNfgContingency.new_spec g hp
  refine ⟨c, hc, hnfg, hlen, hidx, ?_⟩
  intro i p hip
  have hi : i < g.m_players.length := (List.getElem?_eq_some_iff.mp hip).1
  obtain ⟨q, r, hq, hr, hprof⟩ := hslots i hi
  rw [hip] at hq
  cases hq
  exact ⟨r, List.getElem?_mem hr, hprof⟩

theorem gbtNfgContingency.Set_inv (g : gbtNfgGame) {c d : gbtNfgContingency} {p : Int}
    {s : gbtNfgStrategy} (hc : gbtNfgContingency.Inv g c) (hs : g.IsStrategyOf p s)
    (h : c.Set p s = some d) : gbtNfgContingency.Inv g d := by
  obtain ⟨hnfg, hlen, hidx, hslots⟩ := hc
  obtain ⟨old, _, hset, hdnfg, _⟩ := gbtNfgContingency.Set_some h
  obtain ⟨h1, h2, hprof⟩ := gbtArray.set?_some hset
  obtain ⟨st, hst⟩ := hs
  obtain ⟨pp, r, hpp, hr, rfl⟩ := gbtNfgGame.GetStrategy_some hst
  refine ⟨hdnfg.trans hnfg, ?_, gbtNfgContingency.Set_encode h hidx, ?_⟩
  · rw [hprof]; simpa using hlen
  · intro i q hq
    rw [hprof]
    by_cases hik : (p - 1).toNat = i
    · subst hik
      rw [gbtArray.get?_eq _ _ h1, hq] at hpp
      cases hpp
      have hr1 := (gbtArray.get?_some_bounds hr).1
      rw [gbtArray.get?_eq _ _ hr1] at hr
      refine ⟨r, List.getElem?_mem hr, ?_⟩
      have hlt : (p - 1).toNat < c.profile.length := by omega
      simp only [List.getElem?_set_self hlt]
    · simp only [List.getElem?_set_ne hik]
      exact hslots i q hq

theorem gbtNfgContingency.Reachable_inv (g : gbtNfgGame) {c : gbtNfgContingency}
    (h : gbtNfgContingency.Reachable g c) : g.Playable → gbtNfgContingency.Inv g c := by
  intro hp
  induction h with
  | init c hc =>
    obtain ⟨c0, hc0, hinv⟩ := gbtNfgContingency.new_inv g hp
    rw [hc] at hc0
    cases hc0
    exact hinv
  | set c d p s _ hs hset ih => exact gbtNfgContingency.Set_inv g ih hs hset

theorem gbtNfgGame.IsStrategyOf_bounds {g : gbtNfgGame} {p : Int} {s : gbtNfgStrategy}
    (h : g.IsStrategyOf p s) : 1 ≤ p ∧ p ≤ (g.m_players.length : Int) := by
  obtain ⟨st, hst⟩ := h
  obtain ⟨pp, r, hpp, _, _⟩ := gbtNfgGame.GetStrategy_some hst
  exact gbtArray.get?_some_bounds hpp

theorem gbtNfgContingency.SetAll_inv (g : gbtNfgGame) :
    ∀ (ops : List (Int × gbtNfgStrategy)) (c : gbtNfgContingency),
      gbtNfgContingency.Inv g c → (∀ op ∈ ops, g.IsStrategyOf op.1 op.2) →
      ∃ d, c.SetAll ops = some d ∧ gbtNfgContingency.Inv g d := by
  intro ops
  induction ops with
  | nil => intro c hc _; exact ⟨c, rfl, hc⟩
  | cons op rest ih =>
    intro c hc hops
    obtain ⟨p, s⟩ := op
    have hs : g.IsStrategyOf p s := hops (p, s) (List.mem_cons_self _ _)
    obtain ⟨h1, h2⟩ := gbtNfgGame.IsStrategyOf_bounds hs
    obtain ⟨c1, hc1⟩ := gbtNfgContingency.Set_isSome c p s h1 (by rw [hc.2.1]; exact h2)
    obtain ⟨d, hd, hinv⟩ := ih c1 (gbtNfgContingency.Set_inv g hc hs hc1)
      (fun op hop => hops op (List.mem_cons_of_mem _ hop))
    refine ⟨d, ?_, hinv⟩
    unfold gbtNfgContingency.SetAll
    simp only [hc1]
    exact hd

theorem gbtNfgContingency.Inv_slot (g : gbtNfgGame) {c : gbtNfgContingency}
    (hc : gbtNfgContingency.Inv g c) (pl : Int) (h1 : 1 ≤ pl) (h2 : pl ≤ g.NumPlayers) :
    ∃ r st, c.Get pl = some (gbtNfgStrategy.ref r) ∧
      g.GetStrategy pl st = some (gbtNfgStrategy.ref r) := by
  obtain ⟨_, hlen, _, hslots⟩ := hc
  unfold gbtNfgGame.NumPlayers at h2
  have hlt : (pl - 1).toNat < g.m_players.length := by omega
  obtain ⟨r, hr, hprof⟩ := hslots (pl - 1).toNat _ (List.getElem?_eq_getElem hlt)
  obtain ⟨k, hk⟩ := List.mem_iff_getElem?.mp hr
  refine ⟨r, (k : Int) + 1, ?_, ?_⟩
  · unfold gbtNfgContingency.Get
    rw [gbtArray.get?_eq _ _ h1, hprof]
  · unfold gbtNfgGame.GetStrategy
    rw [gbtArray.get?_eq _ _ h1, List.getElem?_eq_getElem hlt]
    simp only [gbtArray.get?_succ, hk]

theorem encodeProfile_eq_zero (prof : List gbtNfgStrategy)
    (h : ∀ s ∈ prof, s.GetIndex = 0) : encodeProfile prof = 0 := by
  unfold encodeProfile
  apply List.sum_eq_zero
  intro x hx
  obtain ⟨s, hs, rfl⟩ := List.mem_map.mp hx
  exact h s hs

theorem gbtNfgContingency.new_first (g : gbtNfgGame) (hp : g.Playable) :
    ∃ c, gbtNfgContingency.new g = some c ∧ gbtNfgContingency.Inv g c ∧
      ∀ pl : Int, 1 ≤ pl → pl ≤ g.NumPlayers →
        ∃ s, c.Get pl = some s ∧ g.GetStrategy pl 1 = some s := by
  obtain ⟨c, hc, hinv⟩ := gbtNfgContingency.new_inv g hp
  obtain ⟨c1, hc1, _, _, _, hslots⟩ := gbtNfgContingency.new_spec g hp
  rw [hc] at hc1
  cases hc1
  refine ⟨c, hc, hinv, ?_⟩
  intro pl h1 h2
  unfold gbtNfgGame.NumPlayers at h2
  have hlt : (pl - 1).toNat < g.m_players.length := by omega
  obtain ⟨p, r, hpp, hr, hprof⟩ := hslots _ hlt
  refine ⟨gbtNfgStrategy.ref r, ?_, ?_⟩
  · unfold gbtNfgContingency.Get
    rw [gbtArray.get?_eq _ _ h1, hprof]
  · unfold gbtNfgGame.GetStrategy
    rw [gbtArray.get?_eq _ _ h1, hpp]
    have : gbtArray.get? p 1 = some r := by
      have := gbtArray.get?_succ p 0
      simp only [Nat.cast_zero, zero_add] at this
      rw [this, hr]
    simp only [this]

theorem C2_set_get_witness :
    (exampleContingency.profile.length : Int) = exampleContingency.m_nfg.NumPlayers ∧
    (1 : Int) ≤ 2 ∧ (2 : Int) ≤ exampleContingency.m_nfg.NumPlayers ∧
    ∃ d, exampleContingency.Set 2 exampleStrategy = some d ∧
      d.Get 2 = some exampleStrategy ∧ d.subscript 2 = some exampleStrategy ∧
      ∀ q : Int, q ≠ 2 → d.Get q = exampleContingency.Get q :=
  ⟨by decide, by decide, by decide,
    C2_set_get exampleContingency 2 exampleStrategy (by decide) (by decide) (by decide)⟩

/-! ## The mixed-radix encoding -/

theorem forall₂_of_getElem? {α β : Type} {R : α → β → Prop} :
    ∀ (l1 : List α) (l2 : List β), l1.length = l2.length →
      (∀ (i : Nat) (a : α), l1[i]? = some a → ∃ b, l2[i]? = some b ∧ R a b) →
      List.Forall₂ R l1 l2 := by
  intro l1
  induction l1 with
  | nil =>
    intro l2 hlen _
    cases l2 with
    | nil => exact List.Forall₂.nil
    | cons b bs => simp at hlen
  | cons a as ih =>
    intro l2 hlen h
    cases l2 with
    | nil => simp at hlen
    | cons b bs =>
      obtain ⟨b1, hb1, hR⟩ := h 0 a List.getElem?_cons_zero
      simp only [List.getElem?_cons_zero, Option.some.injEq] at hb1
      subst hb1
      refine List.Forall₂.cons hR (ih bs (by simpa using hlen) ?_)
      intro i x hx
      have := h (i + 1) x (by simpa using hx)
      simpa using this

theorem encode_mixed_radix :
    ∀ (ps : List (List gbt_nfg_strategy_rep)) (hs : List gbtNfgStrategy),
      List.Forall₂ SlotOK ps hs → ∀ (pl off : Int), playersIndexed pl off ps = true →
      ∃ T : Int, encodeProfile hs = off * T ∧ 0 ≤ T ∧
        T < (ps.map (fun p => (p.length : Int))).prod ∧
        decodeIndex (ps.map (fun p => (p.length : Int))) T = hs.map gbtNfgStrategy.GetId ∧
        profileOfIds ps (hs.map gbtNfgStrategy.GetId) = some hs := by
  intro ps hs hform
  induction hform with
  | nil =>
    intro pl off _
    exact ⟨0, by simp [encodeProfile], le_refl 0, by simp, rfl, rfl⟩
  | @cons p h ps hs hR _ ih =>
    intro pl off hidx
    simp only [playersIndexed, Bool.and_eq_true] at hidx
    obtain ⟨hx, hrest⟩ := hidx
    obtain ⟨r, hr, rfl⟩ := hR
    obtain ⟨k, hk⟩ := List.mem_iff_getElem?.mp hr
    have hklt : k < p.length := (List.getElem?_eq_some_iff.mp hk).1
    obtain ⟨_, hid, hmi⟩ := strategiesIndexed_get pl off p 1 k r hx hk
    obtain ⟨T1, henc, hT0, hTlt, hdec, hprof⟩ := ih (pl + 1) (off * (p.length : Int)) hrest
    have hd : (0 : Int) < (p.length : Int) := by omega
    have hkd : (k : Int) < (p.length : Int) := by omega
    have hk0 : (0 : Int) ≤ (k : Int) := by omega
    refine ⟨(k : Int) + (p.length : Int) * T1, ?_, ?_, ?_, ?_, ?_⟩
    · simp only [encodeProfile, List.map_cons, List.sum_cons, gbtNfgStrategy.GetIndex] at henc ⊢
      rw [henc, hmi]
      ring
    · have : 0 ≤ (p.length : Int) * T1 := mul_nonneg (le_of_lt hd) hT0
      omega
    · simp only [List.map_cons, List.prod_cons]
      have h1 : T1 + 1 ≤ (ps.map (fun p => (p.length : Int))).prod := by omega
      have h2 : (p.length : Int) * (T1 + 1)
          ≤ (p.length : Int) * (ps.map (fun p => (p.length : Int))).prod :=
        mul_le_mul_of_nonneg_left h1 (le_of_lt hd)
      have h3 : (p.length : Int) * (T1 + 1) = (p.length : Int) * T1 + (p.length : Int) := by
        ring
      omega
    · have hmod : ((k : Int) + (p.length : Int) * T1) % (p.length : Int) = (k : Int) := by
        rw [Int.add_mul_emod_self_left]
        exact Int.emod_eq_of_lt hk0 hkd
      have hdiv : ((k : Int) + (p.length : Int) * T1) / (p.length : Int) = T1 := by
        rw [Int.add_mul_ediv_left _ _ (ne_of_gt hd), Int.ediv_eq_zero_of_lt hk0 hkd, zero_add]
      simp only [List.map_cons, decodeIndex, hmod, hdiv, hdec, gbtNfgStrategy.GetId, hid]
      rw [add_comm]
    · simp only [List.map_cons, gbtNfgStrategy.GetId, hid]
      unfold profileOfIds
      have hg : gbtArray.get? p (1 + (k : Int)) = some r := by
        rw [add_comm, gbtArray.get?_succ, hk]
      simp only [hg, hprof]

/-- The facts about a contingency of an indexed game whose index space fits a `long`:
its index is the encoding of its profile, lies in `0 ..< NumContingencies`, decodes to
the strategy numbers of the profile, and these re-encode to the profile. -/
theorem gbtNfgContingency.Inv_decode (g : gbtNfgGame) (hg : g.Indexed) (hfit : g.FitsLong)
    {c : gbtNfgContingency} (hinv : gbtNfgContingency.Inv g c) :
    c.index = encodeProfile c.profile ∧ 0 ≤ c.index ∧ c.index < g.NumContingencies ∧
      decodeIndex g.NumStratsArray c.index = c.profile.map gbtNfgStrategy.GetId ∧
      profileOfIds g.m_players (decodeIndex g.NumStratsArray c.index) = some c.profile := by
  obtain ⟨_, hlen, hidx, hslots⟩ := hinv
  have hform : List.Forall₂ SlotOK g.m_players c.profile := by
    apply forall₂_of_getElem? _ _ hlen.symm
    intro i p hip
    obtain ⟨r, hr, hprof⟩ := hslots i p hip
    exact ⟨_, hprof, r, hr, rfl⟩
  obtain ⟨T, henc, hT0, hTlt, hdec, hprof⟩ := encode_mixed_radix _ _ hform 1 1 hg
  rw [one_mul] at henc
  have hfit1 : (g.m_players.map (fun p => (p.length : Int))).prod ≤ 9223372036854775808 :=
    hfit
  have hexact : c.index = T := by
    rw [hidx, henc]
    exact wrapLong_of_range T (by omega) (by omega)
  rw [← henc] at hexact
  rw [← henc, ← hexact] at hT0 hTlt hdec
  refine ⟨hexact, hT0, hTlt, hdec, ?_⟩
  unfold gbtNfgGame.NumStratsArray
  rw [hdec]
  exact hprof

theorem gbtNfgContingency.Reachable_decode (g : gbtNfgGame) (hg : g.Indexed)
    (hfit : g.FitsLong) {c : gbtNfgContingency} (h : gbtNfgContingency.Reachable g c)
    (hp : g.Playable) :
    c.index = encodeProfile c.profile ∧ 0 ≤ c.index ∧ c.index < g.NumContingencies ∧
      decodeIndex g.NumStratsArray c.index = c.profile.map gbtNfgStrategy.GetId ∧
      profileOfIds g.m_players (decodeIndex g.NumStratsArray c.index) = some c.profile :=
  gbtNfgContingency.Inv_decode g hg hfit (gbtNfgContingency.Reachable_inv g h hp)

/-- C1 (amended): in a game whose strategies are indexed as the spec describes, in
which every player has a strategy and whose index space fits a `long` (the product of
the strategy counts is at most `2^63`), the constructor yields a contingency with every
player on strategy 1 and index 0; every finite sequence of `Set(p, s)` calls, each `s` a
strategy of player `p`, completes, and afterwards `GetIndex()` is the from-scratch
encoding of the profile, the sum over the `NumPlayers` slots of `Get(pl).GetIndex()`,
where the strategy in slot `pl` is a strategy of player `pl` contributing
`(m_id - 1) * stride(pl)`. -/
theorem C1_flattened_index_invariant (g : gbtNfgGame) (hg : g.Indexed) (hp : g.Playable)
    (hfit : g.FitsLong)
    (ops : List (Int × gbtNfgStrategy)) (hops : ∀ op ∈ ops, g.IsStrategyOf op.1 op.2) :
    ∃ c0 c, gbtNfgContingency.new g = some c0 ∧ c0.GetIndex = 0 ∧
      (∀ pl : Int, 1 ≤ pl → pl ≤ g.NumPlayers →
        ∃ s, c0.Get pl = some s ∧ g.GetStrategy pl 1 = some s) ∧
      c0.SetAll ops = some c ∧
      (c.profile.length : Int) = g.NumPlayers ∧
      c.GetIndex = encodeProfile c.profile ∧
      ∀ pl : Int, 1 ≤ pl → pl ≤ g.NumPlayers →
        ∃ r, c.Get pl = some (gbtNfgStrategy.ref r) ∧
          g.IsStrategyOf pl (gbtNfgStrategy.ref r) ∧
          (gbtNfgStrategy.ref r).GetIndex = (r.m_id - 1) * g.stride pl := by
  obtain ⟨c0, hc0, hinv0, hfirst⟩ := gbtNfgContingency.new_first g hp
  obtain ⟨c, hc, hinv⟩ := gbtNfgContingency.SetAll_inv g ops c0 hinv0 hops
  refine ⟨c0, c, hc0, ?_, hfirst, hc, ?_,
    (gbtNfgContingency.Inv_decode g hg hfit hinv).1, ?_⟩
  · unfold gbtNfgContingency.GetIndex
    rw [(gbtNfgContingency.Inv_decode g hg hfit hinv0).1]
    apply encodeProfile_eq_zero
    intro s hs
    obtain ⟨i, hi⟩ := List.mem_iff_getElem?.mp hs
    have hilt : i < c0.profile.length := (List.getElem?_eq_some_iff.mp hi).1
    have hbound : ((i : Int) + 1) ≤ g.NumPlayers := by
      unfold gbtNfgGame.NumPlayers
      have := hinv0.2.1
      omega
    obtain ⟨s1, hs1, hg1⟩ := hfirst ((i : Int) + 1) (by omega) hbound
    unfold gbtNfgContingency.Get at hs1
    rw [gbtArray.get?_succ, hi] at hs1
    cases hs1
    obtain ⟨r, rfl, _, _, hidx, _⟩ := gbtNfgGame.GetStrategy_indexed g hg _ _ _ hg1
    simp [gbtNfgStrategy.GetIndex, hidx]
  · unfold gbtNfgGame.NumPlayers
    rw [hinv.2.1]
  · intro pl h1 h2
    obtain ⟨r, st, hget, hstrat⟩ := gbtNfgContingency.Inv_slot g hinv pl h1 h2
    refine ⟨r, hget, ⟨st, hstrat⟩, ?_⟩
    obtain ⟨r1, hr1, _, hid, hidx, _⟩ := gbtNfgGame.GetStrategy_indexed g hg _ _ _ hstrat
    cases hr1
    simp only [gbtNfgStrategy.GetIndex]
    rw [hidx, hid]

theorem C1_flattened_index_invariant_witness :
    exampleGame.Indexed ∧ exampleGame.Playable ∧ exampleGame.FitsLong ∧
    (∀ op ∈ [((2 : Int), exampleStrategy)], exampleGame.IsStrategyOf op.1 op.2) ∧
    ∃ c0 c, gbtNfgContingency.new exampleGame = some c0 ∧ c0.GetIndex = 0 ∧
      (∀ pl : Int, 1 ≤ pl → pl ≤ exampleGame.NumPlayers →
        ∃ s, c0.Get pl = some s ∧ exampleGame.GetStrategy pl 1 = some s) ∧
      c0.SetAll [((2 : Int), exampleStrategy)] = some c ∧
      (c.profile.length : Int) = exampleGame.NumPlayers ∧
      c.GetIndex = encodeProfile c.profile ∧
      ∀ pl : Int, 1 ≤ pl → pl ≤ exampleGame.NumPlayers →
        ∃ r, c.Get pl = some (gbtNfgStrategy.ref r) ∧
          exampleGame.IsStrategyOf pl (gbtNfgStrategy.ref r) ∧
          (gbtNfgStrategy.ref r).GetIndex = (r.m_id - 1) * exampleGame.stride pl :=
  have h3 : ∀ op ∈ [((2 : Int), exampleStrategy)], exampleGame.IsStrategyOf op.1 op.2 := by
    intro op hop
    simp only [List.mem_singleton] at hop
    subst hop
    exact ⟨3, by decide⟩
  ⟨by decide, by decide, by decide, h3,
    C1_flattened_index_invariant exampleGame (by decide) (by decide) (by decide) _ h3⟩

theorem gbtNfgContingency.ctorLoop_some (g : gbtNfgGame) :
    ∀ (l : List Nat) (c d : gbtNfgContingency),
      gbtNfgContingency.ctorLoop g l c = some d →
      ∀ pl ∈ l, ∃ s, g.GetStrategy (pl : Int) 1 = some s := by
  intro l
  induction l with
  | nil => intro c d _ pl hpl; simp at hpl
  | cons x xs ih =>
    intro c d h pl hpl
    unfold gbtNfgContingency.ctorLoop at h
    split at h
    · cases h
    · rename_i s hs
      split at h
      · cases h
      · rcases List.mem_cons.mp hpl with rfl | hmem
        · exact ⟨s, hs⟩
        · exact ih _ d h pl hmem

theorem gbtNfgContingency.Reachable_playable (g : gbtNfgGame) {c : gbtNfgContingency}
    (h : gbtNfgContingency.Reachable g c) : g.Playable := by
  induction h with
  | set c d p s _ _ _ ih => exact ih
  | init c hc =>
    intro p hp
    obtain ⟨i, hi⟩ := List.mem_iff_getElem?.mp hp
    have hilt : i < g.m_players.length := (List.getElem?_eq_some_iff.mp hi).1
    have hmem : i + 1 ∈ List.range' 1 g.m_players.length := by
      rw [List.mem_range']
      exact ⟨i, hilt, by omega⟩
    obtain ⟨s, hs⟩ := gbtNfgContingency.ctorLoop_some g _ _ c hc (i + 1) hmem
    obtain ⟨q, r, hq, hr, _⟩ := gbtNfgGame.GetStrategy_some hs
    have hcast : ((i + 1 : Nat) : Int) = (i : Int) + 1 := by push_cast; rfl
    rw [hcast, gbtArray.get?_succ, hi] at hq
    cases hq
    intro hnil
    subst hnil
    unfold gbtArray.get? at hr
    simp at hr

/-- C4 (amended): in an indexed game whose index space fits a `long` (the product of
the strategy counts is at most `2^63`), the flattened index of a contingency of the game
lies in `0 ..< product of the strategy counts`; so in a table of exactly that many cells the cell
`GetIndex() + 1` exists: `GetOutcome` and `SetOutcome` complete, and `GetPayoff` reads
its payoff from that cell. -/
theorem C4_index_space (g : gbtNfgGame) (hg : g.Indexed) (hfit : g.FitsLong)
    (c : gbtNfgContingency) (h : gbtNfgContingency.Reachable g c) :
    0 ≤ c.GetIndex ∧ c.GetIndex < g.NumContingencies ∧
    ∀ r : gbt_nfg_game_rep, (r.m_results.length : Int) = g.NumContingencies →
      ∃ cell, gbtArray.get? r.m_results (c.GetIndex + 1) = some cell ∧
        c.GetOutcome r = some cell ∧
        (∀ o, ∃ r1, c.SetOutcome r o = some r1) ∧
        ∀ (Payoff : Option Nat → List (Option (List Int)) → List ℚ) (p : gbtNfgPlayer),
          c.GetPayoff Payoff r p =
            match cell with
            | .null => none
            | .ref o => gbtArray.get? o.m_payoffs p.GetId := by
  have hp := gbtNfgContingency.Reachable_playable g h
  obtain ⟨_, h0, hlt, _, _⟩ := gbtNfgContingency.Reachable_decode g hg hfit h hp
  refine ⟨h0, hlt, ?_⟩
  intro r hr
  unfold gbtNfgContingency.GetIndex
  obtain ⟨cell, hcell⟩ := gbtArray.get?_isSome r.m_results (c.index + 1) (by omega) (by omega)
  refine ⟨cell, hcell, hcell, ?_, ?_⟩
  · intro o
    unfold gbtNfgContingency.SetOutcome
    rw [gbtArray.set?_eq _ _ _ (by omega) (by omega)]
    exact ⟨_, rfl⟩
  · intro Payoff p
    have hpos : r.m_results.length > 0 := by omega
    unfold gbtNfgContingency.GetPayoff gbtNfgContingency.tablePayoff
    rw [if_pos hpos, hcell]
    cases cell <;> rfl

theorem C4_index_space_witness :
    exampleGame.Indexed ∧ exampleGame.FitsLong ∧ gbtNfgContingency.Reachable exampleGame exampleContingency2 ∧
    0 ≤ exampleContingency2.GetIndex ∧
    exampleContingency2.GetIndex < exampleGame.NumContingencies ∧
    ∀ r : gbt_nfg_game_rep, (r.m_results.length : Int) = exampleGame.NumContingencies →
      ∃ cell, gbtArray.get? r.m_results (exampleContingency2.GetIndex + 1) = some cell ∧
        exampleContingency2.GetOutcome r = some cell ∧
        (∀ o, ∃ r1, exampleContingency2.SetOutcome r o = some r1) ∧
        ∀ (Payoff : Option Nat → List (Option (List Int)) → List ℚ) (p : gbtNfgPlayer),
          exampleContingency2.GetPayoff Payoff r p =
            match cell with
            | .null => none
            | .ref o => gbtArray.get? o.m_payoffs p.GetId :=
  have r2 : gbtNfgContingency.Reachable exampleGame exampleContingency2 :=
    gbtNfgContingency.Reachable.set exampleContingency _ 2 exampleStrategy
      (gbtNfgContingency.Reachable.init _ (by decide)) ⟨3, by decide⟩ (by decide)
  ⟨by decide, by decide, r2, C4_index_space exampleGame (by decide) (by decide) _ r2⟩

/-! ## `gbtNfgContingency::IsValid` -/

theorem gbtNfgContingency.IsValidLoop_eq (profile : List gbtNfgStrategy) :
    ∀ i : Nat, i ≤ profile.length →
      gbtNfgContingency.IsValidLoop profile i
        = some (decide (∃ j, j < i ∧ profile[j]? = some gbtNfgStrategy.null)) := by
  intro i
  induction i with
  | zero => intro _; simp [gbtNfgContingency.IsValidLoop]
  | succ i ih =>
    intro hi
    have hlt : i < profile.length := by omega
    have hcast : ((i + 1 : Nat) : Int) = (i : Int) + 1 := by push_cast; rfl
    unfold gbtNfgContingency.IsValidLoop
    rw [hcast, gbtArray.get?_succ, List.getElem?_eq_getElem hlt]
    simp only []
    by_cases hs : profile[i] = gbtNfgStrategy.null
    · have hex : ∃ j, j < i + 1 ∧ profile[j]? = some gbtNfgStrategy.null :=
        ⟨i, by omega, by rw [List.getElem?_eq_getElem hlt, hs]⟩
      have hne : ((i : Int) + 1 ≠ 0) := by omega
      simp [hs, hex, hne]
    · rw [if_pos hs, ih (by omega)]
      congr 1
      apply decide_eq_decide.mpr
      constructor
      · rintro ⟨j, hj, hjn⟩
        exact ⟨j, by omega, hjn⟩
      · rintro ⟨j, hj, hjn⟩
        refine ⟨j, ?_, hjn⟩
        by_contra hcon
        have hji : j = i := by omega
        subst hji
        rw [List.getElem?_eq_getElem hlt] at hjn
        exact hs (Option.some.inj hjn)

/-- C5 (the code at its word): `gbtNfgContingency::IsValid()` returns the final loop
counter, so it is `true` exactly when some slot holds the null placeholder and `false`
when every slot holds a real strategy, the reverse of the documented meaning.  On the
contingency of `exampleGame` with both players on their first strategy it returns
`false`; on a profile with a null slot it returns `true`. -/
theorem C5_IsValid_returns_loop_counter :
    (∀ c : gbtNfgContingency,
      c.IsValid = some (decide (∃ s ∈ c.profile, s = gbtNfgStrategy.null))) ∧
    (∀ s ∈ exampleContingency.profile, s ≠ gbtNfgStrategy.null) ∧
    gbtNfgContingency.new exampleGame = some exampleContingency ∧
    exampleContingency.IsValid = some false ∧
    exampleContingencyNull.IsValid = some true := by
  refine ⟨?_, by decide, by decide, by decide, by decide⟩
  intro c
  unfold gbtNfgContingency.IsValid
  rw [gbtNfgContingency.IsValidLoop_eq c.profile _ (le_refl _)]
  congr 1
  apply decide_eq_decide.mpr
  constructor
  · rintro ⟨j, _, hj⟩
    exact ⟨_, List.getElem?_mem hj, rfl⟩
  · rintro ⟨s, hs, rfl⟩
    obtain ⟨j, hj⟩ := List.mem_iff_getElem?.mp hs
    exact ⟨j, (List.getElem?_eq_some_iff.mp hj).1, hj⟩

/-! ## Payoff retrieval and detachment -/

theorem gbtNfgContingency.behavLoop_eq (profile : List gbtNfgStrategy) :
    ∀ m k : Nat, k + m = profile.length →
      gbtNfgContingency.behavLoop profile (List.range' (k + 1) m)
        = some ((profile.drop k).map gbtNfgStrategy.GetBehavior) := by
  intro m
  induction m with
  | zero =>
    intro k hk
    have : profile.drop k = [] := List.drop_eq_nil_of_le (by omega)
    simp [gbtNfgContingency.behavLoop, this]
  | succ m ih =>
    intro k hk
    have hlt : k < profile.length := by omega
    have hcast : ((k + 1 : Nat) : Int) = (k : Int) + 1 := by push_cast; rfl
    rw [List.range'_succ]
    unfold gbtNfgContingency.behavLoop
    rw [hcast, gbtArray.get?_succ, List.getElem?_eq_getElem hlt]
    simp only [ih (k + 1) (by omega)]
    rw [List.drop_eq_getElem_cons hlt, List.map_cons]

/-- C6: `GetPayoff` has two paths.  With a materialized (non-empty) outcome table the
result is component `P.GetId()` of the payoff vector of the outcome in cell
`GetIndex() + 1`, whatever the tracing would give; with an empty table it is component
`P.GetId()` of the payoff vector obtained by tracing the extensive-form game with, for
each player, the behaviour of the contingency's strategy for that player. -/
theorem C6_payoff_dual_path (Payoff : Option Nat → List (Option (List Int)) → List ℚ)
    (r : gbt_nfg_game_rep) (c : gbtNfgContingency) (P : gbtNfgPlayer)
    (hlen : c.profile.length = c.m_nfg.m_players.length) :
    (0 < r.m_results.length →
      (c.GetPayoff Payoff r P =
        match c.GetOutcome r with
        | some (.ref o) => gbtArray.get? o.m_payoffs P.GetId
        | _ => none) ∧
      ∀ Payoff1 : Option Nat → List (Option (List Int)) → List ℚ,
        c.GetPayoff Payoff1 r P = c.GetPayoff Payoff r P) ∧
    (r.m_results.length = 0 →
      c.GetPayoff Payoff r P =
        gbtArray.get? (Payoff r.m_efg (c.profile.map gbtNfgStrategy.GetBehavior)) P.GetId) := by
  constructor
  · intro hpos
    constructor
    · unfold gbtNfgContingency.GetPayoff gbtNfgContingency.tablePayoff
        gbtNfgContingency.GetOutcome
      rw [if_pos hpos]
      cases gbtArray.get? r.m_results (c.index + 1) with
      | none => rfl
      | some cell => cases cell <;> rfl
    · intro Payoff1
      unfold gbtNfgContingency.GetPayoff
      rw [if_pos hpos, if_pos hpos]
  · intro hzero
    have hnot : ¬ (r.m_results.length > 0) := by omega
    unfold gbtNfgContingency.GetPayoff
    rw [if_neg hnot, ← hlen]
    have := gbtNfgContingency.behavLoop_eq c.profile c.profile.length 0 (by omega)
    simp only [zero_add, List.drop_zero] at this
    simp only [this]

theorem C6_payoff_dual_path_witness :
    exampleContingency2.profile.length = exampleContingency2.m_nfg.m_players.length ∧
    0 < [gbtNfgOutcome.null, .null, .null, .null, exampleOutcome, .null].length ∧
    exampleRepNoTable.m_results.length = 0 ∧
    exampleContingency2.GetPayoff (examplePayoff 5)
      { m_results := [.null, .null, .null, .null, exampleOutcome, .null],
        m_revision := 0, m_efg := none } ⟨1⟩ = some 1 ∧
    exampleContingency2.GetPayoff (examplePayoff 5) exampleRepNoTable ⟨1⟩ = some 5 :=
  have h1 := (C6_payoff_dual_path (examplePayoff 5)
      { m_results := [.null, .null, .null, .null, exampleOutcome, .null],
        m_revision := 0, m_efg := none } exampleContingency2 ⟨1⟩ (by decide)).1 (by decide)
  have h2 := (C6_payoff_dual_path (examplePayoff 5) exampleRepNoTable
      exampleContingency2 ⟨1⟩ (by decide)).2 (by decide)
  ⟨by decide, by decide, by decide, h1.1.trans (by decide), h2.trans (by decide)⟩

theorem gbtPVector.get?_some {rows : List (List Int)} {pl st f : Int}
    (h : gbtPVector.get? rows pl st = some f) :
    ∃ row, 1 ≤ pl ∧ rows[(pl - 1).toNat]? = some row ∧ 1 ≤ st ∧
      row[(st - 1).toNat]? = some f := by
  unfold gbtPVector.get? at h
  split at h
  · cases h
  · rename_i row hrow
    have h1 := (gbtArray.get?_some_bounds hrow).1
    have h2 := (gbtArray.get?_some_bounds h).1
    rw [gbtArray.get?_eq _ _ h1] at hrow
    rw [gbtArray.get?_eq _ _ h2] at h
    exact ⟨row, h1, hrow, h2, h⟩

theorem gbtPVector.get?_succ_succ (rows : List (List Int)) (i j : Nat) (row : List Int)
    (h : rows[i]? = some row) :
    gbtPVector.get? rows ((i : Int) + 1) ((j : Int) + 1) = row[j]? := by
  unfold gbtPVector.get?
  rw [gbtArray.get?_succ, h]
  simp only [gbtArray.get?_succ]

theorem gbtPVector.set?_some_row {rows t : List (List Int)} {pl st v : Int}
    (h : gbtPVector.set? rows pl st v = some t) :
    ∃ row, 1 ≤ pl ∧ rows[(pl - 1).toNat]? = some row ∧ 1 ≤ st ∧ st ≤ (row.length : Int) ∧
      t = rows.set (pl - 1).toNat (row.set (st - 1).toNat v) := by
  unfold gbtPVector.set? at h
  split at h
  · cases h
  · rename_i row hrow
    split at h
    · cases h
    · rename_i row1 hrow1
      have h1 := (gbtArray.get?_some_bounds hrow).1
      rw [gbtArray.get?_eq _ _ h1] at hrow
      obtain ⟨h2, h3, rfl⟩ := gbtArray.set?_some hrow1
      obtain ⟨_, _, ht⟩ := gbtArray.set?_some h
      exact ⟨row, h1, hrow, h2, h3, ht⟩

theorem gbtNfgSupport.NumStratsLoop_eq (a : gbtNfgSupport) (i : Nat) (row : List Int)
    (hrow : a.m_strategies[i]? = some row) :
    ∀ (m k : Nat) (total : Int), k + m = row.length →
      gbtNfgSupport.NumStratsLoop a ((i : Int) + 1) (List.range' (k + 1) m) total
        = some (total + (row.drop k).sum) := by
  intro m
  induction m with
  | zero =>
    intro k total hk
    have : row.drop k = [] := List.drop_eq_nil_of_le (by omega)
    simp [gbtNfgSupport.NumStratsLoop, this]
  | succ m ih =>
    intro k total hk
    have hlt : k < row.length := by omega
    have hcast : ((k + 1 : Nat) : Int) = (k : Int) + 1 := by push_cast; rfl
    rw [List.range'_succ]
    unfold gbtNfgSupport.NumStratsLoop
    rw [hcast, gbtPVector.get?_succ_succ _ _ _ _ hrow, List.getElem?_eq_getElem hlt]
    simp only [ih (k + 1) _ (by omega)]
    rw [List.drop_eq_getElem_cons hlt, List.sum_cons, add_assoc]

/-- `NumStrats(pl)` is the sum of the flags of row `pl`. -/
theorem gbtNfgSupport.NumStrats_eq (a : gbtNfgSupport) (i : Nat) (row : List Int)
    (hrow : a.m_strategies[i]? = some row) :
    a.NumStrats ((i : Int) + 1) = some row.sum := by
  unfold gbtNfgSupport.NumStrats gbtPVector.rowLength?
  rw [gbtArray.get?_succ, hrow]
  simp only []
  rw [gbtNfgSupport.NumStratsLoop_eq a i row hrow row.length 0 0 (by omega)]
  simp

theorem gbtNfgSupport.new_support_inv (g : gbtNfgGame) : gbtNfgSupport.Inv g (gbtNfgSupport.new g) := by
  refine ⟨rfl, by simp [gbtNfgSupport.new, gbtNfgGame.NumStratsArray], ?_⟩
  intro i p hp
  refine ⟨List.replicate p.length 1, ?_, by simp, ?_⟩
  · simp [gbtNfgSupport.new, gbtNfgGame.NumStratsArray, hp]
  · intro f hf
    exact Or.inr (List.eq_of_mem_replicate hf)

theorem gbtNfgSupport.set_inv (g : gbtNfgGame) (a : gbtNfgSupport) (t : List (List Int))
    (pl st v : Int) (hv : v = 0 ∨ v = 1) (ha : gbtNfgSupport.Inv g a)
    (h : gbtPVector.set? a.m_strategies pl st v = some t) :
    gbtNfgSupport.Inv g { a with m_strategies := t } := by
  obtain ⟨hnfg, hlen, hrows⟩ := ha
  obtain ⟨row, h1, hrow, h2, h3, rfl⟩ := gbtPVector.set?_some_row h
  refine ⟨hnfg, by simpa using hlen, ?_⟩
  intro i p hp
  obtain ⟨row1, hrow1, hl1, hf1⟩ := hrows i p hp
  by_cases hi : (pl - 1).toNat = i
  · subst hi
    rw [hrow] at hrow1
    cases hrow1
    have hlt : (pl - 1).toNat < a.m_strategies.length := (List.getElem?_eq_some_iff.mp hrow).1
    refine ⟨row.set (st - 1).toNat v, ?_, by simpa using hl1, ?_⟩
    · simp only [List.getElem?_set_self hlt]
    · intro f hf
      rcases List.mem_or_eq_of_mem_set hf with hmem | rfl
      · exact hf1 f hmem
      · exact hv
  · refine ⟨row1, ?_, hl1, hf1⟩
    simp only [List.getElem?_set_ne hi]
    exact hrow1

theorem gbtNfgSupport.Reachable_support_inv (g : gbtNfgGame) {a : gbtNfgSupport}
    (h : gbtNfgSupport.Reachable g a) : gbtNfgSupport.Inv g a := by
  induction h with
  | init => exact gbtNfgSupport.new_support_inv g
  | add a b s _ hadd ih =>
    unfold gbtNfgSupport.AddStrategy at hadd
    split at hadd
    · cases hadd
    · rename_i t ht
      cases hadd
      exact gbtNfgSupport.set_inv g a t _ _ 1 (Or.inr rfl) ih ht
  | remove a b s _ hrem ih =>
    unfold gbtNfgSupport.RemoveStrategy at hrem
    split at hrem
    · cases hrem
    · rename_i t ht
      cases hrem
      exact gbtNfgSupport.set_inv g a t _ _ 0 (Or.inl rfl) ih ht

theorem flagsSubset_iff :
    ∀ ra rb : List Int, flagsSubset ra rb = true ↔
      ∀ (j : Nat) (fa fb : Int), ra[j]? = some fa → rb[j]? = some fb → fa ≠ 0 → fb ≠ 0 := by
  intro ra
  induction ra with
  | nil => intro rb; simp [flagsSubset]
  | cons fa ra ih =>
    intro rb
    cases rb with
    | nil => simp [flagsSubset]
    | cons fb rb =>
      simp only [flagsSubset, Bool.and_eq_true, ih rb]
      constructor
      · rintro ⟨h0, hrest⟩ j xa xb hxa hxb
        cases j with
        | zero =>
          simp only [List.getElem?_cons_zero, Option.some.injEq] at hxa hxb
          subst hxa hxb
          intro hne hz
          simp [hne, hz] at h0
        | succ j =>
          simp only [List.getElem?_cons_succ] at hxa hxb
          exact hrest j xa xb hxa hxb
      · intro h
        constructor
        · have := h 0 fa fb List.getElem?_cons_zero List.getElem?_cons_zero
          by_cases hne : fa = 0
          · simp [hne]
          · simp [hne, this hne]
        · intro j xa xb hxa hxb
          exact h (j + 1) xa xb (by simpa using hxa) (by simpa using hxb)

theorem tableSubset_iff :
    ∀ ta tb : List (List Int), tableSubset ta tb = true ↔
      ∀ (i : Nat) (ra rb : List Int), ta[i]? = some ra → tb[i]? = some rb →
        flagsSubset ra rb = true := by
  intro ta
  induction ta with
  | nil => intro tb; simp [tableSubset]
  | cons ra ta ih =>
    intro tb
    cases tb with
    | nil => simp [tableSubset]
    | cons rb tb =>
      simp only [tableSubset, Bool.and_eq_true, ih tb]
      constructor
      · rintro ⟨h0, hrest⟩ i xa xb hxa hxb
        cases i with
        | zero =>
          simp only [List.getElem?_cons_zero, Option.some.injEq] at hxa hxb
          subst hxa hxb
          exact h0
        | succ i =>
          simp only [List.getElem?_cons_succ] at hxa hxb
          exact hrest i xa xb hxa hxb
      · intro h
        exact ⟨h 0 ra rb List.getElem?_cons_zero List.getElem?_cons_zero,
          fun i xa xb hxa hxb => h (i + 1) xa xb (by simpa using hxa) (by simpa using hxb)⟩

theorem flagsSubset_sum_le :
    ∀ ra rb : List Int, ra.length = rb.length → (∀ f ∈ ra, f = 0 ∨ f = 1) →
      (∀ f ∈ rb, f = 0 ∨ f = 1) → flagsSubset ra rb = true → ra.sum ≤ rb.sum := by
  intro ra
  induction ra with
  | nil =>
    intro rb hlen _ _ _
    cases rb with
    | nil => simp
    | cons fb rb => simp at hlen
  | cons fa ra ih =>
    intro rb hlen ha hb hsub
    cases rb with
    | nil => simp at hlen
    | cons fb rb =>
      simp only [flagsSubset, Bool.and_eq_true] at hsub
      obtain ⟨h0, hrest⟩ := hsub
      have hrec := ih rb (by simpa using hlen)
        (fun f hf => ha f (List.mem_cons_of_mem _ hf))
        (fun f hf => hb f (List.mem_cons_of_mem _ hf)) hrest
      have hfa := ha fa (List.mem_cons_self _ _)
      have hfb := hb fb (List.mem_cons_self _ _)
      have hle : fa ≤ fb := by
        rcases hfa with rfl | rfl <;> rcases hfb with rfl | rfl <;> simp at h0 ⊢
      simp only [List.sum_cons]
      omega

theorem gbtNfgSupport.IsSubsetInner_eq (a b : gbtNfgSupport) (i : Nat) (ra rb : List Int)
    (hra : a.m_strategies[i]? = some ra) (hrb : b.m_strategies[i]? = some rb)
    (hlen : ra.length = rb.length) :
    ∀ m k : Nat, k + m = ra.length →
      gbtNfgSupport.IsSubsetInner a b ((i : Int) + 1) (List.range' (k + 1) m)
        = some (flagsSubset (ra.drop k) (rb.drop k)) := by
  intro m
  induction m with
  | zero =>
    intro k hk
    have : ra.drop k = [] := List.drop_eq_nil_of_le (by omega)
    simp [gbtNfgSupport.IsSubsetInner, this, flagsSubset]
  | succ m ih =>
    intro k hk
    have hlta : k < ra.length := by omega
    have hltb : k < rb.length := by omega
    have hcast : ((k + 1 : Nat) : Int) = (k : Int) + 1 := by push_cast; rfl
    rw [List.range'_succ]
    unfold gbtNfgSupport.IsSubsetInner
    rw [hcast, gbtPVector.get?_succ_succ _ _ _ _ hra, gbtPVector.get?_succ_succ _ _ _ _ hrb,
      List.getElem?_eq_getElem hlta, List.getElem?_eq_getElem hltb]
    simp only [ih (k + 1) (by omega)]
    rw [List.drop_eq_getElem_cons hlta, List.drop_eq_getElem_cons hltb]
    simp only [flagsSubset]
    by_cases h1 : ra[k] = 0
    · simp [h1]
    · by_cases h2 : rb[k] = 0
      · simp [h1, h2]
      · simp [h1, h2]

theorem gbtNfgSupport.IsSubsetOuter_eq (g : gbtNfgGame) (a b : gbtNfgSupport)
    (ha : gbtNfgSupport.Inv g a) (hb : gbtNfgSupport.Inv g b) :
    ∀ m k : Nat, k + m = g.m_players.length →
      gbtNfgSupport.IsSubsetOuter a b (List.range' (k + 1) m)
        = some (tableSubset (a.m_strategies.drop k) (b.m_strategies.drop k)) := by
  intro m
  induction m with
  | zero =>
    intro k hk
    have : a.m_strategies.drop k = [] := List.drop_eq_nil_of_le (by rw [ha.2.1]; omega)
    simp [gbtNfgSupport.IsSubsetOuter, this, tableSubset]
  | succ m ih =>
    intro k hk
    have hlt : k < g.m_players.length := by omega
    obtain ⟨ra, hra, hla, hfa⟩ := ha.2.2 k _ (List.getElem?_eq_getElem hlt)
    obtain ⟨rb, hrb, hlb, hfb⟩ := hb.2.2 k _ (List.getElem?_eq_getElem hlt)
    have hlta : k < a.m_strategies.length := by rw [ha.2.1]; exact hlt
    have hltb : k < b.m_strategies.length := by rw [hb.2.1]; exact hlt
    have hea : a.m_strategies[k] = ra := by
      rw [List.getElem?_eq_getElem hlta] at hra; exact Option.some.inj hra
    have heb : b.m_strategies[k] = rb := by
      rw [List.getElem?_eq_getElem hltb] at hrb; exact Option.some.inj hrb
    have hcast : ((k + 1 : Nat) : Int) = (k : Int) + 1 := by push_cast; rfl
    have hn : a.m_nfg.NumStrats ((k : Int) + 1) = some ((g.m_players[k]).length : Int) := by
      unfold gbtNfgGame.NumStrats
      rw [ha.1, gbtArray.get?_succ, List.getElem?_eq_getElem hlt]
    have hinner := gbtNfgSupport.IsSubsetInner_eq a b k ra rb hra hrb (by omega)
      ra.length 0 (by omega)
    simp only [zero_add, List.drop_zero] at hinner
    rw [List.range'_succ]
    unfold gbtNfgSupport.IsSubsetOuter
    rw [hcast, gbtNfgSupport.NumStrats_eq a k ra hra, gbtNfgSupport.NumStrats_eq b k rb hrb,
      List.drop_eq_getElem_cons hlta, List.drop_eq_getElem_cons hltb, hea, heb]
    simp only [tableSubset, hn]
    by_cases hgt : ra.sum > rb.sum
    · have hfalse : flagsSubset ra rb = false := by
        by_contra hcon
        have htrue : flagsSubset ra rb = true := by simpa using hcon
        have := flagsSubset_sum_le ra rb (by omega) hfa hfb htrue
        omega
      simp [hgt, hfalse]
    · have hlen2 : ((g.m_players[k]).length : Int).toNat = ra.length := by omega
      rw [if_neg hgt, hlen2, hinner]
      cases hfs : flagsSubset ra rb with
      | false => simp
      | true => simp [ih (k + 1) (by omega)]

/-- On supports of one game, `IsSubset` is the flag-by-flag comparison of the tables. -/
theorem gbtNfgSupport.IsSubset_eq (g : gbtNfgGame) (a b : gbtNfgSupport)
    (ha : gbtNfgSupport.Inv g a) (hb : gbtNfgSupport.Inv g b) :
    a.IsSubset b = some (tableSubset a.m_strategies b.m_strategies) := by
  unfold gbtNfgSupport.IsSubset
  have hrep : ¬ (a.m_nfg.rep ≠ b.m_nfg.rep) := by rw [ha.1, hb.1]; simp
  rw [if_neg hrep, ha.1]
  have := gbtNfgSupport.IsSubsetOuter_eq g a b ha hb g.m_players.length 0 (by omega)
  simpa using this

theorem gbtNfgSupport.Contains_true_iff (a : gbtNfgSupport) (s : gbtNfgStrategy) :
    a.Contains s = some true ↔
      ∃ f, gbtPVector.get? a.m_strategies s.GetPlayerId s.GetId = some f ∧ f ≠ 0 := by
  unfold gbtNfgSupport.Contains
  cases gbtPVector.get? a.m_strategies s.GetPlayerId s.GetId with
  | none => simp
  | some f => simp

theorem gbtPVector.get?_of_getElem? (rows : List (List Int)) (pl st : Int) (row : List Int)
    (h1 : 1 ≤ pl) (h2 : 1 ≤ st) (hrow : rows[(pl - 1).toNat]? = some row) :
    gbtPVector.get? rows pl st = row[(st - 1).toNat]? := by
  have e1 : pl = (((pl - 1).toNat : Nat) : Int) + 1 := by omega
  have e2 : st = (((st - 1).toNat : Nat) : Int) + 1 := by omega
  rw [e1, e2, gbtPVector.get?_succ_succ rows _ _ row (by simpa using hrow)]
  simp

theorem gbtNfgSupport.contains_imp_iff (g : gbtNfgGame) (a b : gbtNfgSupport)
    (ha : gbtNfgSupport.Inv g a) (hb : gbtNfgSupport.Inv g b) :
    (∀ s : gbtNfgStrategy, a.Contains s = some true → b.Contains s = some true) ↔
      tableSubset a.m_strategies b.m_strategies = true := by
  rw [tableSubset_iff]
  constructor
  · intro h i ra rb hra hrb
    rw [flagsSubset_iff]
    intro j fa fb hfa hfb hne
    have hs := h (gbtNfgStrategy.ref ⟨(j : Int) + 1, (i : Int) + 1, 0, []⟩)
    rw [gbtNfgSupport.Contains_true_iff, gbtNfgSupport.Contains_true_iff] at hs
    simp only [gbtNfgStrategy.GetPlayerId, gbtNfgStrategy.GetId] at hs
    rw [gbtPVector.get?_succ_succ _ _ _ _ hra, gbtPVector.get?_succ_succ _ _ _ _ hrb, hfa, hfb] at hs
    obtain ⟨f, hf, hfne⟩ := hs ⟨fa, rfl, hne⟩
    cases hf
    exact hfne
  · intro h s hs
    rw [gbtNfgSupport.Contains_true_iff] at hs ⊢
    obtain ⟨fa, hfa, hne⟩ := hs
    obtain ⟨ra, h1, hra, h2, hfa1⟩ := gbtPVector.get?_some hfa
    have hi : (s.GetPlayerId - 1).toNat < g.m_players.length := by
      rw [← ha.2.1]; exact (List.getElem?_eq_some_iff.mp hra).1
    obtain ⟨ra1, hra1, hla, _⟩ := ha.2.2 _ _ (List.getElem?_eq_getElem hi)
    obtain ⟨rb, hrb, hlb, _⟩ := hb.2.2 _ _ (List.getElem?_eq_getElem hi)
    rw [hra] at hra1
    cases hra1
    have hj : (s.GetId - 1).toNat < rb.length := by
      rw [hlb, ← hla]; exact (List.getElem?_eq_some_iff.mp hfa1).1
    refine ⟨rb[(s.GetId - 1).toNat], ?_, ?_⟩
    · rw [gbtPVector.get?_of_getElem? _ _ _ rb h1 h2 hrb, List.getElem?_eq_getElem hj]
    · exact (flagsSubset_iff ra rb).mp (h _ ra rb hra hrb) _ fa _ hfa1
        (List.getElem?_eq_getElem hj) hne

theorem gbtNfgSupport.NumStrats_some {a : gbtNfgSupport} {pl n : Int}
    (h : a.NumStrats pl = some n) :
    ∃ row, 1 ≤ pl ∧ a.m_strategies[(pl - 1).toNat]? = some row ∧ n = row.sum := by
  cases hrow : gbtArray.get? a.m_strategies pl with
  | none =>
    unfold gbtNfgSupport.NumStrats gbtPVector.rowLength? at h
    rw [hrow] at h
    cases h
  | some row =>
    have h1 := (gbtArray.get?_some_bounds hrow).1
    rw [gbtArray.get?_eq _ _ h1] at hrow
    have e1 : pl = (((pl - 1).toNat : Nat) : Int) + 1 := by omega
    rw [e1, gbtNfgSupport.NumStrats_eq a _ row hrow] at h
    exact ⟨row, h1, hrow, (Option.some.inj h).symm⟩

/-- C8: for supports `a` and `b` of one game (as the constructor, `AddStrategy` and
`RemoveStrategy` produce them), `a.IsSubset(b)` returns, and returns true if and only if
every strategy contained in `a` is contained in `b`; in that case no player has more
strategies in `a` than in `b`, so the count comparison never decides the result.  For
supports `c`, `d` of different games `IsSubset` returns false. -/
theorem C8_support_subset (g : gbtNfgGame) (a b c d : gbtNfgSupport)
    (ha : gbtNfgSupport.Reachable g a) (hb : gbtNfgSupport.Reachable g b) :
    (∃ v, a.IsSubset b = some v) ∧
    (a.IsSubset b = some true ↔
      ∀ s : gbtNfgStrategy, a.Contains s = some true → b.Contains s = some true) ∧
    ((∀ s : gbtNfgStrategy, a.Contains s = some true → b.Contains s = some true) →
      ∀ pl na nb, a.NumStrats pl = some na → b.NumStrats pl = some nb → na ≤ nb) ∧
    (c.m_nfg.rep ≠ d.m_nfg.rep → c.IsSubset d = some false) := by
  have ia := gbtNfgSupport.Reachable_support_inv g ha
  have ib := gbtNfgSupport.Reachable_support_inv g hb
  have heq := gbtNfgSupport.IsSubset_eq g a b ia ib
  refine ⟨⟨_, heq⟩, ?_, ?_, ?_⟩
  · rw [heq, gbtNfgSupport.contains_imp_iff g a b ia ib]
    simp
  · intro hsub pl na nb hna hnb
    have ht := (gbtNfgSupport.contains_imp_iff g a b ia ib).mp hsub
    obtain ⟨ra, _, hra, rfl⟩ := gbtNfgSupport.NumStrats_some hna
    obtain ⟨rb, _, hrb, rfl⟩ := gbtNfgSupport.NumStrats_some hnb
    have hi : (pl - 1).toNat < g.m_players.length := by
      rw [← ia.2.1]; exact (List.getElem?_eq_some_iff.mp hra).1
    obtain ⟨ra1, hra1, hla, hfa⟩ := ia.2.2 _ _ (List.getElem?_eq_getElem hi)
    obtain ⟨rb1, hrb1, hlb, hfb⟩ := ib.2.2 _ _ (List.getElem?_eq_getElem hi)
    rw [hra] at hra1
    rw [hrb] at hrb1
    cases hra1
    cases hrb1
    exact flagsSubset_sum_le ra rb (by omega) hfa hfb
      ((tableSubset_iff _ _).mp ht _ ra rb hra hrb)
  · intro hne
    unfold gbtNfgSupport.IsSubset
    rw [if_pos hne]

theorem C8_support_subset_witness :
    gbtNfgSupport.Reachable exampleGame exampleSupportSmall ∧
    gbtNfgSupport.Reachable exampleGame exampleSupportFull ∧
    exampleSupportSmall.IsSubset exampleSupportFull = some true ∧
    (∀ s : gbtNfgStrategy, exampleSupportSmall.Contains s = some true →
      exampleSupportFull.Contains s = some true) ∧
    exampleSupportFull.m_nfg.rep ≠ exampleSupportOther.m_nfg.rep ∧
    exampleSupportFull.IsSubset exampleSupportOther = some false :=
  have hfull : gbtNfgSupport.Reachable exampleGame exampleSupportFull :=
    gbtNfgSupport.Reachable.init
  have hsmall : gbtNfgSupport.Reachable exampleGame exampleSupportSmall :=
    gbtNfgSupport.Reachable.remove exampleSupportFull _ exampleStrategy hfull (by decide)
  have h := C8_support_subset exampleGame exampleSupportSmall exampleSupportFull
    exampleSupportFull exampleSupportOther hsmall hfull
  have htrue : exampleSupportSmall.IsSubset exampleSupportFull = some true := by decide
  ⟨hsmall, hfull, htrue, h.2.1.mp htrue, by decide, h.2.2.2 (by decide)⟩

/-! ## `gbtNfgSupport::IsValid` and the initial support -/

theorem gbtNfgSupport.IsValidLoop_all (a : gbtNfgSupport) :
    ∀ m k : Nat, k + m = a.m_strategies.length →
      gbtNfgSupport.IsValidLoop a (List.range' (k + 1) m)
        = some ((a.m_strategies.drop k).all (fun row => decide (row.sum ≠ 0))) := by
  intro m
  induction m with
  | zero =>
    intro k hk
    have : a.m_strategies.drop k = [] := List.drop_eq_nil_of_le (by omega)
    simp [gbtNfgSupport.IsValidLoop, this]
  | succ m ih =>
    intro k hk
    have hlt : k < a.m_strategies.length := by omega
    have hcast : ((k + 1 : Nat) : Int) = (k : Int) + 1 := by push_cast; rfl
    rw [List.range'_succ]
    unfold gbtNfgSupport.IsValidLoop
    rw [hcast, gbtNfgSupport.NumStrats_eq a k _ (List.getElem?_eq_getElem hlt)]
    simp only [ih (k + 1) (by omega)]
    rw [List.drop_eq_getElem_cons hlt, List.all_cons]
    by_cases hz : (a.m_strategies[k]).sum = 0
    · simp [hz]
    · simp [hz]

theorem flags_sum_eq_zero_iff :
    ∀ row : List Int, (∀ f ∈ row, f = 0 ∨ f = 1) →
      (0 ≤ row.sum ∧ (row.sum = 0 ↔ ∀ f ∈ row, f = 0)) := by
  intro row
  induction row with
  | nil => intro _; simp
  | cons f row ih =>
    intro h
    obtain ⟨h0, hiff⟩ := ih (fun x hx => h x (List.mem_cons_of_mem _ hx))
    have hf := h f (List.mem_cons_self _ _)
    simp only [List.sum_cons, List.mem_cons, forall_eq_or_imp]
    refine ⟨by omega, ?_⟩
    constructor
    · intro hs
      have hf0 : f = 0 := by omega
      exact ⟨hf0, hiff.mp (by omega)⟩
    · rintro ⟨hf0, hrest⟩
      have := hiff.mpr hrest
      omega

/-- On a support of the game, `IsValid` returns whether every row has a set flag. -/
theorem gbtNfgSupport.IsValid_eq (g : gbtNfgGame) (a : gbtNfgSupport)
    (ha : gbtNfgSupport.Inv g a) :
    a.IsValid = some (a.m_strategies.all (fun row => decide (row.sum ≠ 0))) := by
  unfold gbtNfgSupport.IsValid
  rw [ha.1, ← ha.2.1]
  have := gbtNfgSupport.IsValidLoop_all a a.m_strategies.length 0 (by omega)
  simpa using this

/-- C9: for a support of the game (as the constructor, `AddStrategy` and
`RemoveStrategy` produce it), `IsValid()` returns, and returns true if and only if every
player `1..NumPlayers` has at least one strategy contained in the support; if some
player has none, it returns false. -/
theorem C9_support_IsValid (g : gbtNfgGame) (a : gbtNfgSupport)
    (ha : gbtNfgSupport.Reachable g a) :
    (∃ v, a.IsValid = some v) ∧
    (a.IsValid = some true ↔
      ∀ pl : Int, 1 ≤ pl → pl ≤ g.NumPlayers →
        ∃ s : gbtNfgStrategy, s.GetPlayerId = pl ∧ a.Contains s = some true) ∧
    ((∃ pl : Int, 1 ≤ pl ∧ pl ≤ g.NumPlayers ∧
        ∀ s : gbtNfgStrategy, s.GetPlayerId = pl → a.Contains s ≠ some true) →
      a.IsValid = some false) := by
  have ia := gbtNfgSupport.Reachable_support_inv g ha
  have heq := gbtNfgSupport.IsValid_eq g a ia
  have hiff : a.IsValid = some true ↔
      ∀ pl : Int, 1 ≤ pl → pl ≤ g.NumPlayers →
        ∃ s : gbtNfgStrategy, s.GetPlayerId = pl ∧ a.Contains s = some true := by
    rw [heq]
    simp only [Option.some.injEq, List.all_eq_true, decide_eq_true_eq]
    constructor
    · intro h pl h1 h2
      unfold gbtNfgGame.NumPlayers at h2
      have hi : (pl - 1).toNat < g.m_players.length := by omega
      obtain ⟨row, hrow, _, hflags⟩ := ia.2.2 _ _ (List.getElem?_eq_getElem hi)
      have hsum := h row (List.getElem?_mem hrow)
      have hnz : ¬ ∀ f ∈ row, f = 0 := fun hall =>
        hsum ((flags_sum_eq_zero_iff row hflags).2.mpr hall)
      push_neg at hnz
      obtain ⟨f, hf, hfne⟩ := hnz
      obtain ⟨j, hj⟩ := List.mem_iff_getElem?.mp hf
      refine ⟨gbtNfgStrategy.ref ⟨(j : Int) + 1, pl, 0, []⟩, rfl, ?_⟩
      rw [gbtNfgSupport.Contains_true_iff]
      refine ⟨f, ?_, hfne⟩
      simp only [gbtNfgStrategy.GetPlayerId, gbtNfgStrategy.GetId]
      rw [gbtPVector.get?_of_getElem? _ _ _ row h1 (by omega) hrow]
      have : ((j : Int) + 1 - 1).toNat = j := by omega
      rw [this, hj]
    · intro h row hrow
      obtain ⟨i, hi⟩ := List.mem_iff_getElem?.mp hrow
      have hilt : i < a.m_strategies.length := (List.getElem?_eq_some_iff.mp hi).1
      have hbound : ((i : Int) + 1) ≤ g.NumPlayers := by
        unfold gbtNfgGame.NumPlayers
        have := ia.2.1
        omega
      obtain ⟨s, hs, hc⟩ := h ((i : Int) + 1) (by omega) hbound
      rw [gbtNfgSupport.Contains_true_iff, hs] at hc
      obtain ⟨f, hf, hfne⟩ := hc
      obtain ⟨row1, _, hrow1, _, hf1⟩ := gbtPVector.get?_some hf
      have e : ((i : Int) + 1 - 1).toNat = i := by omega
      rw [e, hi] at hrow1
      cases hrow1
      have hi2 : i < g.m_players.length := by rw [← ia.2.1]; exact hilt
      obtain ⟨row2, hrow2, _, hflags⟩ := ia.2.2 _ _ (List.getElem?_eq_getElem hi2)
      rw [hi] at hrow2
      cases hrow2
      intro hsum
      exact hfne ((flags_sum_eq_zero_iff row hflags).2.mp hsum f (List.getElem?_mem hf1))
  refine ⟨⟨_, heq⟩, hiff, ?_⟩
  rintro ⟨pl, h1, h2, hnone⟩
  cases hv : a.IsValid with
  | none => rw [heq] at hv; cases hv
  | some v =>
    cases v with
    | false => rfl
    | true =>
      obtain ⟨s, hs, hc⟩ := hiff.mp hv pl h1 h2
      exact absurd hc (hnone s hs)

theorem C9_support_IsValid_witness :
    gbtNfgSupport.Reachable exampleGame exampleSupportSmall ∧
    exampleSupportSmall.IsValid = some true ∧
    ∀ pl : Int, 1 ≤ pl → pl ≤ exampleGame.NumPlayers →
      ∃ s : gbtNfgStrategy, s.GetPlayerId = pl ∧ exampleSupportSmall.Contains s = some true :=
  have hsmall : gbtNfgSupport.Reachable exampleGame exampleSupportSmall :=
    gbtNfgSupport.Reachable.remove exampleSupportFull _ exampleStrategy
      gbtNfgSupport.Reachable.init (by decide)
  have htrue : exampleSupportSmall.IsValid = some true := by decide
  ⟨hsmall, htrue, (C9_support_IsValid exampleGame exampleSupportSmall hsmall).2.1.mp htrue⟩

theorem gbtNfgSupport.new_row (g : gbtNfgGame) (i : Nat) :
    (gbtNfgSupport.new g).m_strategies[i]?
      = (g.m_players[i]?).map (fun p => List.replicate p.length (1 : Int)) := by
  simp only [gbtNfgSupport.new, gbtNfgGame.NumStratsArray, List.map_map, List.getElem?_map]
  cases g.m_players[i]? with
  | none => rfl
  | some p => simp

theorem gbtNfgSupport.new_NumStrats (g : gbtNfgGame) (pl : Int) :
    (gbtNfgSupport.new g).NumStrats pl = g.NumStrats pl := by
  by_cases h1 : 1 ≤ pl
  · have e1 : pl = (((pl - 1).toNat : Nat) : Int) + 1 := by omega
    cases hp : g.m_players[(pl - 1).toNat]? with
    | none =>
      have hrow : (gbtNfgSupport.new g).m_strategies[(pl - 1).toNat]? = none := by
        rw [gbtNfgSupport.new_row, hp]; rfl
      unfold gbtNfgSupport.NumStrats gbtPVector.rowLength? gbtNfgGame.NumStrats
      rw [gbtArray.get?_eq _ _ h1, gbtArray.get?_eq _ _ h1, hrow, hp]
    | some p =>
      have hrow : (gbtNfgSupport.new g).m_strategies[(pl - 1).toNat]?
          = some (List.replicate p.length (1 : Int)) := by
        rw [gbtNfgSupport.new_row, hp]; rfl
      rw [e1, gbtNfgSupport.NumStrats_eq _ _ _ hrow]
      unfold gbtNfgGame.NumStrats
      rw [gbtArray.get?_succ, hp]
      simp
  · unfold gbtNfgSupport.NumStrats gbtPVector.rowLength? gbtNfgGame.NumStrats gbtArray.get?
    simp [h1]

/-- C10: in the support freshly constructed from a game whose strategies carry their
player id and number, `Contains(s)` is true for every strategy `s` of every player,
`NumStrats(pl)` is the game's strategy count of `pl` for every `pl`, and, when every
player has at least one strategy, `IsValid()` is true. -/
theorem C10_initial_support (g : gbtNfgGame) (hg : g.Indexed) :
    (∀ (pl : Int) (s : gbtNfgStrategy), g.IsStrategyOf pl s →
      (gbtNfgSupport.new g).Contains s = some true) ∧
    (∀ pl : Int, (gbtNfgSupport.new g).NumStrats pl = g.NumStrats pl) ∧
    (g.Playable → (gbtNfgSupport.new g).IsValid = some true) := by
  refine ⟨?_, gbtNfgSupport.new_NumStrats g, ?_⟩
  · rintro pl s ⟨st, hst⟩
    obtain ⟨r, rfl, hpl, hid, _, h1, _, h2, _⟩ :=
      gbtNfgGame.GetStrategy_indexed g hg pl st _ hst
    obtain ⟨p, r1, hp, hr1, _⟩ := gbtNfgGame.GetStrategy_some hst
    rw [gbtArray.get?_eq _ _ h1] at hp
    have hst2 := (gbtArray.get?_some_bounds hr1).2
    rw [gbtNfgSupport.Contains_true_iff]
    simp only [gbtNfgStrategy.GetPlayerId, gbtNfgStrategy.GetId, hpl, hid]
    have hrow : (gbtNfgSupport.new g).m_strategies[(pl - 1).toNat]?
        = some (List.replicate p.length (1 : Int)) := by
      rw [gbtNfgSupport.new_row, hp]; rfl
    refine ⟨1, ?_, by decide⟩
    rw [gbtPVector.get?_of_getElem? _ _ _ _ h1 h2 hrow]
    have hlt : (st - 1).toNat < p.length := by omega
    rw [List.getElem?_replicate, if_pos hlt]
  · intro hp
    rw [gbtNfgSupport.IsValid_eq g _ (gbtNfgSupport.new_support_inv g)]
    simp only [Option.some.injEq, List.all_eq_true, decide_eq_true_eq]
    intro row hrow
    obtain ⟨i, hi⟩ := List.mem_iff_getElem?.mp hrow
    rw [gbtNfgSupport.new_row] at hi
    cases hpi : g.m_players[i]? with
    | none => rw [hpi] at hi; cases hi
    | some p =>
      rw [hpi] at hi
      simp only [Option.map_some', Option.some.injEq] at hi
      subst hi
      have hne : p ≠ [] := hp p (List.getElem?_mem hpi)
      have hlen : 0 < p.length := List.length_pos.mpr hne
      simp only [List.sum_replicate, smul_eq_mul, mul_one]
      intro hz
      have : (p.length : Int) = 0 := by simpa using hz
      omega

theorem C10_initial_support_witness :
    exampleGame.Indexed ∧ exampleGame.IsStrategyOf 2 exampleStrategy ∧ exampleGame.Playable ∧
    (gbtNfgSupport.new exampleGame).Contains exampleStrategy = some true ∧
    (gbtNfgSupport.new exampleGame).NumStrats 2 = exampleGame.NumStrats 2 ∧
    (gbtNfgSupport.new exampleGame).IsValid = some true :=
  have h := C10_initial_support exampleGame (by decide)
  have hs : exampleGame.IsStrategyOf 2 exampleStrategy := ⟨3, by decide⟩
  ⟨by decide, hs, by decide, h.1 2 exampleStrategy hs, h.2.1 2, h.2.2 (by decide)⟩

/-! ## `AddStrategy` and `RemoveStrategy` -/

theorem gbtPVector.get?_set?_table {rows t : List (List Int)} {pl st v : Int}
    (h : gbtPVector.set? rows pl st v = some t) (pl1 st1 : Int) :
    gbtPVector.get? t pl1 st1
      = if pl1 = pl ∧ st1 = st then some v else gbtPVector.get? rows pl1 st1 := by
  unfold gbtPVector.set? at h
  split at h
  · cases h
  · rename_i row hrow
    split at h
    · cases h
    · rename_i row1 hrow1
      unfold gbtPVector.get?
      rw [gbtArray.get?_set? h pl1]
      by_cases hpl : pl1 = pl
      · subst hpl
        rw [if_pos rfl, hrow]
        simp only [true_and]
        exact gbtArray.get?_set? hrow1 st1
      · rw [if_neg hpl, if_neg (fun hc => hpl hc.1)]

theorem gbtPVector.set?_isSome (rows : List (List Int)) (pl st v : Int) (row : List Int)
    (hrow : gbtArray.get? rows pl = some row) (h1 : 1 ≤ st) (h2 : st ≤ (row.length : Int)) :
    ∃ t, gbtPVector.set? rows pl st v = some t := by
  obtain ⟨hp1, hp2⟩ := gbtArray.get?_some_bounds hrow
  unfold gbtPVector.set?
  rw [hrow]
  simp only [gbtArray.set?_eq row st v h1 h2, gbtArray.set?_eq rows pl _ hp1 hp2]
  exact ⟨_, rfl⟩

/-- A strategy of an indexed game owns a slot of the table of every support of the
game: the row of its player exists and is long enough for its number. -/
theorem gbtNfgSupport.slot_of_strategy (g : gbtNfgGame) (hg : g.Indexed) (a : gbtNfgSupport)
    (ha : gbtNfgSupport.Inv g a) (pl : Int) (s : gbtNfgStrategy) (hs : g.IsStrategyOf pl s) :
    ∃ (p : List gbt_nfg_strategy_rep) (row : List Int),
      gbtArray.get? g.m_players pl = some p ∧
      gbtArray.get? a.m_strategies s.GetPlayerId = some row ∧ row.length = p.length ∧
      (∀ f ∈ row, f = 0 ∨ f = 1) ∧
      s.GetPlayerId = pl ∧ 1 ≤ s.GetId ∧ s.GetId ≤ (row.length : Int) ∧
      g.GetStrategy pl s.GetId = some s := by
  obtain ⟨st, hst⟩ := hs
  obtain ⟨r, rfl, hpl, hid, _, h1, _, h2, _⟩ := gbtNfgGame.GetStrategy_indexed g hg pl st _ hst
  obtain ⟨p, r1, hp, hr1, _⟩ := gbtNfgGame.GetStrategy_some hst
  have hst2 := (gbtArray.get?_some_bounds hr1).2
  have hp0 := hp
  rw [gbtArray.get?_eq _ _ h1] at hp
  obtain ⟨row, hrow, hlen, hflags⟩ := ha.2.2 _ _ hp
  refine ⟨p, row, hp0, ?_, hlen, hflags, hpl, ?_, ?_, ?_⟩
  · simp only [gbtNfgStrategy.GetPlayerId, hpl]
    rw [gbtArray.get?_eq _ _ h1, hrow]
  · simp only [gbtNfgStrategy.GetId, hid]; exact h2
  · simp only [gbtNfgStrategy.GetId, hid]; omega
  · simp only [gbtNfgStrategy.GetId, hid]; exact hst

/-- Two different strategies of an indexed game differ in player id or number. -/
theorem gbtNfgGame.strategy_slot_ne (g : gbtNfgGame) (hg : g.Indexed) (ps pt : Int)
    (s t : gbtNfgStrategy) (hs : g.IsStrategyOf ps s) (ht : g.IsStrategyOf pt t)
    (hne : t ≠ s) : t.GetPlayerId ≠ s.GetPlayerId ∨ t.GetId ≠ s.GetId := by
  obtain ⟨ss, hss⟩ := hs
  obtain ⟨st, hst⟩ := ht
  obtain ⟨rs, rfl, hps, his, _⟩ := gbtNfgGame.GetStrategy_indexed g hg ps ss _ hss
  obtain ⟨rt, rfl, hpt, hit, _⟩ := gbtNfgGame.GetStrategy_indexed g hg pt st _ hst
  simp only [gbtNfgStrategy.GetPlayerId, gbtNfgStrategy.GetId]
  by_contra hcon
  push_neg at hcon
  obtain ⟨e1, e2⟩ := hcon
  have hp : pt = ps := by rw [← hpt, ← hps, e1]
  have hi : st = ss := by rw [← hit, ← his, e2]
  subst hp hi
  rw [hss] at hst
  exact hne (Option.some.inj hst).symm

/-- Writing the flag `v` of strategy `s`: the write completes, `Contains(s)` reads `v`,
the game is the same and every other slot reads as before. -/
theorem gbtNfgSupport.flip_spec (g : gbtNfgGame) (hg : g.Indexed) (a : gbtNfgSupport)
    (ha : gbtNfgSupport.Inv g a) (pl : Int) (s : gbtNfgStrategy) (hs : g.IsStrategyOf pl s)
    (v : Int) :
    ∃ t, gbtPVector.set? a.m_strategies s.GetPlayerId s.GetId v = some t ∧
      (({ a with m_strategies := t } : gbtNfgSupport).Contains s = some (decide (v ≠ 0))) ∧
      (∀ u : gbtNfgStrategy, (u.GetPlayerId ≠ s.GetPlayerId ∨ u.GetId ≠ s.GetId) →
        ({ a with m_strategies := t } : gbtNfgSupport).Contains u = a.Contains u) ∧
      (∀ (pu : Int) (u : gbtNfgStrategy), g.IsStrategyOf pu u → u ≠ s →
        ({ a with m_strategies := t } : gbtNfgSupport).Contains u = a.Contains u) := by
  obtain ⟨p, row, _, hrow, _, _, _, h1, h2, _⟩ :=
    gbtNfgSupport.slot_of_strategy g hg a ha pl s hs
  obtain ⟨t, ht⟩ := gbtPVector.set?_isSome a.m_strategies _ _ v row hrow h1 h2
  have hframe : ∀ u : gbtNfgStrategy, (u.GetPlayerId ≠ s.GetPlayerId ∨ u.GetId ≠ s.GetId) →
      ({ a with m_strategies := t } : gbtNfgSupport).Contains u = a.Contains u := by
    intro u hu
    have hnot : ¬ (u.GetPlayerId = s.GetPlayerId ∧ u.GetId = s.GetId) := by
      intro hc
      rcases hu with h | h
      · exact h hc.1
      · exact h hc.2
    unfold gbtNfgSupport.Contains
    simp only []
    rw [gbtPVector.get?_set?_table ht, if_neg hnot]
  refine ⟨t, ht, ?_, hframe, ?_⟩
  · unfold gbtNfgSupport.Contains
    simp only []
    rw [gbtPVector.get?_set?_table ht, if_pos ⟨rfl, rfl⟩]
  · intro pu u hu hne
    exact hframe u (gbtNfgGame.strategy_slot_ne g hg pl pu s u hs hu hne)

/-- C11: for a support of the game and a strategy `s` of the game, `AddStrategy(s)` and
`RemoveStrategy(s)` complete; afterwards `Contains(s)` is true, respectively false; the
owning game is the same, and `Contains(t)` is what it was for every handle `t` with
another player id or number, in particular for every strategy `t` of the game other
than `s`, of the same or any other player. -/
theorem C11_add_remove_flag_flip (g : gbtNfgGame) (hg : g.Indexed) (a : gbtNfgSupport)
    (ha : gbtNfgSupport.Reachable g a) (pl : Int) (s : gbtNfgStrategy)
    (hs : g.IsStrategyOf pl s) :
    (∃ b, a.AddStrategy s = some b ∧ b.Contains s = some true ∧ b.m_nfg = a.m_nfg ∧
      (∀ t : gbtNfgStrategy, (t.GetPlayerId ≠ s.GetPlayerId ∨ t.GetId ≠ s.GetId) →
        b.Contains t = a.Contains t) ∧
      (∀ (pt : Int) (t : gbtNfgStrategy), g.IsStrategyOf pt t → t ≠ s →
        b.Contains t = a.Contains t)) ∧
    (∃ b, a.RemoveStrategy s = some b ∧ b.Contains s = some false ∧ b.m_nfg = a.m_nfg ∧
      (∀ t : gbtNfgStrategy, (t.GetPlayerId ≠ s.GetPlayerId ∨ t.GetId ≠ s.GetId) →
        b.Contains t = a.Contains t) ∧
      (∀ (pt : Int) (t : gbtNfgStrategy), g.IsStrategyOf pt t → t ≠ s →
        b.Contains t = a.Contains t)) := by
  have ia := gbtNfgSupport.Reachable_support_inv g ha
  constructor
  · obtain ⟨t, ht, h1, h2, h3⟩ := gbtNfgSupport.flip_spec g hg a ia pl s hs 1
    refine ⟨{ a with m_strategies := t }, ?_, ?_, rfl, h2, h3⟩
    · unfold gbtNfgSupport.AddStrategy
      rw [ht]
    · rw [h1]; rfl
  · obtain ⟨t, ht, h1, h2, h3⟩ := gbtNfgSupport.flip_spec g hg a ia pl s hs 0
    refine ⟨{ a with m_strategies := t }, ?_, ?_, rfl, h2, h3⟩
    · unfold gbtNfgSupport.RemoveStrategy
      rw [ht]
    · rw [h1]; rfl

theorem C11_add_remove_flag_flip_witness :
    exampleGame.Indexed ∧ gbtNfgSupport.Reachable exampleGame exampleSupportSmall ∧
    exampleGame.IsStrategyOf 2 exampleStrategy ∧
    (∃ b, exampleSupportSmall.AddStrategy exampleStrategy = some b ∧
      b.Contains exampleStrategy = some true ∧ b.m_nfg = exampleSupportSmall.m_nfg) ∧
    (∃ b, exampleSupportSmall.RemoveStrategy exampleStrategy = some b ∧
      b.Contains exampleStrategy = some false ∧ b.m_nfg = exampleSupportSmall.m_nfg) :=
  have hsmall : gbtNfgSupport.Reachable exampleGame exampleSupportSmall :=
    gbtNfgSupport.Reachable.remove exampleSupportFull _ exampleStrategy
      gbtNfgSupport.Reachable.init (by decide)
  have hs : exampleGame.IsStrategyOf 2 exampleStrategy := ⟨3, by decide⟩
  have h := C11_add_remove_flag_flip exampleGame (by decide) exampleSupportSmall hsmall 2
    exampleStrategy hs
  ⟨by decide, hsmall, hs,
    h.1.imp (fun _ hb => ⟨hb.1, hb.2.1, hb.2.2.1⟩),
    h.2.imp (fun _ hb => ⟨hb.1, hb.2.1, hb.2.2.1⟩)⟩

/-! ## Counting: `NumStrats` and `ProfileLength` -/

theorem flags_sum_eq_countP :
    ∀ row : List Int, (∀ f ∈ row, f = 0 ∨ f = 1) →
      row.sum = ((row.countP (fun f => decide (f ≠ 0)) : Nat) : Int) := by
  intro row
  induction row with
  | nil => intro _; simp
  | cons f row ih =>
    intro h
    have hrec := ih (fun x hx => h x (List.mem_cons_of_mem _ hx))
    rcases h f (List.mem_cons_self _ _) with rfl | rfl
    · simp [hrec]
    · simp [hrec]; ring

theorem countP_congr_pointwise {α β : Type} (f : α → Bool) (k : β → Bool) :
    ∀ (l1 : List α) (l2 : List β), l1.length = l2.length →
      (∀ (j : Nat) (x : α) (y : β), l1[j]? = some x → l2[j]? = some y → f x = k y) →
      l1.countP f = l2.countP k := by
  intro l1
  induction l1 with
  | nil =>
    intro l2 hlen _
    cases l2 with
    | nil => rfl
    | cons y ys => simp at hlen
  | cons x xs ih =>
    intro l2 hlen h
    cases l2 with
    | nil => simp at hlen
    | cons y ys =>
      have h0 := h 0 x y List.getElem?_cons_zero List.getElem?_cons_zero
      have hrec := ih ys (by simpa using hlen)
        (fun j a b ha hb => h (j + 1) a b (by simpa using ha) (by simpa using hb))
      simp only [List.countP_cons, hrec, h0]

theorem gbtNfgSupport.ProfileLengthLoop_eq (a : gbtNfgSupport) :
    ∀ (m k : Nat) (total : Int), k + m = a.m_strategies.flatten.length →
      gbtNfgSupport.ProfileLengthLoop a (List.range' (k + 1) m) total
        = some (total + (a.m_strategies.flatten.drop k).sum) := by
  intro m
  induction m with
  | zero =>
    intro k total hk
    have : a.m_strategies.flatten.drop k = [] := List.drop_eq_nil_of_le (by omega)
    simp [gbtNfgSupport.ProfileLengthLoop, this]
  | succ m ih =>
    intro k total hk
    have hlt : k < a.m_strategies.flatten.length := by omega
    have hcast : ((k + 1 : Nat) : Int) = (k : Int) + 1 := by push_cast; rfl
    rw [List.range'_succ]
    unfold gbtNfgSupport.ProfileLengthLoop
    rw [hcast, gbtArray.get?_succ, List.getElem?_eq_getElem hlt]
    simp only [ih (k + 1) _ (by omega)]
    rw [List.drop_eq_getElem_cons hlt, List.sum_cons, add_assoc]

/-- `ProfileLength()` is the sum of all flags of the table. -/
theorem gbtNfgSupport.ProfileLength_eq (a : gbtNfgSupport) :
    a.ProfileLength = some (a.m_strategies.map List.sum).sum := by
  unfold gbtNfgSupport.ProfileLength
  rw [gbtNfgSupport.ProfileLengthLoop_eq a _ 0 0 (by omega)]
  simp [List.sum_flatten]

theorem gbtNfgSupport.NumStratsArrayLoop_eq (a : gbtNfgSupport) :
    ∀ m k : Nat, k + m = a.m_strategies.length →
      gbtNfgSupport.NumStratsArrayLoop a (List.range' (k + 1) m)
        = some ((a.m_strategies.drop k).map List.sum) := by
  intro m
  induction m with
  | zero =>
    intro k hk
    have : a.m_strategies.drop k = [] := List.drop_eq_nil_of_le (by omega)
    simp [gbtNfgSupport.NumStratsArrayLoop, this]
  | succ m ih =>
    intro k hk
    have hlt : k < a.m_strategies.length := by omega
    have hcast : ((k + 1 : Nat) : Int) = (k : Int) + 1 := by push_cast; rfl
    rw [List.range'_succ]
    unfold gbtNfgSupport.NumStratsArrayLoop
    rw [hcast, gbtNfgSupport.NumStrats_eq a k _ (List.getElem?_eq_getElem hlt)]
    simp only [ih (k + 1) (by omega)]
    rw [List.drop_eq_getElem_cons hlt, List.map_cons]

/-- On a support of the game, `NumStrats()` is the array of the row sums. -/
theorem gbtNfgSupport.NumStratsArray_eq (g : gbtNfgGame) (a : gbtNfgSupport)
    (ha : gbtNfgSupport.Inv g a) :
    a.NumStratsArray = some (a.m_strategies.map List.sum) := by
  unfold gbtNfgSupport.NumStratsArray
  rw [ha.1, ← ha.2.1]
  have := gbtNfgSupport.NumStratsArrayLoop_eq a a.m_strategies.length 0 (by omega)
  simpa using this

/-- In a support of an indexed game, the strategy at position `j` of player `pl` is
contained exactly when flag `j` of row `pl` is set. -/
theorem gbtNfgSupport.Contains_at (g : gbtNfgGame) (hg : g.Indexed) (a : gbtNfgSupport)
    (pl : Int) (h1 : 1 ≤ pl) (p : List gbt_nfg_strategy_rep) (row : List Int)
    (hp : g.m_players[(pl - 1).toNat]? = some p)
    (hrow : a.m_strategies[(pl - 1).toNat]? = some row)
    (j : Nat) (r : gbt_nfg_strategy_rep) (f : Int) (hr : p[j]? = some r)
    (hf : row[j]? = some f) :
    a.Contains (gbtNfgStrategy.ref r) = some (decide (f ≠ 0)) := by
  have hi := playersIndexed_get g.m_players 1 1 _ p hg hp
  obtain ⟨hpl, hid, _⟩ := strategiesIndexed_get _ _ p 1 j r hi hr
  have e1 : r.m_player = pl := by rw [hpl]; omega
  have e2 : r.m_id = (j : Int) + 1 := by rw [hid]; ring
  unfold gbtNfgSupport.Contains
  simp only [gbtNfgStrategy.GetPlayerId, gbtNfgStrategy.GetId, e1, e2]
  rw [gbtPVector.get?_of_getElem? _ _ _ row h1 (by omega) hrow]
  have : ((j : Int) + 1 - 1).toNat = j := by omega
  rw [this, hf]

/-- C12: in every support produced by the constructor, `AddStrategy` and
`RemoveStrategy`, every flag is 0 or 1; `NumStrats(pl)` is the number of strategies of
player `pl` for which `Contains` is true; and `ProfileLength()` is the sum over all
players of `NumStrats(pl)`, the entries of the array `NumStrats()`. -/
theorem C12_counting (g : gbtNfgGame) (hg : g.Indexed) (a : gbtNfgSupport)
    (ha : gbtNfgSupport.Reachable g a) :
    (∀ (pl st f : Int), gbtPVector.get? a.m_strategies pl st = some f → f = 0 ∨ f = 1) ∧
    (∀ pl : Int, 1 ≤ pl → pl ≤ g.NumPlayers →
      ∃ p, gbtArray.get? g.m_players pl = some p ∧
        a.NumStrats pl = some
          ((p.countP (fun r => decide (a.Contains (gbtNfgStrategy.ref r) = some true)) : Nat)
            : Int)) ∧
    (∃ ns : List Int, a.NumStratsArray = some ns ∧ (ns.length : Int) = g.NumPlayers ∧
      (∀ pl : Int, 1 ≤ pl → pl ≤ g.NumPlayers → a.NumStrats pl = gbtArray.get? ns pl) ∧
      a.ProfileLength = some ns.sum) := by
  have ia := gbtNfgSupport.Reachable_support_inv g ha
  refine ⟨?_, ?_, ?_⟩
  · intro pl st f hf
    obtain ⟨row, _, hrow, _, hf1⟩ := gbtPVector.get?_some hf
    have hi : (pl - 1).toNat < g.m_players.length := by
      rw [← ia.2.1]; exact (List.getElem?_eq_some_iff.mp hrow).1
    obtain ⟨row1, hrow1, _, hflags⟩ := ia.2.2 _ _ (List.getElem?_eq_getElem hi)
    rw [hrow] at hrow1
    cases hrow1
    exact hflags f (List.getElem?_mem hf1)
  · intro pl h1 h2
    unfold gbtNfgGame.NumPlayers at h2
    have hi : (pl - 1).toNat < g.m_players.length := by omega
    have hp : g.m_players[(pl - 1).toNat]? = some g.m_players[(pl - 1).toNat] :=
      List.getElem?_eq_getElem hi
    obtain ⟨row, hrow, hlen, hflags⟩ := ia.2.2 _ _ hp
    refine ⟨g.m_players[(pl - 1).toNat], by rw [gbtArray.get?_eq _ _ h1, hp], ?_⟩
    have e1 : pl = (((pl - 1).toNat : Nat) : Int) + 1 := by omega
    have hn := gbtNfgSupport.NumStrats_eq a _ row hrow
    rw [← e1] at hn
    rw [hn, flags_sum_eq_countP row hflags]
    congr 2
    symm
    apply countP_congr_pointwise _ _ _ _ hlen.symm
    intro j r f hr hf
    rw [gbtNfgSupport.Contains_at g hg a pl h1 _ row hp hrow j r f hr hf]
    by_cases hz : f = 0
    · simp [hz]
    · simp [hz]
  · refine ⟨a.m_strategies.map List.sum, gbtNfgSupport.NumStratsArray_eq g a ia, ?_, ?_,
      gbtNfgSupport.ProfileLength_eq a⟩
    · unfold gbtNfgGame.NumPlayers
      rw [List.length_map, ia.2.1]
    · intro pl h1 h2
      unfold gbtNfgGame.NumPlayers at h2
      have hi : (pl - 1).toNat < a.m_strategies.length := by rw [ia.2.1]; omega
      have e1 : pl = (((pl - 1).toNat : Nat) : Int) + 1 := by omega
      have hn := gbtNfgSupport.NumStrats_eq a _ _ (List.getElem?_eq_getElem hi)
      rw [← e1] at hn
      rw [hn, gbtArray.get?_eq _ _ h1, List.getElem?_map, List.getElem?_eq_getElem hi]
      rfl

theorem C12_counting_witness :
    exampleGame.Indexed ∧ gbtNfgSupport.Reachable exampleGame exampleSupportSmall ∧
    exampleSupportSmall.NumStrats 2 = some 2 ∧
    exampleSupportSmall.NumStratsArray = some [2, 2] ∧
    exampleSupportSmall.ProfileLength = some 4 ∧
    ∃ ns : List Int, exampleSupportSmall.NumStratsArray = some ns ∧
      exampleSupportSmall.ProfileLength = some ns.sum :=
  have hsmall : gbtNfgSupport.Reachable exampleGame exampleSupportSmall :=
    gbtNfgSupport.Reachable.remove exampleSupportFull _ exampleStrategy
      gbtNfgSupport.Reachable.init (by decide)
  have h := C12_counting exampleGame (by decide) exampleSupportSmall hsmall
  ⟨by decide, hsmall, by decide, by decide, by decide,
    h.2.2.imp (fun _ hn => ⟨hn.1, hn.2.2.2⟩)⟩

/-! ## `gbtNfgSupport::GetStrategy` -/

theorem flagsBefore_succ (row : List Int) (k : Nat) (f : Int) (hf : row[k]? = some f) :
    flagsBefore row (k + 1) = flagsBefore row k + (if f ≠ 0 then 1 else 0) := by
  have hlt : k < row.length := (List.getElem?_eq_some_iff.mp hf).1
  have hfe : row[k] = f := by
    rw [List.getElem?_eq_getElem hlt] at hf; exact Option.some.inj hf
  unfold flagsBefore
  rw [List.take_succ, List.getElem?_eq_getElem hlt, List.countP_append, hfe]
  by_cases hz : f = 0
  · simp [hz, List.countP_cons]
  · simp [hz, List.countP_cons]

theorem flagsBefore_mono (row : List Int) (j k : Nat) (h : j ≤ k) :
    flagsBefore row j ≤ flagsBefore row k := by
  unfold flagsBefore
  have hsub : List.Sublist (row.take j) (row.take k) := by
    have e : row.take j = (row.take k).take j := by
      rw [List.take_take, Nat.min_eq_left h]
    rw [e]
    exact List.take_sublist _ _
  exact hsub.countP_le _

theorem flagsBefore_length (row : List Int) :
    flagsBefore row row.length = row.countP (fun f => decide (f ≠ 0)) := by
  unfold flagsBefore
  rw [List.take_length]

theorem gbtNfgSupport.GetStrategyLoop_null (a : gbtNfgSupport) (pl st : Int) (i : Nat)
    (row : List Int) (h1 : pl = (i : Int) + 1) (hrow : a.m_strategies[i]? = some row) :
    ∀ (m k : Nat) (idx : Int), k + m = row.length → st ≤ idx →
      gbtNfgSupport.GetStrategyLoop a pl st (List.range' (k + 1) m) idx
        = some gbtNfgStrategy.null := by
  intro m
  induction m with
  | zero => intro k idx _ _; rfl
  | succ m ih =>
    intro k idx hk hle
    have hlt : k < row.length := by omega
    have hcast : ((k + 1 : Nat) : Int) = (k : Int) + 1 := by push_cast; rfl
    rw [List.range'_succ]
    unfold gbtNfgSupport.GetStrategyLoop
    rw [hcast, h1, gbtPVector.get?_succ_succ _ _ _ _ hrow, List.getElem?_eq_getElem hlt]
    simp only []
    have hne : ¬ (idx + 1 = st) := by omega
    rw [if_neg hne, ← h1]
    rw [ih (k + 1) (idx + 1) (by omega) (by omega), ih (k + 1) idx (by omega) hle]
    simp

theorem gbtNfgSupport.GetStrategyLoop_spec (a : gbtNfgSupport) (pl st : Int) (i : Nat)
    (row : List Int) (h1 : pl = (i : Int) + 1) (hrow : a.m_strategies[i]? = some row) :
    ∀ (m k : Nat) (idx : Int), k + m = row.length → idx = (flagsBefore row k : Int) →
      idx < st →
      ((st ≤ (flagsBefore row row.length : Int) →
        ∃ (j : Nat) (f : Int), k ≤ j ∧ row[j]? = some f ∧ f ≠ 0 ∧
          (flagsBefore row j : Int) = st - 1 ∧
          gbtNfgSupport.GetStrategyLoop a pl st (List.range' (k + 1) m) idx
            = a.m_nfg.GetStrategy pl ((j : Int) + 1)) ∧
       ((flagsBefore row row.length : Int) < st →
          gbtNfgSupport.GetStrategyLoop a pl st (List.range' (k + 1) m) idx
            = some gbtNfgStrategy.null)) := by
  intro m
  induction m with
  | zero =>
    intro k idx hk hidx hlt
    have hkn : k = row.length := by omega
    subst hkn
    constructor
    · intro hle
      omega
    · intro _
      rfl
  | succ m ih =>
    intro k idx hk hidx hlt
    have hklt : k < row.length := by omega
    have hcast : ((k + 1 : Nat) : Int) = (k : Int) + 1 := by push_cast; rfl
    have hf : row[k]? = some row[k] := List.getElem?_eq_getElem hklt
    have hsucc := flagsBefore_succ row k _ hf
    have hstep : gbtNfgSupport.GetStrategyLoop a pl st (List.range' (k + 1) (m + 1)) idx
        = if row[k] ≠ 0 then
            if idx + 1 = st then a.m_nfg.GetStrategy pl ((k : Int) + 1)
            else gbtNfgSupport.GetStrategyLoop a pl st (List.range' (k + 1 + 1) m) (idx + 1)
          else gbtNfgSupport.GetStrategyLoop a pl st (List.range' (k + 1 + 1) m) idx := by
      rw [List.range'_succ]
      conv_lhs => unfold gbtNfgSupport.GetStrategyLoop
      rw [hcast]
      nth_rewrite 1 [h1]
      rw [gbtPVector.get?_succ_succ _ _ _ _ hrow, hf]
    rw [hstep]
    by_cases hz : row[k] = 0
    · have hnz : ¬ (row[k] ≠ 0) := by simpa using hz
      rw [if_neg hnz]
      have hcnt : (flagsBefore row (k + 1) : Int) = idx := by
        rw [hsucc, if_neg hnz, hidx]; simp
      obtain ⟨ha1, ha2⟩ := ih (k + 1) idx (by omega) hcnt.symm hlt
      refine ⟨fun hle => ?_, ha2⟩
      obtain ⟨j, f, hj, hrest⟩ := ha1 hle
      exact ⟨j, f, by omega, hrest⟩
    · rw [if_pos hz]
      have hcnt : (flagsBefore row (k + 1) : Int) = idx + 1 := by
        rw [hsucc, if_pos hz, hidx]; simp
      by_cases hst : idx + 1 = st
      · rw [if_pos hst]
        constructor
        · intro _
          exact ⟨k, row[k], le_refl k, hf, hz, by omega, rfl⟩
        · intro hgt
          have := flagsBefore_mono row (k + 1) row.length (by omega)
          omega
      · rw [if_neg hst]
        obtain ⟨ha1, ha2⟩ := ih (k + 1) (idx + 1) (by omega) hcnt.symm (by omega)
        refine ⟨fun hle => ?_, ha2⟩
        obtain ⟨j, f, hj, hrest⟩ := ha1 hle
        exact ⟨j, f, by omega, hrest⟩

/-- On a support of an indexed game: `GetStrategy(pl, k)` for `k` in `1..NumStrats(pl)`
is the strategy at the position `j` of the `k`-th set flag of row `pl`, and the null
handle for every other `k`. -/
theorem gbtNfgSupport.GetStrategy_spec (g : gbtNfgGame) (hg : g.Indexed) (a : gbtNfgSupport)
    (ha : gbtNfgSupport.Inv g a) (pl : Int) (h1 : 1 ≤ pl) (h2 : pl ≤ g.NumPlayers) :
    ∃ (p : List gbt_nfg_strategy_rep) (row : List Int),
      g.m_players[(pl - 1).toNat]? = some p ∧ a.m_strategies[(pl - 1).toNat]? = some row ∧
      row.length = p.length ∧ (∀ f ∈ row, f = 0 ∨ f = 1) ∧
      a.NumStrats pl = some (flagsBefore row row.length : Int) ∧
      (∀ k : Int, 1 ≤ k → k ≤ (flagsBefore row row.length : Int) →
        ∃ (j : Nat) (r : gbt_nfg_strategy_rep) (f : Int),
          p[j]? = some r ∧ row[j]? = some f ∧ f ≠ 0 ∧ (flagsBefore row j : Int) = k - 1 ∧
          r.m_id = (j : Int) + 1 ∧ r.m_player = pl ∧
          a.GetStrategy pl k = some (gbtNfgStrategy.ref r)) ∧
      (∀ k : Int, (k ≤ 0 ∨ (flagsBefore row row.length : Int) < k) →
        a.GetStrategy pl k = some gbtNfgStrategy.null) := by
  unfold gbtNfgGame.NumPlayers at h2
  have hi : (pl - 1).toNat < g.m_players.length := by omega
  have hp : g.m_players[(pl - 1).toNat]? = some g.m_players[(pl - 1).toNat] :=
    List.getElem?_eq_getElem hi
  obtain ⟨row, hrow, hlen, hflags⟩ := ha.2.2 _ _ hp
  have e1 : pl = (((pl - 1).toNat : Nat) : Int) + 1 := by omega
  have hn : a.NumStrats pl = some (flagsBefore row row.length : Int) := by
    have := gbtNfgSupport.NumStrats_eq a _ row hrow
    rw [← e1] at this
    rw [this, flags_sum_eq_countP row hflags, flagsBefore_length]
  have hgn : a.m_nfg.NumStrats pl = some ((row.length : Nat) : Int) := by
    unfold gbtNfgGame.NumStrats
    rw [ha.1, gbtArray.get?_eq _ _ h1, hp, hlen]
  have hunf : ∀ k : Int, a.GetStrategy pl k
      = gbtNfgSupport.GetStrategyLoop a pl k (List.range' (0 + 1) row.length) 0 := by
    intro k
    unfold gbtNfgSupport.GetStrategy
    rw [hgn]
    simp
  have hzero : (0 : Int) = (flagsBefore row 0 : Int) := by simp [flagsBefore]
  refine ⟨_, row, hp, hrow, hlen, hflags, hn, ?_, ?_⟩
  · intro k hk1 hk2
    obtain ⟨hfound, _⟩ := gbtNfgSupport.GetStrategyLoop_spec a pl k _ row e1 hrow
      row.length 0 0 (by omega) hzero (by omega)
    obtain ⟨j, f, _, hf, hfne, hcnt, hres⟩ := hfound hk2
    have hjlt : j < g.m_players[(pl - 1).toNat].length := by
      rw [← hlen]; exact (List.getElem?_eq_some_iff.mp hf).1
    have hr : g.m_players[(pl - 1).toNat][j]? = some (g.m_players[(pl - 1).toNat][j]) :=
      List.getElem?_eq_getElem hjlt
    have hidx := playersIndexed_get g.m_players 1 1 _ _ hg hp
    obtain ⟨hpl, hid, _⟩ := strategiesIndexed_get _ _ _ 1 j _ hidx hr
    refine ⟨j, _, f, hr, hf, hfne, hcnt, by rw [hid]; ring, by rw [hpl]; omega, ?_⟩
    rw [hunf k, hres, ha.1]
    unfold gbtNfgGame.GetStrategy
    rw [gbtArray.get?_eq _ _ h1, hp]
    simp only [gbtArray.get?_succ, hr]
  · intro k hk
    rw [hunf k]
    rcases hk with hk | hk
    · exact gbtNfgSupport.GetStrategyLoop_null a pl k _ row e1 hrow row.length 0 0
        (by omega) hk
    · exact (gbtNfgSupport.GetStrategyLoop_spec a pl k _ row e1 hrow
        row.length 0 0 (by omega) hzero (by omega)).2 hk

/-- In a support of an indexed game, the contained strategies of player `pl` with a
number below `j + 1` are as many as the set flags among the first `j` of row `pl`. -/
theorem gbtNfgSupport.count_smaller (g : gbtNfgGame) (hg : g.Indexed) (a : gbtNfgSupport)
    (pl : Int) (h1 : 1 ≤ pl) (p : List gbt_nfg_strategy_rep) (row : List Int)
    (hp : g.m_players[(pl - 1).toNat]? = some p)
    (hrow : a.m_strategies[(pl - 1).toNat]? = some row) (hlen : row.length = p.length)
    (j : Nat) :
    p.countP (fun q => decide (q.m_id < (j : Int) + 1) &&
        decide (a.Contains (gbtNfgStrategy.ref q) = some true))
      = flagsBefore row j := by
  have hidx := playersIndexed_get g.m_players 1 1 _ p hg hp
  have hsplit : p = p.take j ++ p.drop j := (List.take_append_drop j p).symm
  rw [hsplit, List.countP_append]
  have hdrop : (p.drop j).countP (fun q => decide (q.m_id < (j : Int) + 1) &&
      decide (a.Contains (gbtNfgStrategy.ref q) = some true)) = 0 := by
    rw [List.countP_eq_zero]
    intro q hq
    obtain ⟨i, hi⟩ := List.mem_iff_getElem?.mp hq
    rw [List.getElem?_drop] at hi
    obtain ⟨_, hid, _⟩ := strategiesIndexed_get _ _ p 1 _ q hidx hi
    have : ¬ (q.m_id < (j : Int) + 1) := by rw [hid]; push_cast; omega
    simp [this]
  rw [hdrop, add_zero]
  unfold flagsBefore
  apply countP_congr_pointwise _ _ _ _ (by simp [hlen])
  intro i q f hq hf
  rw [List.getElem?_take] at hq hf
  split at hq
  · rename_i hij
    rw [if_pos hij] at hf
    obtain ⟨_, hid, _⟩ := strategiesIndexed_get _ _ p 1 _ q hidx hq
    have hlt : q.m_id < (j : Int) + 1 := by rw [hid]; omega
    rw [gbtNfgSupport.Contains_at g hg a pl h1 p row hp hrow i q f hq hf]
    by_cases hz : f = 0
    · simp [hz]
    · simp [hz, hlt]
  · cases hq

/-- C13: for a support of an indexed game and a player `pl`, `GetStrategy(pl, k)` with
`1 <= k <= NumStrats(pl)` returns a strategy of `pl` that is contained in the support
and has exactly `k - 1` contained strategies of `pl` with a smaller number, so the
results are strictly increasing in number as `k` grows; for `k <= 0` and for
`k > NumStrats(pl)` it returns the null strategy. -/
theorem C13_GetStrategy_kth (g : gbtNfgGame) (hg : g.Indexed) (a : gbtNfgSupport)
    (ha : gbtNfgSupport.Reachable g a) (pl : Int) (h1 : 1 ≤ pl) (h2 : pl ≤ g.NumPlayers) :
    ∃ (n : Int) (p : List gbt_nfg_strategy_rep),
      a.NumStrats pl = some n ∧ gbtArray.get? g.m_players pl = some p ∧
      (∀ k : Int, 1 ≤ k → k ≤ n →
        ∃ r, a.GetStrategy pl k = some (gbtNfgStrategy.ref r) ∧
          g.IsStrategyOf pl (gbtNfgStrategy.ref r) ∧
          a.Contains (gbtNfgStrategy.ref r) = some true ∧
          ((p.countP (fun q => decide (q.m_id < r.m_id) &&
              decide (a.Contains (gbtNfgStrategy.ref q) = some true)) : Nat) : Int) = k - 1) ∧
      (∀ (k1 k2 : Int) (r1 r2 : gbt_nfg_strategy_rep), 1 ≤ k1 → k1 < k2 → k2 ≤ n →
        a.GetStrategy pl k1 = some (gbtNfgStrategy.ref r1) →
        a.GetStrategy pl k2 = some (gbtNfgStrategy.ref r2) → r1.m_id < r2.m_id) ∧
      (∀ k : Int, (k ≤ 0 ∨ n < k) → a.GetStrategy pl k = some gbtNfgStrategy.null) := by
  have ia := gbtNfgSupport.Reachable_support_inv g ha
  obtain ⟨p, row, hp, hrow, hlen, _, hn, hin, hout⟩ :=
    gbtNfgSupport.GetStrategy_spec g hg a ia pl h1 h2
  refine ⟨_, p, hn, by rw [gbtArray.get?_eq _ _ h1, hp], ?_, ?_, hout⟩
  · intro k hk1 hk2
    obtain ⟨j, r, f, hr, hf, hfne, hcnt, hid, _, hres⟩ := hin k hk1 hk2
    refine ⟨r, hres, ⟨(j : Int) + 1, ?_⟩, ?_, ?_⟩
    · unfold gbtNfgGame.GetStrategy
      rw [gbtArray.get?_eq _ _ h1, hp]
      simp only [gbtArray.get?_succ, hr]
    · rw [gbtNfgSupport.Contains_at g hg a pl h1 p row hp hrow j r f hr hf]
      simp [hfne]
    · rw [hid, gbtNfgSupport.count_smaller g hg a pl h1 p row hp hrow hlen j]
      exact hcnt
  · intro k1 k2 r1 r2 hk1 hlt hk2 hg1 hg2
    obtain ⟨j1, q1, _, _, _, _, hc1, hi1, _, hres1⟩ := hin k1 hk1 (by omega)
    obtain ⟨j2, q2, _, _, _, _, hc2, hi2, _, hres2⟩ := hin k2 (by omega) hk2
    rw [hg1] at hres1
    rw [hg2] at hres2
    cases hres1
    cases hres2
    rw [hi1, hi2]
    by_contra hcon
    have hle : j2 ≤ j1 := by omega
    have := flagsBefore_mono row j2 j1 hle
    omega

theorem C13_GetStrategy_kth_witness :
    exampleGame.Indexed ∧ gbtNfgSupport.Reachable exampleGame exampleSupportSmall ∧
    (1 : Int) ≤ 2 ∧ (2 : Int) ≤ exampleGame.NumPlayers ∧
    exampleSupportSmall.GetStrategy 2 2 = some (gbtNfgStrategy.ref ⟨2, 2, 2, [2]⟩) ∧
    exampleSupportSmall.GetStrategy 2 3 = some gbtNfgStrategy.null ∧
    exampleSupportSmall.GetStrategy 2 0 = some gbtNfgStrategy.null ∧
    ∃ (n : Int), exampleSupportSmall.NumStrats 2 = some n ∧
      ∀ k : Int, (k ≤ 0 ∨ n < k) →
        exampleSupportSmall.GetStrategy 2 k = some gbtNfgStrategy.null :=
  have hsmall : gbtNfgSupport.Reachable exampleGame exampleSupportSmall :=
    gbtNfgSupport.Reachable.remove exampleSupportFull _ exampleStrategy
      gbtNfgSupport.Reachable.init (by decide)
  have h := C13_GetStrategy_kth exampleGame (by decide) exampleSupportSmall hsmall 2
    (by decide) (by decide)
  have h5 : ∃ (n : Int), exampleSupportSmall.NumStrats 2 = some n ∧
      ∀ k : Int, (k ≤ 0 ∨ n < k) →
        exampleSupportSmall.GetStrategy 2 k = some gbtNfgStrategy.null := by
    obtain ⟨n, _, hn, _, _, _, hout⟩ := h
    exact ⟨n, hn, hout⟩
  ⟨by decide, hsmall, by decide, by decide, by decide, by decide, by decide, h5⟩

/-! ## `gbtNfgSupport::GetIndex` -/

theorem gbtNfgSupport.GetIndexLoop_spec (a : gbtNfgSupport) (s : gbtNfgStrategy) (pl : Int)
    (N : Nat)
    (hF : ∀ st : Nat, 1 ≤ st → st ≤ N → ∃ h, a.GetStrategy pl (st : Int) = some h) :
    ∀ m k : Nat, k + m = N →
      (∀ k0 : Nat, k < k0 → k0 ≤ N → a.GetStrategy pl (k0 : Int) = some s →
        (∀ st : Nat, k < st → st < k0 → a.GetStrategy pl (st : Int) ≠ some s) →
        gbtNfgSupport.GetIndexLoop a s pl (List.range' (k + 1) m) = some (k0 : Int)) ∧
      ((∀ st : Nat, k < st → st ≤ N → a.GetStrategy pl (st : Int) ≠ some s) →
        gbtNfgSupport.GetIndexLoop a s pl (List.range' (k + 1) m) = some 0) := by
  intro m
  induction m with
  | zero =>
    intro k hk
    constructor
    · intro k0 h1 h2 _ _
      omega
    · intro _
      rfl
  | succ m ih =>
    intro k hk
    obtain ⟨h, hh⟩ := hF (k + 1) (by omega) (by omega)
    obtain ⟨ih1, ih2⟩ := ih (k + 1) (by omega)
    have hstep : gbtNfgSupport.GetIndexLoop a s pl (List.range' (k + 1) (m + 1))
        = if h = s then some ((k + 1 : Nat) : Int)
          else gbtNfgSupport.GetIndexLoop a s pl (List.range' (k + 1 + 1) m) := by
      rw [List.range'_succ]
      conv_lhs => unfold gbtNfgSupport.GetIndexLoop
      rw [hh]
    rw [hstep]
    by_cases hs : h = s
    · rw [if_pos hs]
      subst hs
      constructor
      · intro k0 h1 h2 _ hfirst
        by_cases hk0 : k0 = k + 1
        · rw [hk0]
        · exact absurd hh (hfirst (k + 1) (by omega) (by omega))
      · intro hnone
        exact absurd hh (hnone (k + 1) (by omega) (by omega))
    · rw [if_neg hs]
      constructor
      · intro k0 h1 h2 hk0 hfirst
        have hne : k0 ≠ k + 1 := by
          intro hc
          rw [hc, hh] at hk0
          exact hs (Option.some.inj hk0)
        exact ih1 k0 (by omega) h2 hk0 (fun st h3 h4 => hfirst st (by omega) h4)
      · intro hnone
        exact ih2 (fun st h3 h4 => hnone st (by omega) h4)

theorem flagsBefore_pos_unique (row : List Int) (j1 j2 : Nat) (f1 f2 : Int)
    (h1 : row[j1]? = some f1) (h2 : row[j2]? = some f2) (n1 : f1 ≠ 0) (n2 : f2 ≠ 0)
    (h : flagsBefore row j1 = flagsBefore row j2) : j1 = j2 := by
  have s1 := flagsBefore_succ row j1 f1 h1
  have s2 := flagsBefore_succ row j2 f2 h2
  rw [if_pos n1] at s1
  rw [if_pos n2] at s2
  by_contra hne
  rcases Nat.lt_or_gt_of_ne hne with hlt | hgt
  · have := flagsBefore_mono row (j1 + 1) j2 (by omega)
    omega
  · have := flagsBefore_mono row (j2 + 1) j1 (by omega)
    omega

/-- On a support of an indexed game, for the strategy `r` at position `j` of player
`pl`: `GetIndex` returns the rank of `j` among the set flags when flag `j` is set, and
`0` when it is not. -/
theorem gbtNfgSupport.GetIndex_spec (g : gbtNfgGame) (hg : g.Indexed) (a : gbtNfgSupport)
    (ha : gbtNfgSupport.Inv g a) (pl : Int) (h1 : 1 ≤ pl) (h2 : pl ≤ g.NumPlayers)
    (p : List gbt_nfg_strategy_rep) (row : List Int)
    (hp : g.m_players[(pl - 1).toNat]? = some p)
    (hrow : a.m_strategies[(pl - 1).toNat]? = some row)
    (j : Nat) (r : gbt_nfg_strategy_rep) (f : Int) (hr : p[j]? = some r)
    (hf : row[j]? = some f) :
    (f ≠ 0 → a.GetIndex (gbtNfgStrategy.ref r) = some ((flagsBefore row j : Int) + 1) ∧
      a.GetStrategy pl ((flagsBefore row j : Int) + 1) = some (gbtNfgStrategy.ref r)) ∧
    (f = 0 → a.GetIndex (gbtNfgStrategy.ref r) = some 0) := by
  obtain ⟨p1, row1, hp1, hrow1, hlen, _, hn, hin, _⟩ :=
    gbtNfgSupport.GetStrategy_spec g hg a ha pl h1 h2
  rw [hp] at hp1
  rw [hrow] at hrow1
  cases hp1
  cases hrow1
  have hidx := playersIndexed_get g.m_players 1 1 _ p hg hp
  obtain ⟨hpl, hid, _⟩ := strategiesIndexed_get _ _ p 1 j r hidx hr
  have e1 : r.m_player = pl := by rw [hpl]; omega
  have hF : ∀ st : Nat, 1 ≤ st → st ≤ flagsBefore row row.length →
      ∃ h, a.GetStrategy pl (st : Int) = some h := by
    intro st hs1 hs2
    obtain ⟨_, q, _, _, _, _, _, _, _, hres⟩ := hin (st : Int) (by omega) (by omega)
    exact ⟨_, hres⟩
  have hunf : a.GetIndex (gbtNfgStrategy.ref r)
      = gbtNfgSupport.GetIndexLoop a (gbtNfgStrategy.ref r) pl
          (List.range' (0 + 1) (flagsBefore row row.length)) := by
    unfold gbtNfgSupport.GetIndex
    simp only [gbtNfgStrategy.GetPlayerId, e1, hn]
    simp
  obtain ⟨hfound, hnone⟩ := gbtNfgSupport.GetIndexLoop_spec a (gbtNfgStrategy.ref r) pl
    (flagsBefore row row.length) hF (flagsBefore row row.length) 0 (by omega)
  have hjlt : j < row.length := (List.getElem?_eq_some_iff.mp hf).1
  constructor
  · intro hfne
    have hsucc := flagsBefore_succ row j f hf
    rw [if_pos hfne] at hsucc
    have hmono := flagsBefore_mono row (j + 1) row.length (by omega)
    obtain ⟨j1, q, f1, hq, hf1, hf1ne, hcnt, _, _, hres⟩ :=
      hin ((flagsBefore row j : Int) + 1) (by omega) (by omega)
    have hj : j1 = j :=
      flagsBefore_pos_unique row j1 j f1 f hf1 hf hf1ne hfne (by omega)
    subst hj
    rw [hr] at hq
    cases hq
    refine ⟨?_, hres⟩
    rw [hunf]
    have hcast : (((flagsBefore row j1 + 1 : Nat)) : Int) = (flagsBefore row j1 : Int) + 1 := by
      push_cast; rfl
    rw [← hcast]
    apply hfound (flagsBefore row j1 + 1) (by omega) (by omega)
    · rw [hcast]; exact hres
    · intro st hs1 hs2 hcon
      obtain ⟨j2, q2, f2, hq2, hf2, hf2ne, hcnt2, _, _, hres2⟩ :=
        hin (st : Int) (by omega) (by omega)
      rw [hcon] at hres2
      cases hres2
      have hj2 : j2 = j1 := by
        have hi1 := (strategiesIndexed_get _ _ p 1 j1 _ hidx hr).2.1
        have hi2 := (strategiesIndexed_get _ _ p 1 j2 _ hidx hq2).2.1
        omega
      subst hj2
      omega
  · intro hfz
    rw [hunf]
    apply hnone
    intro st hs1 hs2 hcon
    obtain ⟨j2, q2, f2, hq2, hf2, hf2ne, _, _, _, hres2⟩ :=
      hin (st : Int) (by omega) (by omega)
    rw [hcon] at hres2
    cases hres2
    have hj2 : j2 = j := by
      have hi1 := (strategiesIndexed_get _ _ p 1 j _ hidx hr).2.1
      have hi2 := (strategiesIndexed_get _ _ p 1 j2 _ hidx hq2).2.1
      omega
    subst hj2
    rw [hf] at hf2
    cases hf2
    exact hf2ne hfz

/-- C19: on a support of an indexed game, `GetIndex` inverts `GetStrategy`: for every
player `pl` and `k` in `1..NumStrats(pl)`, `GetIndex(GetStrategy(pl, k)) = k`; and for
every strategy `s` of the game `GetIndex(s)` is `0` if and only if `s` is not contained
in the support, and otherwise `GetStrategy(player of s, GetIndex(s))` is `s`. -/
theorem C19_GetIndex_inverse (g : gbtNfgGame) (hg : g.Indexed) (a : gbtNfgSupport)
    (ha : gbtNfgSupport.Reachable g a) :
    (∀ (pl n : Int), 1 ≤ pl → pl ≤ g.NumPlayers → a.NumStrats pl = some n →
      ∀ k : Int, 1 ≤ k → k ≤ n →
        ∃ s, a.GetStrategy pl k = some s ∧ a.GetIndex s = some k) ∧
    (∀ (pl : Int) (s : gbtNfgStrategy), g.IsStrategyOf pl s →
      ∃ i : Int, a.GetIndex s = some i ∧ (i = 0 ↔ a.Contains s = some false) ∧
        (i ≠ 0 → a.GetStrategy s.GetPlayerId i = some s)) := by
  have ia := gbtNfgSupport.Reachable_support_inv g ha
  constructor
  · intro pl n h1 h2 hn k hk1 hk2
    obtain ⟨p, row, hp, hrow, _, _, hn1, hin, _⟩ :=
      gbtNfgSupport.GetStrategy_spec g hg a ia pl h1 h2
    rw [hn] at hn1
    cases hn1
    obtain ⟨j, r, f, hr, hf, hfne, hcnt, _, _, hres⟩ := hin k hk1 hk2
    refine ⟨_, hres, ?_⟩
    have := ((gbtNfgSupport.GetIndex_spec g hg a ia pl h1 h2 p row hp hrow j r f hr hf).1
      hfne).1
    rw [this, hcnt]
    congr 1
    ring
  · rintro pl s ⟨st, hst⟩
    obtain ⟨r, rfl, hpl, _, _, h1, h2, hs1, _⟩ :=
      gbtNfgGame.GetStrategy_indexed g hg pl st _ hst
    obtain ⟨p, r1, hp, hr1, hrr⟩ := gbtNfgGame.GetStrategy_some hst
    cases hrr
    have hst2 := (gbtArray.get?_some_bounds hr1).2
    rw [gbtArray.get?_eq _ _ h1] at hp
    rw [gbtArray.get?_eq _ _ hs1] at hr1
    obtain ⟨row, hrow, hlen, _⟩ := ia.2.2 _ _ hp
    have hjlt : (st - 1).toNat < row.length := by omega
    obtain ⟨f, hf⟩ : ∃ f, row[(st - 1).toNat]? = some f :=
      ⟨_, List.getElem?_eq_getElem hjlt⟩
    have hc := gbtNfgSupport.Contains_at g hg a pl h1 p row hp hrow _ r _ hr1 hf
    obtain ⟨hset, hunset⟩ :=
      gbtNfgSupport.GetIndex_spec g hg a ia pl h1 h2 p row hp hrow _ r _ hr1 hf
    by_cases hz : f = 0
    · refine ⟨0, hunset hz, ?_, fun h => absurd rfl h⟩
      rw [hc]
      simp [hz]
    · obtain ⟨hi, hg1⟩ := hset hz
      refine ⟨_, hi, ?_, ?_⟩
      · rw [hc]
        constructor
        · intro h0
          omega
        · intro hfalse
          simp [hz] at hfalse
      · intro _
        simp only [gbtNfgStrategy.GetPlayerId, hpl]
        exact hg1

theorem C19_GetIndex_inverse_witness :
    exampleGame.Indexed ∧ gbtNfgSupport.Reachable exampleGame exampleSupportSmall ∧
    exampleGame.IsStrategyOf 2 exampleStrategy ∧
    exampleSupportSmall.GetIndex exampleStrategy = some 0 ∧
    exampleSupportSmall.Contains exampleStrategy = some false ∧
    exampleSupportSmall.GetIndex (gbtNfgStrategy.ref ⟨2, 2, 2, [2]⟩) = some 2 ∧
    ∃ i : Int, exampleSupportSmall.GetIndex exampleStrategy = some i ∧
      (i = 0 ↔ exampleSupportSmall.Contains exampleStrategy = some false) :=
  have hsmall : gbtNfgSupport.Reachable exampleGame exampleSupportSmall :=
    gbtNfgSupport.Reachable.remove exampleSupportFull _ exampleStrategy
      gbtNfgSupport.Reachable.init (by decide)
  have hs : exampleGame.IsStrategyOf 2 exampleStrategy := ⟨3, by decide⟩
  have h := (C19_GetIndex_inverse exampleGame (by decide) exampleSupportSmall hsmall).2
    2 exampleStrategy hs
  ⟨by decide, hsmall, hs, by decide, by decide, by decide,
    h.imp (fun _ hi => ⟨hi.1, hi.2.1⟩)⟩

/-! ## `IsSubset` as an order, assignment, and writing a cell -/

theorem gbtNfgSupport.IsSubset_true_iff (g : gbtNfgGame) (a b : gbtNfgSupport)
    (ha : gbtNfgSupport.Inv g a) (hb : gbtNfgSupport.Inv g b) :
    a.IsSubset b = some true ↔
      ∀ s : gbtNfgStrategy, a.Contains s = some true → b.Contains s = some true := by
  rw [gbtNfgSupport.IsSubset_eq g a b ha hb, gbtNfgSupport.contains_imp_iff g a b ha hb]
  simp

theorem gbtNfgSupport.table_eq_of_subset (g : gbtNfgGame) (a b : gbtNfgSupport)
    (ha : gbtNfgSupport.Inv g a) (hb : gbtNfgSupport.Inv g b)
    (hab : tableSubset a.m_strategies b.m_strategies = true)
    (hba : tableSubset b.m_strategies a.m_strategies = true) :
    a.m_strategies = b.m_strategies := by
  apply List.ext_getElem?
  intro i
  by_cases hi : i < g.m_players.length
  · obtain ⟨ra, hra, hla, hfa⟩ := ha.2.2 i _ (List.getElem?_eq_getElem hi)
    obtain ⟨rb, hrb, hlb, hfb⟩ := hb.2.2 i _ (List.getElem?_eq_getElem hi)
    rw [hra, hrb]
    congr 1
    have h1 := (flagsSubset_iff ra rb).mp ((tableSubset_iff _ _).mp hab i ra rb hra hrb)
    have h2 := (flagsSubset_iff rb ra).mp ((tableSubset_iff _ _).mp hba i rb ra hrb hra)
    apply List.ext_getElem?
    intro j
    by_cases hj : j < ra.length
    · have hjb : j < rb.length := by omega
      have ea : ra[j]? = some ra[j] := List.getElem?_eq_getElem hj
      have eb : rb[j]? = some rb[j] := List.getElem?_eq_getElem hjb
      have n1 := h1 j _ _ ea eb
      have n2 := h2 j _ _ eb ea
      have v1 := hfa _ (List.getElem?_mem ea)
      have v2 := hfb _ (List.getElem?_mem eb)
      rw [ea, eb]
      congr 1
      rcases v1 with z1 | o1 <;> rcases v2 with z2 | o2
      · rw [z1, z2]
      · exact absurd z1 (n2 (by rw [o2]; decide))
      · exact absurd z2 (n1 (by rw [o1]; decide))
      · rw [o1, o2]
    · have hjb : ¬ j < rb.length := by omega
      rw [List.getElem?_eq_none (by omega), List.getElem?_eq_none (by omega)]
  · have h1 : a.m_strategies.length ≤ i := by rw [ha.2.1]; omega
    have h2 : b.m_strategies.length ≤ i := by rw [hb.2.1]; omega
    rw [List.getElem?_eq_none h1, List.getElem?_eq_none h2]

/-- C18: on the supports of one game (as the constructor, `AddStrategy` and
`RemoveStrategy` produce them) `IsSubset` is reflexive and transitive, and `A == B`
holds if and only if `A.IsSubset(B)` and `B.IsSubset(A)` both hold. -/
theorem C18_IsSubset_partial_order (g : gbtNfgGame) (a b c : gbtNfgSupport)
    (ha : gbtNfgSupport.Reachable g a) (hb : gbtNfgSupport.Reachable g b)
    (hc : gbtNfgSupport.Reachable g c) :
    a.IsSubset a = some true ∧
    (a.IsSubset b = some true → b.IsSubset c = some true → a.IsSubset c = some true) ∧
    (a.eq b = true ↔ (a.IsSubset b = some true ∧ b.IsSubset a = some true)) := by
  have ia := gbtNfgSupport.Reachable_support_inv g ha
  have ib := gbtNfgSupport.Reachable_support_inv g hb
  have ic := gbtNfgSupport.Reachable_support_inv g hc
  refine ⟨?_, ?_, ?_⟩
  · rw [gbtNfgSupport.IsSubset_true_iff g a a ia ia]
    exact fun _ h => h
  · rw [gbtNfgSupport.IsSubset_true_iff g a b ia ib, gbtNfgSupport.IsSubset_true_iff g b c ib ic,
      gbtNfgSupport.IsSubset_true_iff g a c ia ic]
    exact fun h1 h2 s hs => h2 s (h1 s hs)
  · have hrep : a.m_nfg.rep = b.m_nfg.rep := by rw [ia.1, ib.1]
    constructor
    · intro heq
      simp only [gbtNfgSupport.eq, Bool.and_eq_true, decide_eq_true_eq] at heq
      have ht := heq.2
      rw [gbtNfgSupport.IsSubset_true_iff g a b ia ib, gbtNfgSupport.IsSubset_true_iff g b a ib ia]
      unfold gbtNfgSupport.Contains
      rw [ht]
      exact ⟨fun _ h => h, fun _ h => h⟩
    · rintro ⟨hab, hba⟩
      rw [gbtNfgSupport.IsSubset_eq g a b ia ib] at hab
      rw [gbtNfgSupport.IsSubset_eq g b a ib ia] at hba
      have ht := gbtNfgSupport.table_eq_of_subset g a b ia ib
        (Option.some.inj hab) (Option.some.inj hba)
      simp only [gbtNfgSupport.eq, Bool.and_eq_true, decide_eq_true_eq]
      exact ⟨hrep, ht⟩

theorem C18_IsSubset_partial_order_witness :
    gbtNfgSupport.Reachable exampleGame exampleSupportSmall ∧
    gbtNfgSupport.Reachable exampleGame exampleSupportFull ∧
    exampleSupportSmall.IsSubset exampleSupportSmall = some true ∧
    exampleSupportSmall.IsSubset exampleSupportFull = some true ∧
    exampleSupportFull.IsSubset exampleSupportFull = some true ∧
    exampleSupportFull.IsSubset exampleSupportSmall = some false ∧
    exampleSupportSmall.eq exampleSupportFull = false ∧
    (exampleSupportSmall.eq exampleSupportFull = true ↔
      (exampleSupportSmall.IsSubset exampleSupportFull = some true ∧
        exampleSupportFull.IsSubset exampleSupportSmall = some true)) :=
  have hfull : gbtNfgSupport.Reachable exampleGame exampleSupportFull :=
    gbtNfgSupport.Reachable.init
  have hsmall : gbtNfgSupport.Reachable exampleGame exampleSupportSmall :=
    gbtNfgSupport.Reachable.remove exampleSupportFull _ exampleStrategy hfull (by decide)
  have h := C18_IsSubset_partial_order exampleGame exampleSupportSmall exampleSupportFull
    exampleSupportFull hsmall hfull hfull
  have h1 : exampleSupportSmall.IsSubset exampleSupportFull = some true := by decide
  have h2 : exampleSupportFull.IsSubset exampleSupportFull = some true := by decide
  ⟨hsmall, hfull, h.1, h.2.1 h1 h2, h2, by decide, by decide, h.2.2⟩

/-- C20: assignment of supports is guarded by the identity of the game.  After
`A = B` with `A` and `B` of the same game, `A == B` holds and `A` has the flags and the
label of `B`; with `A` and `B` of different games `A` is exactly what it was.  The
operator always returns; it reports no error. -/
theorem C20_assignment_guarded (a b : gbtNfgSupport) (sameObject : Bool)
    (hself : sameObject = true → a = b) :
    (a.m_nfg.rep = b.m_nfg.rep →
      (a.assign b sameObject).eq b = true ∧
      (a.assign b sameObject).m_strategies = b.m_strategies ∧
      (a.assign b sameObject).m_label = b.m_label ∧
      (a.assign b sameObject).m_nfg = a.m_nfg) ∧
    (a.m_nfg.rep ≠ b.m_nfg.rep → a.assign b sameObject = a) := by
  constructor
  · intro hrep
    cases hso : sameObject with
    | true =>
      have hab := hself hso
      subst hab
      simp [gbtNfgSupport.assign, gbtNfgSupport.eq]
    | false =>
      simp [gbtNfgSupport.assign, gbtNfgSupport.eq, hrep]
  · intro hne
    unfold gbtNfgSupport.assign
    rw [if_neg (fun h => hne h.2)]

theorem C20_assignment_guarded_witness :
    (false = true → exampleSupportLabelled = exampleSupportSmall) ∧
    exampleSupportLabelled.m_nfg.rep = exampleSupportSmall.m_nfg.rep ∧
    exampleSupportLabelled.m_nfg.rep ≠ exampleSupportOther.m_nfg.rep ∧
    (exampleSupportLabelled.assign exampleSupportSmall false).eq exampleSupportSmall = true ∧
    (exampleSupportLabelled.assign exampleSupportSmall false).m_label
      = exampleSupportSmall.m_label ∧
    exampleSupportLabelled.assign exampleSupportOther false = exampleSupportLabelled :=
  have h1 := (C20_assignment_guarded exampleSupportLabelled exampleSupportSmall false
    (fun h => absurd h (by decide))).1 (by decide)
  have h2 := (C20_assignment_guarded exampleSupportLabelled exampleSupportOther false
    (fun h => absurd h (by decide))).2 (by decide)
  ⟨fun h => absurd h (by decide), by decide, by decide, h1.1, h1.2.2.1, h2⟩

/-- C17: for a normal form with a materialized table and a contingency `c` whose cell
`GetIndex() + 1` is in range, `c.SetOutcome(o)` completes; afterwards `c.GetOutcome()`
returns `o`, every other cell of the table holds what it held, the table has its size,
and the revision counter is exactly one greater.  The call reads `c` and does not write
it, so its profile and index are what they were. -/
theorem C17_SetOutcome_writes_cell (r : gbt_nfg_game_rep) (c : gbtNfgContingency)
    (o : gbtNfgOutcome) (h0 : 0 ≤ c.GetIndex) (h1 : c.GetIndex < (r.m_results.length : Int)) :
    ∃ r1, c.SetOutcome r o = some r1 ∧ c.GetOutcome r1 = some o ∧
      (∀ i : Int, i ≠ c.GetIndex + 1 →
        gbtArray.get? r1.m_results i = gbtArray.get? r.m_results i) ∧
      (∀ c1 : gbtNfgContingency, c1.GetIndex ≠ c.GetIndex →
        c1.GetOutcome r1 = c1.GetOutcome r) ∧
      r1.m_results.length = r.m_results.length ∧
      r1.m_revision = r.m_revision + 1 := by
  unfold gbtNfgContingency.GetIndex at h0 h1 ⊢
  have hset := gbtArray.set?_eq r.m_results (c.index + 1) o (by omega) (by omega)
  have hso : c.SetOutcome r o
      = some ({ r with m_results := r.m_results.set (c.index + 1 - 1).toNat o,
                       m_revision := r.m_revision + 1 }).BreakLink := by
    unfold gbtNfgContingency.SetOutcome
    rw [hset]
  refine ⟨_, hso, ?_, ?_, ?_, ?_, rfl⟩
  · unfold gbtNfgContingency.GetOutcome
    simp only [gbt_nfg_game_rep.BreakLink]
    rw [gbtArray.get?_set? hset, if_pos rfl]
  · intro i hi
    simp only [gbt_nfg_game_rep.BreakLink]
    rw [gbtArray.get?_set? hset, if_neg hi]
  · intro c1 hne
    unfold gbtNfgContingency.GetOutcome
    simp only [gbt_nfg_game_rep.BreakLink]
    rw [gbtArray.get?_set? hset, if_neg (by omega)]
  · simp only [gbt_nfg_game_rep.BreakLink, List.length_set]

theorem C17_SetOutcome_writes_cell_witness :
    0 ≤ exampleContingency2.GetIndex ∧
    exampleContingency2.GetIndex < (exampleRepTable.m_results.length : Int) ∧
    ∃ r1, exampleContingency2.SetOutcome exampleRepTable exampleOutcome = some r1 ∧
      exampleContingency2.GetOutcome r1 = some exampleOutcome ∧
      r1.m_revision = exampleRepTable.m_revision + 1 :=
  ⟨by decide, by decide,
    (C17_SetOutcome_writes_cell exampleRepTable exampleContingency2 exampleOutcome
      (by decide) (by decide)).imp (fun _ h => ⟨h.1, h.2.1, h.2.2.2.2.2⟩)⟩

/-! ## `Node::DeleteOutcome` -/

mutual
theorem Node.DeleteOutcome_skeleton (outc : Option Nat) :
    ∀ n : Node, (Node.DeleteOutcome outc n).skeleton = n.skeleton
  | .mk a nm i p o cs => by
    simp only [Node.DeleteOutcome, Node.skeleton, Node.DeleteOutcomeLoop_skeleton outc cs]
theorem Node.DeleteOutcomeLoop_skeleton (outc : Option Nat) :
    ∀ cs : List Node,
      Node.skeletonList (Node.DeleteOutcomeLoop outc cs) = Node.skeletonList cs
  | [] => by simp only [Node.DeleteOutcomeLoop]
  | c :: cs => by
    simp only [Node.DeleteOutcomeLoop, Node.skeletonList, Node.DeleteOutcome_skeleton outc c,
      Node.DeleteOutcomeLoop_skeleton outc cs]
end

mutual
theorem Node.DeleteOutcome_outcomes (outc : Option Nat) :
    ∀ n : Node, (Node.DeleteOutcome outc n).subtree.map Node.GetOutcome
      = n.subtree.map (fun m => if outc = m.GetOutcome then none else m.GetOutcome)
  | .mk a nm i p o cs => by
    simp only [Node.DeleteOutcome, Node.subtree, List.map_cons, Node.GetOutcome,
      Node.DeleteOutcomeLoop_outcomes outc cs]
theorem Node.DeleteOutcomeLoop_outcomes (outc : Option Nat) :
    ∀ cs : List Node, (Node.subtreeList (Node.DeleteOutcomeLoop outc cs)).map Node.GetOutcome
      = (Node.subtreeList cs).map (fun m => if outc = m.GetOutcome then none else m.GetOutcome)
  | [] => by simp only [Node.DeleteOutcomeLoop, Node.subtreeList, List.map_nil]
  | c :: cs => by
    simp only [Node.DeleteOutcomeLoop, Node.subtreeList, List.map_append,
      Node.DeleteOutcome_outcomes outc c, Node.DeleteOutcomeLoop_outcomes outc cs]
end

/-- C14: `n.DeleteOutcome(outc)` is defined on every finite tree (the recursion is on
the child lists of the tree), and afterwards no node of the subtree of `n`, `n`
included, references the outcome `outc`; node for node, in the order of the subtree, a
node whose outcome was not `outc` has the outcome it had and a node whose outcome was
`outc` has none; and the tree without its outcome references (identities, names,
infoset and parent pointers, child lists) is what it was. -/
theorem C14_DeleteOutcome_sweeps_subtree (n : Node) (outc : Option Nat) :
    (outc ≠ none → ∀ m ∈ (Node.DeleteOutcome outc n).subtree, m.GetOutcome ≠ outc) ∧
    (Node.DeleteOutcome outc n).subtree.map Node.GetOutcome
      = n.subtree.map (fun m => if outc = m.GetOutcome then none else m.GetOutcome) ∧
    (Node.DeleteOutcome outc n).subtree.length = n.subtree.length ∧
    (Node.DeleteOutcome outc n).skeleton = n.skeleton := by
  have hout := Node.DeleteOutcome_outcomes outc n
  refine ⟨?_, hout, ?_, Node.DeleteOutcome_skeleton outc n⟩
  · intro hne m hm
    have hmem : m.GetOutcome ∈ (Node.DeleteOutcome outc n).subtree.map Node.GetOutcome :=
      List.mem_map_of_mem _ hm
    rw [hout] at hmem
    obtain ⟨k, _, hk⟩ := List.mem_map.mp hmem
    by_cases hko : outc = k.GetOutcome
    · rw [if_pos hko] at hk
      rw [← hk]
      exact fun h => hne h.symm
    · rw [if_neg hko] at hk
      rw [← hk]
      exact fun h => hko h.symm
  · have := congrArg List.length hout
    simpa using this

theorem C14_DeleteOutcome_sweeps_subtree_witness :
    (some 5 : Option Nat) ≠ none ∧
    (∀ m ∈ (Node.DeleteOutcome (some 5) exampleTree).subtree, m.GetOutcome ≠ some 5) ∧
    (Node.DeleteOutcome (some 5) exampleTree).subtree.map Node.GetOutcome
      = [none, none, some 6] ∧
    exampleTree.subtree.map Node.GetOutcome = [some 5, some 5, some 6] :=
  ⟨by decide, (C14_DeleteOutcome_sweeps_subtree exampleTree (some 5)).1 (by decide),
    by decide, by decide⟩

/-! ## Sibling queries -/

theorem gBlock.Find_nonneg : ∀ (l : List Node) (t : Nat), 0 ≤ gBlock.Find l t := by
  intro l
  induction l with
  | nil => intro t; simp [gBlock.Find]
  | cons c cs ih =>
    intro t
    unfold gBlock.Find
    have := ih t
    split
    · omega
    · split <;> omega

theorem gBlock.Find_eq_zero : ∀ (l : List Node) (t : Nat),
    t ∉ l.map Node.addr → gBlock.Find l t = 0 := by
  intro l
  induction l with
  | nil => intro t _; simp [gBlock.Find]
  | cons c cs ih =>
    intro t ht
    simp only [List.map_cons, List.mem_cons, not_or] at ht
    unfold gBlock.Find
    rw [if_neg (fun h => ht.1 h.symm), ih t ht.2]
    simp

/-- In a child list in which every node occurs once, `Find` of the node at position
`i` (0-based) is `i + 1`. -/
theorem gBlock.Find_eq : ∀ (l : List Node) (i : Nat) (n : Node),
    (l.map Node.addr).Nodup → l[i]? = some n → gBlock.Find l n.addr = (i : Int) + 1 := by
  intro l
  induction l with
  | nil => intro i n _ h; simp at h
  | cons c cs ih =>
    intro i n hnd h
    simp only [List.map_cons, List.nodup_cons] at hnd
    cases i with
    | zero =>
      simp only [List.getElem?_cons_zero, Option.some.injEq] at h
      subst h
      unfold gBlock.Find
      simp
    | succ i =>
      simp only [List.getElem?_cons_succ] at h
      have hmem : n.addr ∈ cs.map Node.addr := List.mem_map_of_mem _ (List.getElem?_mem h)
      have hne : ¬ (c.addr = n.addr) := fun hc => hnd.1 (hc ▸ hmem)
      have hrec := ih i n hnd.2 h
      unfold gBlock.Find
      rw [if_neg hne, hrec]
      have hnz : ¬ ((i : Int) + 1 = 0) := by omega
      rw [if_neg hnz]
      push_cast
      ring

/-- C15: in a well-formed tree, for a parent `p` at address `pa` whose child list holds
every child once and whose children point back to it, the node `n` at position `i`
(0-based; `i + 1` of `m` in the 1-based count) has `NextSibling()` the child at the next
position, null for the last child, and `PriorSibling()` the child at the previous
position, null for the first child; both calls complete, so no child-list index is out
of range; `PriorSibling(NextSibling(n))` is `n` whenever `NextSibling(n)` is not null;
and both are null for a node without parent. -/
theorem C15_sibling_queries (mem : Nat → NodePtr) (p : Node) (pa : Nat)
    (hmem : mem pa = some p) (hnd : (p.children.map Node.addr).Nodup)
    (hpar : ∀ c ∈ p.children, c.GetParent = some pa) :
    (∀ (i : Nat) (n : Node), p.children[i]? = some n →
      n.NextSibling mem = some (p.children[i + 1]?) ∧
      n.PriorSibling mem = some (if i = 0 then none else p.children[i - 1]?) ∧
      (i + 1 < p.children.length → ∃ s, n.NextSibling mem = some (some s)) ∧
      (0 < i → ∃ s, n.PriorSibling mem = some (some s)) ∧
      (∀ s : Node, n.NextSibling mem = some (some s) → s.PriorSibling mem = some (some n))) ∧
    (∀ root : Node, root.GetParent = none →
      root.NextSibling mem = some none ∧ root.PriorSibling mem = some none) := by
  have hnext : ∀ (i : Nat) (n : Node), p.children[i]? = some n →
      n.NextSibling mem = some (p.children[i + 1]?) := by
    intro i n hn
    have hilt : i < p.children.length := (List.getElem?_eq_some_iff.mp hn).1
    unfold Node.NextSibling
    rw [hpar n (List.getElem?_mem hn)]
    simp only [hmem, gBlock.Find_eq p.children i n hnd hn]
    by_cases hlast : (i : Int) + 1 = (p.children.length : Int)
    · rw [if_pos hlast, List.getElem?_eq_none (by omega)]
    · rw [if_neg hlast]
      have hlt : i + 1 < p.children.length := by omega
      have hcast : (i : Int) + 1 + 1 = ((i + 1 : Nat) : Int) + 1 := by push_cast; ring
      rw [hcast, gbtArray.get?_succ, List.getElem?_eq_getElem hlt]
  have hprior : ∀ (i : Nat) (n : Node), p.children[i]? = some n →
      n.PriorSibling mem = some (if i = 0 then none else p.children[i - 1]?) := by
    intro i n hn
    have hilt : i < p.children.length := (List.getElem?_eq_some_iff.mp hn).1
    unfold Node.PriorSibling
    rw [hpar n (List.getElem?_mem hn)]
    simp only [hmem, gBlock.Find_eq p.children i n hnd hn]
    by_cases hfirst : i = 0
    · subst hfirst
      simp
    · have hne : ¬ ((i : Int) + 1 = 1) := by omega
      rw [if_neg hne, if_neg hfirst]
      have hlt : i - 1 < p.children.length := by omega
      have hcast : (i : Int) + 1 - 1 = ((i - 1 : Nat) : Int) + 1 := by omega
      rw [hcast, gbtArray.get?_succ, List.getElem?_eq_getElem hlt]
  constructor
  · intro i n hn
    refine ⟨hnext i n hn, hprior i n hn, ?_, ?_, ?_⟩
    · intro hlt
      exact ⟨p.children[i + 1], by rw [hnext i n hn, List.getElem?_eq_getElem hlt]⟩
    · intro hpos
      have hlt : i - 1 < p.children.length := by
        have := (List.getElem?_eq_some_iff.mp hn).1
        omega
      refine ⟨p.children[i - 1], ?_⟩
      rw [hprior i n hn, if_neg (by omega), List.getElem?_eq_getElem hlt]
    · intro s hs
      rw [hnext i n hn] at hs
      have hs1 : p.children[i + 1]? = some s := Option.some.inj hs
      rw [hprior (i + 1) s hs1, if_neg (by omega)]
      have : i + 1 - 1 = i := by omega
      rw [this, hn]
  · intro root hroot
    unfold Node.NextSibling Node.PriorSibling
    rw [hroot]
    exact ⟨rfl, rfl⟩

theorem C15_sibling_queries_witness :
    exampleMem 1 = some exampleTree ∧ (exampleTree.children.map Node.addr).Nodup ∧
    (∀ c ∈ exampleTree.children, c.GetParent = some 1) ∧
    exampleTree.children[0]? = some exampleLeft ∧
    (exampleLeft.NextSibling exampleMem).map (Option.map Node.addr) = some (some 3) ∧
    (exampleRight.NextSibling exampleMem).map (Option.map Node.addr) = some none ∧
    (exampleRight.PriorSibling exampleMem).map (Option.map Node.addr) = some (some 2) ∧
    exampleLeft.NextSibling exampleMem = some (exampleTree.children[0 + 1]?) :=
  have h := (C15_sibling_queries exampleMem exampleTree 1 rfl (by decide)
    (by decide)).1 0 exampleLeft rfl
  ⟨rfl, by decide, by decide, rfl, by decide, by decide, by decide, h.1⟩

/-! ## `TreeWindow::SubgameMark` -/

/-- C16: the `SubgameMark` handler, with the cursor on a node, completes, and calls
`MarkSubgame(cursor)` if and only if the cursor node is not its own subgame root and
`IsLegalSubgame(cursor)` holds; every `MarkSubgame` call it makes is on the cursor, with
`IsLegalSubgame` true; when `IsLegalSubgame(cursor)` is false it makes no `MarkSubgame`
call and leaves the game as it was. -/
theorem C16_SubgameMark_gated {Efg : Type} (ops : EfgOps Efg) (w : TreeWindow Efg)
    (cursor : Nat) (hc : w.m_cursor = some cursor) :
    ∃ (w1 : TreeWindow Efg) (calls : List GuiCall),
      TreeWindow.SubgameMark ops w = some (w1, calls) ∧
      (GuiCall.MarkSubgame cursor ∈ calls ↔
        (ops.GetSubgameRoot w.m_efg cursor ≠ some cursor ∧
          ops.IsLegalSubgame w.m_efg cursor = true)) ∧
      (GuiCall.MarkSubgame cursor ∈ calls → w1.m_efg = ops.MarkSubgame w.m_efg cursor) ∧
      (∀ n, GuiCall.MarkSubgame n ∈ calls →
        n = cursor ∧ ops.IsLegalSubgame w.m_efg n = true) ∧
      (ops.IsLegalSubgame w.m_efg cursor = false →
        w1.m_efg = w.m_efg ∧ ∀ n, GuiCall.MarkSubgame n ∉ calls) ∧
      (GuiCall.MarkSubgame cursor ∉ calls → w1.m_efg = w.m_efg) := by
  unfold TreeWindow.SubgameMark
  rw [hc]
  by_cases hroot : ops.GetSubgameRoot w.m_efg cursor = some cursor
  · refine ⟨w, [], by simp [hroot], ?_⟩
    simp [hroot]
  · by_cases hlegal : ops.IsLegalSubgame w.m_efg cursor = false
    · refine ⟨w, [GuiCall.MessageBox "This node is not a root of a valid subgame"],
        by simp [hroot, hlegal], ?_⟩
      simp [hlegal]
    · have ht : ops.IsLegalSubgame w.m_efg cursor = true := by
        cases h : ops.IsLegalSubgame w.m_efg cursor with
        | false => exact absurd h hlegal
        | true => rfl
      refine ⟨{ w with m_efg := ops.MarkSubgame w.m_efg cursor },
        [GuiCall.MarkSubgame cursor, GuiCall.RefreshLayout], by simp [hroot, ht, hc], ?_⟩
      simp [hroot, ht]

theorem C16_SubgameMark_gated_witness :
    (⟨[], some 2⟩ : TreeWindow (List Nat)).m_cursor = some 2 ∧
    TreeWindow.SubgameMark exampleOps ⟨[], some 2⟩
      = some (⟨[2], some 2⟩, [GuiCall.MarkSubgame 2, GuiCall.RefreshLayout]) ∧
    TreeWindow.SubgameMark exampleOps ⟨[], some 3⟩
      = some (⟨[], some 3⟩, [GuiCall.MessageBox "This node is not a root of a valid subgame"]) ∧
    TreeWindow.SubgameMark exampleOps ⟨[2], some 2⟩ = some (⟨[2], some 2⟩, []) ∧
    ∃ (w1 : TreeWindow (List Nat)) (calls : List GuiCall),
      TreeWindow.SubgameMark exampleOps ⟨[], some 2⟩ = some (w1, calls) ∧
      (GuiCall.MarkSubgame 2 ∈ calls ↔
        (exampleOps.GetSubgameRoot [] 2 ≠ some 2 ∧ exampleOps.IsLegalSubgame [] 2 = true)) :=
  have h := C16_SubgameMark_gated exampleOps ⟨[], some 2⟩ 2 rfl
  ⟨rfl, rfl, rfl, rfl, by
    obtain ⟨w1, calls, h1, h2, _⟩ := h
    exact ⟨w1, calls, h1, h2⟩⟩

/-! ## The effect of `RemoveStrategy` on the counts -/

theorem list_set_same {α : Type} :
    ∀ (l : List α) (k : Nat) (v : α), l[k]? = some v → l.set k v = l := by
  intro l
  induction l with
  | nil => intro k v h; simp at h
  | cons x xs ih =>
    intro k v h
    cases k with
    | zero =>
      simp only [List.getElem?_cons_zero, Option.some.injEq] at h
      rw [List.set_cons_zero, h]
    | succ k =>
      simp only [List.getElem?_cons_succ] at h
      rw [List.set_cons_succ, ih k v h]

theorem int_sum_set :
    ∀ (l : List Int) (k : Nat) (old v : Int), l[k]? = some old →
      (l.set k v).sum = l.sum + (v - old) := by
  intro l
  induction l with
  | nil => intro k old v h; simp at h
  | cons x xs ih =>
    intro k old v h
    cases k with
    | zero =>
      simp only [List.getElem?_cons_zero, Option.some.injEq] at h
      subst h
      simp only [List.set_cons_zero, List.sum_cons]
      ring
    | succ k =>
      simp only [List.getElem?_cons_succ] at h
      simp only [List.set_cons_succ, List.sum_cons, ih k old v h]
      ring

/-- `NumStrats(q)` reads row `q` of the table only. -/
theorem gbtNfgSupport.NumStrats_congr (a b : gbtNfgSupport) (q : Int)
    (h : gbtArray.get? b.m_strategies q = gbtArray.get? a.m_strategies q) :
    b.NumStrats q = a.NumStrats q := by
  cases hrow : gbtArray.get? a.m_strategies q with
  | none =>
    rw [hrow] at h
    unfold gbtNfgSupport.NumStrats gbtPVector.rowLength?
    rw [h, hrow]
  | some row =>
    rw [hrow] at h
    have h1 := (gbtArray.get?_some_bounds hrow).1
    rw [gbtArray.get?_eq _ _ h1] at hrow h
    have e1 : q = (((q - 1).toNat : Nat) : Int) + 1 := by omega
    rw [e1, gbtNfgSupport.NumStrats_eq a _ row hrow, gbtNfgSupport.NumStrats_eq b _ row h]

/-- Writing flag `j` of row `i` of a table: what the table, the row sum and the sum of
all flags become. -/
theorem table_write_flag (rows : List (List Int)) (i j : Nat) (row : List Int) (f v : Int)
    (hrow : rows[i]? = some row) (hf : row[j]? = some f) :
    (rows.set i (row.set j v))[i]? = some (row.set j v) ∧
    (row.set j v).sum = row.sum + (v - f) ∧
    ((rows.set i (row.set j v)).map List.sum).sum = (rows.map List.sum).sum + (v - f) ∧
    (f = v → rows.set i (row.set j v) = rows) ∧
    (∀ w : Int, (rows.set i (row.set j v)).set i ((row.set j v).set j w)
      = rows.set i (row.set j w)) := by
  have hi : i < rows.length := (List.getElem?_eq_some_iff.mp hrow).1
  have hsum := int_sum_set row j f v hf
  refine ⟨List.getElem?_set_self hi, hsum, ?_, ?_, ?_⟩
  · rw [List.map_set, int_sum_set (rows.map List.sum) i row.sum _
      (by rw [List.getElem?_map, hrow]; rfl), hsum]
    ring
  · intro hfv
    subst hfv
    rw [list_set_same row j f hf, list_set_same rows i row hrow]
  · intro w
    rw [List.set_set, List.set_set]

/-- C21: for a support of an indexed game and a strategy `s` of player `p`,
`RemoveStrategy(s)` completes.  If `s` is contained, it lowers `NumStrats(p)` and
`ProfileLength()` by exactly 1, leaves `NumStrats(q)` as it was for every other player
`q`, and `AddStrategy(s)` afterwards gives back the original support, equal under `==`.
If `s` is not contained, `RemoveStrategy(s)` changes nothing; and removing `s` a second
time changes nothing either. -/
theorem C21_removal_counts (g : gbtNfgGame) (hg : g.Indexed) (a : gbtNfgSupport)
    (ha : gbtNfgSupport.Reachable g a) (p : Int) (s : gbtNfgStrategy)
    (hs : g.IsStrategyOf p s) :
    ∃ b, a.RemoveStrategy s = some b ∧
      (a.Contains s = some true →
        (∃ n, a.NumStrats p = some n ∧ b.NumStrats p = some (n - 1)) ∧
        (∃ m, a.ProfileLength = some m ∧ b.ProfileLength = some (m - 1)) ∧
        (∀ q : Int, q ≠ p → b.NumStrats q = a.NumStrats q) ∧
        (∃ c, b.AddStrategy s = some c ∧ c = a ∧ c.eq a = true)) ∧
      (a.Contains s = some false → b = a) ∧
      (∃ b2, b.RemoveStrategy s = some b2 ∧ b2 = b) := by
  have ia := gbtNfgSupport.Reachable_support_inv g ha
  obtain ⟨t, ht, _, _, _⟩ := gbtNfgSupport.flip_spec g hg a ia p s hs 0
  have hb : a.RemoveStrategy s = some { a with m_strategies := t } := by
    unfold gbtNfgSupport.RemoveStrategy
    rw [ht]
  have ib : gbtNfgSupport.Inv g { a with m_strategies := t } :=
    gbtNfgSupport.set_inv g a t _ _ 0 (Or.inl rfl) ia ht
  obtain ⟨_, _, _, _, _, hflags, hpl, _, _, _⟩ :=
    gbtNfgSupport.slot_of_strategy g hg a ia p s hs
  obtain ⟨row, h1, hrow, h2, h3, rfl⟩ := gbtPVector.set?_some_row ht
  rw [hpl] at hrow h1
  have hj : (s.GetId - 1).toNat < row.length := by omega
  obtain ⟨f, hf⟩ : ∃ f, row[(s.GetId - 1).toNat]? = some f :=
    ⟨_, List.getElem?_eq_getElem hj⟩
  obtain ⟨hrow0, hsum0, htot0, hsame0, hagain0⟩ :=
    table_write_flag a.m_strategies _ _ row f 0 hrow hf
  have hfv : f = 0 ∨ f = 1 := by
    obtain ⟨_, row1, _, hrow1, _, hfl, _⟩ := gbtNfgSupport.slot_of_strategy g hg a ia p s hs
    rw [hpl, gbtArray.get?_eq _ _ h1, hrow] at hrow1
    cases hrow1
    exact hfl f (List.getElem?_mem hf)
  have hcont : a.Contains s = some (decide (f ≠ 0)) := by
    unfold gbtNfgSupport.Contains
    rw [hpl, gbtPVector.get?_of_getElem? _ _ _ row h1 h2 hrow, hf]
  have e1 : p = (((p - 1).toNat : Nat) : Int) + 1 := by omega
  simp only [hpl] at hb ib hrow0 htot0 hsame0 hagain0 ⊢
  refine ⟨_, hb, ?_, ?_, ?_⟩
  · intro hc
    rw [hcont] at hc
    have hf1 : f = 1 := by
      rcases hfv with h0 | h1'
      · rw [h0] at hc; simp at hc
      · exact h1'
    subst hf1
    refine ⟨⟨row.sum, ?_, ?_⟩, ⟨(a.m_strategies.map List.sum).sum, ?_, ?_⟩, ?_, ?_⟩
    · have := gbtNfgSupport.NumStrats_eq a _ row hrow
      rw [← e1] at this
      exact this
    · have := gbtNfgSupport.NumStrats_eq
        ({ a with m_strategies :=
            a.m_strategies.set (p - 1).toNat (row.set (s.GetId - 1).toNat 0) } : gbtNfgSupport)
        _ _ hrow0
      rw [← e1] at this
      rw [this, hsum0]
      congr 1
    · exact gbtNfgSupport.ProfileLength_eq a
    · rw [gbtNfgSupport.ProfileLength_eq]
      simp only []
      rw [htot0]
      congr 1
    · intro q hq
      apply gbtNfgSupport.NumStrats_congr
      simp only []
      by_cases hq1 : 1 ≤ q
      · rw [gbtArray.get?_eq _ _ hq1, gbtArray.get?_eq _ _ hq1]
        have hne : (p - 1).toNat ≠ (q - 1).toNat := by omega
        rw [List.getElem?_set_ne hne]
      · unfold gbtArray.get?
        rw [if_neg hq1, if_neg hq1]
    · obtain ⟨t2, ht2, _, _, _⟩ := gbtNfgSupport.flip_spec g hg _ ib p s hs 1
      obtain ⟨row2, _, hrow2, _, _, ht2eq⟩ := gbtPVector.set?_some_row ht2
      simp only [hpl] at hrow2 ht2eq
      rw [hrow0] at hrow2
      cases hrow2
      rw [hagain0 1, (table_write_flag a.m_strategies _ _ row 1 1 hrow hf).2.2.2.1 rfl] at ht2eq
      subst ht2eq
      refine ⟨a, ?_, rfl, ?_⟩
      · unfold gbtNfgSupport.AddStrategy
        rw [ht2]
      · simp [gbtNfgSupport.eq]
  · intro hc
    rw [hcont] at hc
    have hf0 : f = 0 := by
      by_contra hne
      simp [hne] at hc
    rw [hsame0 hf0]
  · obtain ⟨t2, ht2, _, _, _⟩ := gbtNfgSupport.flip_spec g hg _ ib p s hs 0
    obtain ⟨row2, _, hrow2, _, _, ht2eq⟩ := gbtPVector.set?_some_row ht2
    simp only [hpl] at hrow2 ht2eq
    rw [hrow0] at hrow2
    cases hrow2
    rw [hagain0 0] at ht2eq
    subst ht2eq
    refine ⟨_, ?_, rfl⟩
    unfold gbtNfgSupport.RemoveStrategy
    rw [ht2]

theorem C21_removal_counts_witness :
    exampleGame.Indexed ∧ gbtNfgSupport.Reachable exampleGame exampleSupportFull ∧
    exampleGame.IsStrategyOf 2 exampleStrategy ∧
    exampleSupportFull.Contains exampleStrategy = some true ∧
    exampleSupportFull.RemoveStrategy exampleStrategy = some exampleSupportSmall ∧
    exampleSupportFull.NumStrats 2 = some 3 ∧ exampleSupportSmall.NumStrats 2 = some 2 ∧
    exampleSupportFull.ProfileLength = some 5 ∧ exampleSupportSmall.ProfileLength = some 4 ∧
    exampleSupportSmall.AddStrategy exampleStrategy = some exampleSupportFull ∧
    ∃ b, exampleSupportFull.RemoveStrategy exampleStrategy = some b ∧
      (∀ q : Int, q ≠ 2 → b.NumStrats q = exampleSupportFull.NumStrats q) ∧
      (∃ b2, b.RemoveStrategy exampleStrategy = some b2 ∧ b2 = b) :=
  have hs : exampleGame.IsStrategyOf 2 exampleStrategy := ⟨3, by decide⟩
  have hc : exampleSupportFull.Contains exampleStrategy = some true := by decide
  have h := C21_removal_counts exampleGame (by decide) exampleSupportFull
    gbtNfgSupport.Reachable.init 2 exampleStrategy hs
  have h5 : ∃ b, exampleSupportFull.RemoveStrategy exampleStrategy = some b ∧
      (∀ q : Int, q ≠ 2 → b.NumStrats q = exampleSupportFull.NumStrats q) ∧
      (∃ b2, b.RemoveStrategy exampleStrategy = some b2 ∧ b2 = b) := by
    obtain ⟨b, hb, hcontained, _, hidem⟩ := h
    exact ⟨b, hb, (hcontained hc).2.2.1, hidem⟩
  ⟨by decide, gbtNfgSupport.Reachable.init, hs, hc, by decide, by decide, by decide,
    by decide, by decide, by decide, h5⟩

/-! ## A game whose index space does not fit a `long` -/

set_option maxRecDepth 100000 in
theorem bigGame_indexed : bigGame.Indexed := by decide

set_option maxRecDepth 100000 in
theorem bigGame_playable : bigGame.Playable := by decide

set_option maxRecDepth 100000 in
theorem bigContingency_index :
    bigContingency.map gbtNfgContingency.GetIndex = some (-7639930332325614904) := by
  decide

set_option maxRecDepth 100000 in
theorem bigContingency_encode :
    bigContingency.map (fun c => encodeProfile c.profile) = some 10806813741383936712 := by
  decide

set_option maxRecDepth 100000 in
theorem bigOps_valid : ∀ op ∈ bigOps, bigGame.IsStrategyOf op.1 op.2 := by
  intro op hop
  simp only [bigOps, List.mem_cons, List.mem_singleton, List.not_mem_nil, or_false] at hop
  rcases hop with rfl | rfl
  · exact ⟨3, by decide⟩
  · exact ⟨3, by decide⟩

theorem gbtNfgContingency.SetAll_reachable (g : gbtNfgGame) :
    ∀ (ops : List (Int × gbtNfgStrategy)) (c d : gbtNfgContingency),
      gbtNfgContingency.Reachable g c → (∀ op ∈ ops, g.IsStrategyOf op.1 op.2) →
      c.SetAll ops = some d → gbtNfgContingency.Reachable g d := by
  intro ops
  induction ops with
  | nil =>
    intro c d hc _ h
    simp only [gbtNfgContingency.SetAll, Option.some.injEq] at h
    subst h
    exact hc
  | cons op rest ih =>
    intro c d hc hops h
    obtain ⟨p, s⟩ := op
    unfold gbtNfgContingency.SetAll at h
    split at h
    · cases h
    · rename_i c1 hc1
      exact ih c1 d
        (gbtNfgContingency.Reachable.set c c1 p s hc (hops (p, s) (List.mem_cons_self _ _)) hc1)
        (fun op hop => hops op (List.mem_cons_of_mem _ hop)) h

/-- The contingency `bigContingency` exists, and is reached from the constructor by the
calls `bigOps`. -/
theorem bigContingency_reachable :
    ∃ c0 c, gbtNfgContingency.new bigGame = some c0 ∧ c0.SetAll bigOps = some c ∧
      bigContingency = some c ∧ gbtNfgContingency.Reachable bigGame c := by
  have hidx := bigContingency_index
  cases hb : bigContingency with
  | none => rw [hb] at hidx; cases hidx
  | some c =>
    have hb2 := hb
    unfold bigContingency at hb2
    split at hb2
    · cases hb2
    · rename_i c0 hc0
      exact ⟨c0, c, hc0, hb2, rfl,
        gbtNfgContingency.SetAll_reachable bigGame bigOps c0 c
          (gbtNfgContingency.Reachable.init c0 hc0) bigOps_valid hb2⟩

/-- C1 (as stated, refuted): in the indexed game of 40 players with three strategies
each, after the constructor and the calls `Set(40, 3rd)`, `Set(39, 3rd)`, `GetIndex()` is
`-7639930332325614904`, while the sum of the contributions of the profile is
`10806813741383936712`, which no `long` holds. -/
theorem C1_index_overflows_long :
    bigGame.Indexed ∧ bigGame.Playable ∧
    (∀ op ∈ bigOps, bigGame.IsStrategyOf op.1 op.2) ∧
    ∃ c0 c, gbtNfgContingency.new bigGame = some c0 ∧ c0.SetAll bigOps = some c ∧
      c.GetIndex = -7639930332325614904 ∧
      encodeProfile c.profile = 10806813741383936712 ∧
      c.GetIndex ≠ encodeProfile c.profile := by
  obtain ⟨c0, c, hc0, hc, hb, _⟩ := bigContingency_reachable
  have h1 := bigContingency_index
  have h2 := bigContingency_encode
  rw [hb] at h1 h2
  have e1 : c.GetIndex = -7639930332325614904 := Option.some.inj h1
  have e2 : encodeProfile c.profile = 10806813741383936712 := Option.some.inj h2
  refine ⟨bigGame_indexed, bigGame_playable, bigOps_valid, c0, c, hc0, hc, e1, e2, ?_⟩
  rw [e1, e2]
  decide

/-- C4 (as stated, refuted): in the indexed game of 40 players with three strategies
each, the contingency reached by `Set(40, 3rd)`, `Set(39, 3rd)` has the negative
`GetIndex()` `-7639930332325614904`, outside `0 ..< product of the strategy counts`. -/
theorem C4_index_negative_beyond_long :
    bigGame.Indexed ∧
    ∃ c, gbtNfgContingency.Reachable bigGame c ∧ c.GetIndex = -7639930332325614904 ∧
      ¬ (0 ≤ c.GetIndex ∧ c.GetIndex < bigGame.NumContingencies) := by
  obtain ⟨_, c, _, _, hb, hreach⟩ := bigContingency_reachable
  have h1 := bigContingency_index
  rw [hb] at h1
  have e1 : c.GetIndex = -7639930332325614904 := Option.some.inj h1
  refine ⟨bigGame_indexed, c, hreach, e1, ?_⟩
  rw [e1]
  intro hcon
  exact absurd hcon.1 (by decide)

end Gambit
